import Mathlib

/-!
# StakeCube Protocol: chain scanner and protocol state machine

A shallow embedding of `src/lib/index.js` (the chain-scanning pipeline and
`processState`) together with the properties its specification states.

Layout: JavaScript strings and numbers, the node's JSON shapes, the effects a
run can have (RPC lookups, calls into the token module, console output),
`processState`, the scanner, and then the theorems.
-/

namespace SCP

/-! ## JavaScript strings -/

/-- A JavaScript string, as the list of its code points. The strings of this
program come from the node's JSON and from UTF-8 decoding, hence are
well-formed; on those, splitting, comparing and testing a leading part agree
with the code-unit view; `length` and the hex decoder read the code units (see
`jsLength`, `codeUnits`). -/
abbrev JSString := List Char

/-- The `length` property of a string: its number of UTF-16 code units. -/
def jsLength : JSString → Nat
  | [] => 0
  | c :: cs => (if c.toNat < 65536 then 1 else 2) + jsLength cs

/-- The expression `s.startsWith(p)`. -/
def startsWith : JSString → JSString → Bool
  | _, [] => true
  | [], _ :: _ => false
  | c :: cs, p :: ps => c == p && startsWith cs ps

/-- Worker of `split`: `skip` counts the characters of a separator just
matched that are still to be dropped, `acc` is the current field reversed. -/
def splitGo (sep : JSString) : JSString → Nat → JSString → List JSString
  | [], _, acc => [acc.reverse]
  | _ :: cs, skip + 1, acc => splitGo sep cs skip acc
  | c :: cs, 0, acc =>
    if startsWith (c :: cs) sep then acc.reverse :: splitGo sep cs (sep.length - 1) []
    else splitGo sep cs 0 (c :: acc)

/-- The expression `s.split(sep)` for a non-empty separator. -/
def split (s sep : JSString) : List JSString := splitGo sep s 0 []

/-- The function `isNil(a)` on a possibly undefined string: undefined, null
and the empty string are nil (the empty string is falsy). -/
def isNil : Option JSString → Bool
  | none => true
  | some s => s.isEmpty

/-- The function `isEmpty(a)` on a possibly undefined string. For a string
that is not nil the second disjunct `a.length && a.length === 0` is false. -/
def isEmpty (a : Option JSString) : Bool :=
  isNil a || (match a with
    | some s => jsLength s != 0 && jsLength s == 0
    | none => false)

/-! ## JavaScript numbers -/

/-- A JavaScript number by its exact value: `fin num k` is the finite double
`num / 2 ^ k` (every finite double is such a quotient; the two zeros are not
told apart, the program never distinguishes them). -/
inductive JSNumber where
  | NaN
  | Infinity (negative : Bool)
  | fin (num : Int) (k : Nat)
deriving DecidableEq, Repr

namespace JSNumber

/-- The double with integer value `i`. -/
def ofInt (i : Int) : JSNumber := fin i 0

/-- The comparison `a > c` for an integer constant `c`. -/
def gt (a : JSNumber) (c : Int) : Bool :=
  match a with
  | NaN => false
  | Infinity negative => !negative
  | fin num k => decide (c * 2 ^ k < num)

/-- The comparison `a >= c` for an integer constant `c`. -/
def ge (a : JSNumber) (c : Int) : Bool :=
  match a with
  | NaN => false
  | Infinity negative => !negative
  | fin num k => decide (c * 2 ^ k ≤ num)

/-- The strict equality `a === c` for an integer constant `c`. -/
def strictEq (a : JSNumber) (c : Int) : Bool :=
  match a with
  | fin num k => decide (num = c * 2 ^ k)
  | _ => false

/-- The integer a number denotes, when it is finite and integral. -/
def toInt? : JSNumber → Option Int
  | fin num k => if num % 2 ^ k = 0 then some (num / 2 ^ k) else none
  | _ => none

/-- The test `Number.isSafeInteger(a)`: integral with absolute value at most
2^53 - 1. -/
def isSafeInteger (a : JSNumber) : Bool :=
  match a.toInt? with
  | some i => decide (-9007199254740991 ≤ i ∧ i ≤ 9007199254740991)
  | none => false

end JSNumber

/-- Whether a character is white space or a line terminator for the purpose
of string-to-number conversion. -/
def isStrWhiteSpaceChar (c : Char) : Bool :=
  let n := c.toNat
  n == 9 || n == 10 || n == 11 || n == 12 || n == 13 || n == 32 || n == 160 ||
  n == 5760 || (8192 ≤ n && n ≤ 8202) || n == 8232 || n == 8233 || n == 8239 ||
  n == 8287 || n == 12288 || n == 65279

/-- Strip leading and trailing white space. -/
def trimWhiteSpace (s : JSString) : JSString :=
  ((s.dropWhile isStrWhiteSpaceChar).reverse.dropWhile isStrWhiteSpaceChar).reverse

/-- The value of a digit in the given base, if the character is one. -/
def digitValue (base : Nat) (c : Char) : Option Nat :=
  let n := c.toNat
  let v := if 48 ≤ n ∧ n ≤ 57 then some (n - 48)
    else if 97 ≤ n ∧ n ≤ 102 then some (n - 87)
    else if 65 ≤ n ∧ n ≤ 70 then some (n - 55)
    else none
  match v with
  | some d => if d < base then some d else none
  | none => none

/-- Read a whole string as digits of the given base, most significant first,
on top of the accumulator; `none` when some character is not a digit. -/
def digitsValue (base : Nat) : JSString → Nat → Option Nat
  | [], acc => some acc
  | c :: cs, acc =>
    match digitValue base c with
    | some d => digitsValue base cs (acc * base + d)
    | none => none

/-- Split off the longest leading run of decimal digits. -/
def spanDigits : JSString → JSString × JSString
  | [] => ([], [])
  | c :: cs =>
    match digitValue 10 c with
    | some _ => ((c :: (spanDigits cs).1), (spanDigits cs).2)
    | none => ([], c :: cs)

/-- Number of binary digits of `n`, by halving at most `fuel` times. -/
def bitLenAux : Nat → Nat → Nat
  | 0, _ => 0
  | fuel + 1, n => if n = 0 then 0 else bitLenAux fuel (n / 2) + 1

/-- Number of binary digits of `n`. -/
def bitLen (n : Nat) : Nat := bitLenAux n n

/-- The double nearest to the positive rational `n / d` (`0 < n`, `0 < d`),
ties to even, with gradual underflow and overflow to infinity. -/
def roundToDouble (negative : Bool) (n d : Nat) : JSNumber :=
  -- a binary exponent e0 with 2^52 ≤ n / (d * 2^e0) < 2^54
  let e0 : Int := (bitLen n : Int) - (bitLen d : Int) - 53
  let scaled : Int → Nat × Nat := fun e =>
    if 0 ≤ e then (n, d * 2 ^ e.toNat) else (n * 2 ^ (-e).toNat, d)
  let e1 : Int := if 2 ^ 53 ≤ (scaled e0).1 / (scaled e0).2 then e0 + 1 else e0
  let e : Int := if e1 < -1074 then -1074 else e1
  let num := (scaled e).1
  let den := (scaled e).2
  let q := num / den
  let r := num % den
  let m := if den < 2 * r ∨ (2 * r = den ∧ q % 2 = 1) then q + 1 else q
  let sign : Int := if negative then -1 else 1
  if 0 ≤ e then
    if 2 ^ 1024 ≤ m * 2 ^ e.toNat then JSNumber.Infinity negative
    else JSNumber.fin (sign * (m * 2 ^ e.toNat : Nat)) 0
  else if m % 2 ^ (-e).toNat = 0 then JSNumber.fin (sign * (m / 2 ^ (-e).toNat : Nat)) 0
  else JSNumber.fin (sign * (m : Nat)) (-e).toNat

/-- The double for the decimal value `mant * 10 ^ exp`, where `len` is the
number of digits `mant` was written with. Values outside the range of the
doubles are settled without computing the power of ten. -/
def decimalToDouble (negative : Bool) (mant : Nat) (len : Nat) (exp : Int) : JSNumber :=
  if mant = 0 then JSNumber.fin 0 0
  else if 400 < exp then JSNumber.Infinity negative
  else if exp < -((len : Int) + 400) then JSNumber.fin 0 0
  else if 0 ≤ exp then roundToDouble negative (mant * 10 ^ exp.toNat) 1
  else roundToDouble negative mant (10 ^ (-exp).toNat)

/-- The exponent part of a decimal literal: empty, or `e`/`E`, an optional
sign and at least one digit. -/
def exponentPart : JSString → Option Int
  | [] => some 0
  | c :: rest =>
    if c = 'e' ∨ c = 'E' then
      match rest with
      | '+' :: ds => if ds.isEmpty then none else (digitsValue 10 ds 0).map (fun v => (v : Int))
      | '-' :: ds => if ds.isEmpty then none else (digitsValue 10 ds 0).map (fun v => -(v : Int))
      | ds => if ds.isEmpty then none else (digitsValue 10 ds 0).map (fun v => (v : Int))
    else none

/-- An unsigned decimal literal (`Infinity`, `12`, `12.`, `12.5`, `.5`, each
with an optional exponent), as a number of the given sign. -/
def unsignedDecimal (negative : Bool) (s : JSString) : JSNumber :=
  if s = "Infinity".toList then JSNumber.Infinity negative
  else
    let ip := (spanDigits s).1
    match (spanDigits s).2 with
    | '.' :: afterDot =>
      let fp := (spanDigits afterDot).1
      if ip.isEmpty ∧ fp.isEmpty then JSNumber.NaN
      else
        match exponentPart (spanDigits afterDot).2, digitsValue 10 (ip ++ fp) 0 with
        | some ex, some mant =>
          decimalToDouble negative mant (ip ++ fp).length (ex - (fp.length : Int))
        | _, _ => JSNumber.NaN
    | rest =>
      if ip.isEmpty then JSNumber.NaN
      else
        match exponentPart rest, digitsValue 10 ip 0 with
        | some ex, some mant => decimalToDouble negative mant ip.length ex
        | _, _ => JSNumber.NaN

/-- A literal in base 2, 8 or 16 after its two-character marker. -/
def nonDecimal (base : Nat) (ds : JSString) : JSNumber :=
  if ds.isEmpty then JSNumber.NaN
  else
    match digitsValue base ds 0 with
    | some v => if v = 0 then JSNumber.fin 0 0 else roundToDouble false v 1
    | none => JSNumber.NaN

/-- The conversion `Number(s)` for a string `s`. -/
def stringToNumber (s : JSString) : JSNumber :=
  match trimWhiteSpace s with
  | [] => JSNumber.fin 0 0
  | '0' :: 'x' :: ds => nonDecimal 16 ds
  | '0' :: 'X' :: ds => nonDecimal 16 ds
  | '0' :: 'o' :: ds => nonDecimal 8 ds
  | '0' :: 'O' :: ds => nonDecimal 8 ds
  | '0' :: 'b' :: ds => nonDecimal 2 ds
  | '0' :: 'B' :: ds => nonDecimal 2 ds
  | '+' :: ds => unsignedDecimal false ds
  | '-' :: ds => unsignedDecimal true ds
  | ds => unsignedDecimal false ds

/-- The conversion `Number(a)` for a possibly undefined string:
`Number(undefined)` is NaN. -/
def Number : Option JSString → JSNumber
  | none => JSNumber.NaN
  | some s => stringToNumber s

/-! ## The node's JSON shapes -/

/-- The `scriptPubKey` of a transaction output. -/
structure ScriptPubKey where
  asm : Option JSString
  addresses : Option (List JSString)
deriving DecidableEq, Repr

/-- A transaction output. An absent `value` is represented by NaN: it fails
every comparison, as `undefined` does. -/
structure Vout where
  value : JSNumber
  scriptPubKey : Option ScriptPubKey
deriving DecidableEq, Repr

/-- A transaction input: the previous output it spends (a coinbase input
carries neither field). -/
structure Vin where
  txid : Option JSString
  vout : Option Nat
deriving DecidableEq, Repr

/-- A verbose raw transaction. An absent `txid` is represented by the empty
string: `isEmpty` holds of both. -/
structure RawTx where
  txid : JSString
  vin : Option (List Vin)
  vout : Option (List Vout)
deriving DecidableEq, Repr

/-- A block as `getblock` returns it. -/
structure Block where
  hash : JSString
  height : Int
  time : Int
  tx : List JSString
  nTx : Nat
  nextblockhash : Option JSString
deriving DecidableEq, Repr

/-- What a JavaScript run can throw. -/
inductive Fault where
  | typeError
  | referenceError
  | rpcFault
  | thrown (what : String)
deriving DecidableEq, Repr

deriving instance DecidableEq for Except

/-- The world outside the module. The node client `RPC.call(method, ...)` has
one field per method used: a call throws (`Except.error`) or answers, and a nil
answer (`null`, which is what JSON carries) is `none`; for `validateaddress` the answer `some b` stands for an
object whose `isvalid` is `true` exactly when `b`. `formatNameDefined` says
whether the global scope provides `formatName`, which the module uses in one
console message without defining it. -/
structure Env where
  getbestblockhash : Except Fault JSString
  getblock : JSString → Except Fault (Option Block)
  getblockhash : Int → Except Fault JSString
  getblockcount : Except Fault Int
  getrawtransaction : Option JSString → Except Fault (Option RawTx)
  validateaddress : Option JSString → Except Fault (Option Bool)
  formatNameDefined : Bool

/-! ## Tokens -/

/-- Modelled from the spec: one entry of an account's history (section 3;
`lib/token.js` is not part of the given source). -/
structure Activity where
  type : String
  amount : Int
  block : Int
  tx : JSString
deriving DecidableEq, Repr

/-- Modelled from the spec: an account of one token (section 3;
`lib/token.js` is not part of the given source). -/
structure Account where
  address : JSString
  balance : Int
  unclaimed_balance : Int
  activity : List Activity
deriving DecidableEq, Repr

/-- Modelled from the spec: the token objects of `lib/token.js`, which is not
part of the given source. Fields follow section 3 of the specification and the
arguments `processState` passes to the constructors; `inflation` and `minAge`
exist for version 2 only. -/
structure Token where
  version : Nat
  contract : JSString
  name : JSString
  ticker : JSString
  maxSupply : JSNumber
  creator : JSString
  owners : List Account
  inflation : Option JSNumber
  minAge : Option JSNumber
deriving DecidableEq, Repr

/-- Modelled from the spec: `new TOKENS.SCP1Token(contract, name, ticker,
maxSupply, creator, owners)`, a version-1 token. -/
def SCP1Token (contract name ticker : JSString) (maxSupply : JSNumber) (creator : JSString)
    (owners : List Account) : Token :=
  { version := 1, contract := contract, name := name, ticker := ticker, maxSupply := maxSupply,
    creator := creator, owners := owners, inflation := none, minAge := none }

/-- Modelled from the spec: `new TOKENS.SCP2Token(contract, name, ticker,
maxSupply, creator, owners, inflation, minAge)`, a version-2 token. -/
def SCP2Token (contract name ticker : JSString) (maxSupply : JSNumber) (creator : JSString)
    (owners : List Account) (inflation minAge : JSNumber) : Token :=
  { version := 2, contract := contract, name := name, ticker := ticker, maxSupply := maxSupply,
    creator := creator, owners := owners, inflation := some inflation, minAge := some minAge }

/-! ## Effects -/

/-- The console method used. -/
inductive Level where
  | log
  | warn
  | error
deriving DecidableEq, Repr

/-- The console messages of the scanner and of `processState`, one per call
site. -/
inductive Note where
  | tokenCreated
  | createInvalidFeeOutput
  | createFailedToVerifyOutputs
  | createIncorrectParams
  | createIncorrectParamCount
  | mintNonIssuerInput
  | mintByNonIssuer
  | mintFailed
  | burnNonIssuerInput
  | burnFailed
  | transferNonCallerInput
  | transferFailed
  | redeemNonIssuerInput
  | nonExistantContract
  | dump
  | txError
  | processStateFailure
  | messageFound
  | scanningBlockRange
  | scanDone
  | unableToScanBlocks
deriving DecidableEq, Repr

/-- What a run does to the outside: node lookups, calls into the token module
`TOKENS` (the methods of a token are recorded with the id the token was looked
up by), console output, and the entry into `processState`. -/
inductive Event where
  | getbestblockhash
  | getblock (hash : JSString)
  | getblockhash (height : Int)
  | getblockcount
  | getrawtransaction (txid : Option JSString)
  | validateaddress (address : Option JSString)
  | addToken (token : Token)
  | creditAccount (contract address : JSString) (amount : JSNumber) (tx : RawTx)
  | debitAccount (contract address : JSString) (amount : JSNumber) (tx : RawTx)
  | transfer (contract sender : JSString) (receiver : Option JSString) (amount : JSNumber)
      (tx : RawTx)
  | redeemRewards (contract address : JSString) (tx : RawTx)
  | setBlockHeight (height : Int)
  | processState (msg : JSString) (tx : RawTx)
  | console (level : Level) (note : Note)
deriving DecidableEq, Repr

/-- Whether an event is a call that changes balances: `creditAccount`,
`debitAccount`, `transfer` or `redeemRewards`. -/
def Event.isBalanceCall : Event → Bool
  | .creditAccount _ _ _ _ => true
  | .debitAccount _ _ _ _ => true
  | .transfer _ _ _ _ _ => true
  | .redeemRewards _ _ _ => true
  | _ => false

/-- Whether an event is a call that changes the ledger: a balance call or
`addToken`. -/
def Event.isLedgerCall : Event → Bool
  | .addToken _ => true
  | e => e.isBalanceCall

/-- The outcome of a run: the events it caused, in order, and how it ended
(a returned value or a thrown fault). -/
structure Run (α : Type) where
  events : List Event
  result : Except Fault α
deriving DecidableEq, Repr

/-! ## processState -/

/-- The first SCP block. -/
def nFirstBlock : Int := 155084

/-- The SCP deployment fee, in SCC. -/
def nDeployFee : Int := 10

/-- The address the deployment fee is paid to. -/
def strDeployFeeDest : JSString := "sccburnaddressXXXXXXXXXXXXXXSfqakF".toList

/-- A run that returns `v` after the given events. -/
def Run.done {α : Type} (events : List Event) (v : α) : Run α := ⟨events, .ok v⟩

/-- A run that throws after the given events. -/
def Run.fail {α : Type} (events : List Event) (f : Fault) : Run α := ⟨events, .error f⟩

/-- The expression `a.length` for a field `a` of `arrParams` that is known to
exist where this is used (0 stands for the length of a missing field). -/
def fieldLength : Option JSString → Nat
  | some s => jsLength s
  | none => 0

/-- The expression `o.scriptPubKey.addresses[0]` for a possibly undefined
output `o`: reading a property of undefined throws a TypeError, indexing past
the end of the addresses gives undefined. -/
def firstAddress : Option Vout → Except Fault (Option JSString)
  | none => .error .typeError
  | some o =>
    match o.scriptPubKey with
    | none => .error .typeError
    | some spk =>
      match spk.addresses with
      | none => .error .typeError
      | some addresses => .ok addresses[0]?

/-- The guard `if (!addr || isEmpty(addr)) throw what` on an address just
read. -/
def requireAddress (what : String) : Option JSString → Except Fault JSString
  | none => .error (.thrown what)
  | some a => if isNil (some a) || isEmpty (some a) then .error (.thrown what) else .ok a

/-- The expression `tx.vout[tx.vout.length - 1].scriptPubKey.addresses[0]`
and the guard after it (CREATE: the change output names the creator). -/
def creatorAddress (tx : RawTx) : Except Fault JSString :=
  match tx.vout with
  | none => .error .typeError
  | some vout =>
    match firstAddress vout.getLast? with
    | .error f => .error f
    | .ok a => requireAddress "Missing creator address!" a

/-- The expression `tx.vout[1].scriptPubKey.addresses[0]` and the guard after
it (contract calls: output 1 names the caller or issuer). -/
def callerAddress (what : String) (tx : RawTx) : Except Fault JSString :=
  match tx.vout with
  | none => .error .typeError
  | some vout =>
    match firstAddress vout[1]? with
    | .error f => .error f
    | .ok a => requireAddress what a

/-- The deployment fee test
`tx.vout[1] && tx.vout[1].scriptPubKey && tx.vout[1].scriptPubKey.addresses[0] &&
 tx.vout[1].scriptPubKey.addresses[0] === strDeployFeeDest && tx.vout[1].value >= nDeployFee`.
A missing `addresses` array throws; every other missing part makes the test
false. -/
def feeOutputOk (tx : RawTx) : Except Fault Bool :=
  match tx.vout with
  | none => .error .typeError
  | some vout =>
    match vout[1]? with
    | none => .ok false
    | some o =>
      match o.scriptPubKey with
      | none => .ok false
      | some spk =>
        match spk.addresses with
        | none => .error .typeError
        | some addresses =>
          match addresses[0]? with
          | none => .ok false
          | some a => .ok (!isNil (some a) && a == strDeployFeeDest && o.value.ge nDeployFee)

/-- The version of a CREATE message: 2 when the first field is not exactly
`SCPCREATE` and what follows the keyword converts to the number 2, else 1.
(`split` never returns an empty array, so the first field exists.) -/
def createVersion (arrParams : List JSString) : Nat :=
  match arrParams[0]? with
  | some p0 =>
    if p0 ≠ "SCPCREATE".toList ∧ (Number (split p0 "SCPCREATE".toList)[1]?).strictEq 2 then 2
    else 1
  | none => 1

/-- The CREATE branch of `processState`. -/
def processCreate (newMsg : JSString) (tx : RawTx) : Run Bool :=
  let arrParams := split newMsg " ".toList
  let nVersion := createVersion arrParams
  let nExpectedParams := if nVersion = 2 then 6 else 4
  -- Ensure we have the correct amount of params
  if arrParams.length = nExpectedParams then
    -- Sanity checks
    let check1 := decide (fieldLength arrParams[1]? > 0)
    let check2 := decide (fieldLength arrParams[2]? > 0)
    let check3_num := Number arrParams[3]?
    let check3 := check3_num.gt 0 && check3_num.isSafeInteger
    let check4_num := Number arrParams[4]?
    let check5_num := Number arrParams[5]?
    let check4 := if nVersion = 2 then check4_num.gt 1 && check4_num.isSafeInteger else true
    let check5 := if nVersion = 2 then check5_num.gt 1 && check5_num.isSafeInteger else true
    if check1 && check2 && check3 && (check4 && check5) then
      -- Params look good, now verify outputs (inside try/catch)
      match creatorAddress tx with
      | .error _ =>
        Run.done [.console .warn .createFailedToVerifyOutputs, .console .error .dump] true
      | .ok addrCreator =>
        match feeOutputOk tx with
        | .error _ =>
          Run.done [.console .warn .createFailedToVerifyOutputs, .console .error .dump] true
        | .ok true =>
          let newToken :=
            if nVersion = 1 then
              SCP1Token tx.txid (arrParams[1]?.getD []) (arrParams[2]?.getD []) check3_num
                addrCreator []
            else
              SCP2Token tx.txid (arrParams[1]?.getD []) (arrParams[2]?.getD []) check3_num
                addrCreator [] check4_num check5_num
          Run.done [.addToken newToken, .console .log .tokenCreated, .console .log .dump] true
        | .ok false => Run.done [.console .warn .createInvalidFeeOutput] true
    else Run.done [.console .warn .createIncorrectParams] true
  else Run.done [.console .warn .createIncorrectParamCount] true

/-- The authentication loop `for (const cVin of tx.vin)`: every input is
resolved through `getrawtransaction`, and `isAuthSafe` is cleared when the
first address of the referenced output differs from `addr`. There is no early
exit; a failing lookup or a missing part of the referenced output throws. -/
def authLoop (env : Env) (addr : JSString) : List Vin → Bool → Run Bool
  | [], isAuthSafe => Run.done [] isAuthSafe
  | cVin :: rest, isAuthSafe =>
    match env.getrawtransaction cVin.txid with
    | .error f => Run.fail [.getrawtransaction cVin.txid] f
    | .ok none => Run.fail [.getrawtransaction cVin.txid] .typeError
    | .ok (some vinTx) =>
      match vinTx.vout with
      | none => Run.fail [.getrawtransaction cVin.txid] .typeError
      | some vout =>
        match firstAddress (cVin.vout.bind fun i => vout[i]?) with
        | .error f => Run.fail [.getrawtransaction cVin.txid] f
        | .ok a =>
          let r := authLoop env addr rest (if a ≠ some addr then false else isAuthSafe)
          ⟨.getrawtransaction cVin.txid :: r.events, r.result⟩

/-- Caller authentication: `let isAuthSafe = true` followed by the loop over
`tx.vin` (a missing `vin` is not iterable). -/
def authenticate (env : Env) (addr : JSString) (tx : RawTx) : Run Bool :=
  match tx.vin with
  | none => Run.fail [] .typeError
  | some vin => authLoop env addr vin true

/-- The `mint` method. -/
def processMint (env : Env) (id : JSString) (cToken : Token) (arrParams : List JSString)
    (tx : RawTx) : Run Bool :=
  -- SCP-2 tokens can only mint a single time
  if cToken.version = 2 ∧ cToken.owners.length > 0 then Run.done [] true
  else
    let check3_num := Number arrParams[2]?
    let check3 := check3_num.gt 0 && check3_num.isSafeInteger
    if check3 then
      match callerAddress "Missing creator address!" tx with
      | .error f => Run.fail [] f
      | .ok addrCreator =>
        -- Check the change output against the token issuer
        if addrCreator = cToken.creator then
          match authenticate env addrCreator tx with
          | ⟨evs, .error f⟩ => Run.fail evs f
          | ⟨evs, .ok true⟩ =>
            Run.done (evs ++ [.creditAccount id cToken.creator check3_num tx]) true
          | ⟨evs, .ok false⟩ => Run.done (evs ++ [.console .error .mintNonIssuerInput]) true
        else Run.done [.console .error .mintByNonIssuer] true
    else Run.done [.console .error .mintFailed] true

/-- The `burn` method. -/
def processBurn (env : Env) (id : JSString) (arrParams : List JSString) (tx : RawTx) :
    Run Bool :=
  let check3_num := Number arrParams[2]?
  let check3 := check3_num.gt 0 && check3_num.isSafeInteger
  if check3 then
    match callerAddress "Missing caller address!" tx with
    | .error f => Run.fail [] f
    | .ok addrCaller =>
      match authenticate env addrCaller tx with
      | ⟨evs, .error f⟩ => Run.fail evs f
      | ⟨evs, .ok true⟩ => Run.done (evs ++ [.debitAccount id addrCaller check3_num tx]) true
      | ⟨evs, .ok false⟩ => Run.done (evs ++ [.console .error .burnNonIssuerInput]) true
  else Run.done [.console .error .burnFailed] true

/-- The `send` method. The rejection message calls `formatName`, which the
module does not define, and then `arrParams[3].substr`. -/
def processSend (env : Env) (id : JSString) (arrParams : List JSString) (tx : RawTx) :
    Run Bool :=
  match callerAddress "Missing caller address!" tx with
  | .error f => Run.fail [] f
  | .ok addrCaller =>
    -- Run sanity checks
    let check3_num := Number arrParams[2]?
    let check3 := check3_num.gt 0 && check3_num.isSafeInteger
    match env.validateaddress arrParams[3]? with
    | .error f => Run.fail [.validateaddress arrParams[3]?] f
    | .ok none => Run.fail [.validateaddress arrParams[3]?] .typeError
    | .ok (some check4) =>
      if check3 && check4 then
        match authenticate env addrCaller tx with
        | ⟨evs, .error f⟩ => Run.fail (.validateaddress arrParams[3]? :: evs) f
        | ⟨evs, .ok true⟩ =>
          Run.done (.validateaddress arrParams[3]? :: evs ++
            [.transfer id addrCaller arrParams[3]? check3_num tx]) true
        | ⟨evs, .ok false⟩ =>
          Run.done (.validateaddress arrParams[3]? :: evs ++
            [.console .error .transferNonCallerInput]) true
      else if !env.formatNameDefined then
        Run.fail [.validateaddress arrParams[3]?] .referenceError
      else if arrParams[3]?.isNone then Run.fail [.validateaddress arrParams[3]?] .typeError
      else Run.done [.validateaddress arrParams[3]?, .console .error .transferFailed] true

/-- The `redeem` method (version 2 only). -/
def processRedeem (env : Env) (id : JSString) (tx : RawTx) : Run Bool :=
  match callerAddress "Missing caller address!" tx with
  | .error f => Run.fail [] f
  | .ok addrCaller =>
    match authenticate env addrCaller tx with
    | ⟨evs, .error f⟩ => Run.fail evs f
    | ⟨evs, .ok true⟩ => Run.done (evs ++ [.redeemRewards id addrCaller tx]) true
    | ⟨evs, .ok false⟩ => Run.done (evs ++ [.console .error .redeemNonIssuerInput]) true

/-- The contract-call branch of `processState` (messages longer than 64).
`getToken` is `TOKENS.getToken`: `none` stands for an answer carrying `error`. -/
def processCall (env : Env) (getToken : JSString → Option Token) (newMsg : JSString)
    (tx : RawTx) : Run Bool :=
  let arrParams := split newMsg " ".toList
  -- Sanity check
  let check1 := decide (fieldLength arrParams[0]? = 64)
  let check2 := !isNil arrParams[1]? && decide (fieldLength arrParams[1]? > 1)
  if check1 && check2 then
    -- Fetch the contract being called
    match getToken (arrParams[0]?.getD []) with
    | some cToken =>
      if arrParams[1]? = some "mint".toList then
        processMint env (arrParams[0]?.getD []) cToken arrParams tx
      else if arrParams[1]? = some "burn".toList then
        processBurn env (arrParams[0]?.getD []) arrParams tx
      else if arrParams[1]? = some "send".toList then
        processSend env (arrParams[0]?.getD []) arrParams tx
      else if cToken.version = 2 ∧ arrParams[1]? = some "redeem".toList then
        processRedeem env (arrParams[0]?.getD []) tx
      else Run.done [] true
    | none => Run.done [.console .error .nonExistantContract, .console .error .dump] true
  else Run.done [] true

/-- Chain state processing: `processState(newMsg, tx)` for a transaction
object `tx`. -/
def processState (env : Env) (getToken : JSString → Option Token) (newMsg : JSString)
    (tx : RawTx) : Run Bool :=
  if isEmpty (some newMsg) then Run.done [] true
  else if startsWith newMsg "SCPCREATE".toList && !isEmpty (some tx.txid) then
    processCreate newMsg tx
  else if jsLength newMsg > 64 then processCall env getToken newMsg tx
  else Run.done [] true

/-! ## Message extraction -/

/-- The expression `s.replace(pat, "")`: remove the first occurrence of `pat`. -/
def removeFirst (pat : JSString) : JSString → JSString
  | [] => []
  | c :: cs => if startsWith (c :: cs) pat then (c :: cs).drop pat.length else c :: removeFirst pat cs

/-- The UTF-16 code units of a string: one unit for a code point below
U+10000, a surrogate pair above. -/
def codeUnits : JSString → List Nat
  | [] => []
  | c :: cs =>
    if c.toNat < 65536 then c.toNat :: codeUnits cs
    else (55296 + (c.toNat - 65536) / 1024) :: (56320 + (c.toNat - 65536) % 1024) ::
      codeUnits cs

/-- The value of a byte read as a hexadecimal digit by the hex decoder, if it
is one. -/
def unhex (x : Nat) : Option Nat :=
  if 48 ≤ x ∧ x ≤ 57 then some (x - 48)
  else if 97 ≤ x ∧ x ≤ 102 then some (x - 87)
  else if 65 ≤ x ∧ x ≤ 70 then some (x - 55)
  else none

/-- The hex decoder on code units: each unit is cut to its low byte before it
is read as a digit; one byte per pair of units, and decoding stops at the
first pair with a unit that is no digit; a last unit without a partner is
dropped. -/
def hexDecode : List Nat → List Nat
  | a :: b :: rest =>
    match unhex (a % 256), unhex (b % 256) with
    | some x, some y => (16 * x + y) :: hexDecode rest
    | _, _ => []
  | _ => []

/-- The expression `Buffer.from(s, 'hex')`: the bytes that the hex decoder
reads from the code units of `s`. Only the low byte of a unit counts, so that
a unit above 255 whose low byte is a digit is read as that digit. -/
def hexToBytes (s : JSString) : List Nat := hexDecode (codeUnits s)

/-- The state of the UTF-8 decoder inside a multi-byte sequence. -/
structure Utf8State where
  codePoint : Nat
  bytesSeen : Nat
  bytesNeeded : Nat
  lower : Nat
  upper : Nat
deriving DecidableEq, Repr

/-- The decoder state between sequences. -/
def Utf8State.initial : Utf8State :=
  { codePoint := 0, bytesSeen := 0, bytesNeeded := 0, lower := 128, upper := 191 }

/-- The replacement character U+FFFD. -/
def replacementChar : Char := Char.ofNat 65533

/-- A byte met between sequences: an ASCII byte is emitted, a lead byte
opens a sequence, any other byte is replaced. -/
def utf8Lead (b : Nat) : Option Char × Utf8State :=
  if b ≤ 127 then (some (Char.ofNat b), Utf8State.initial)
  else if 194 ≤ b ∧ b ≤ 223 then
    (none, { Utf8State.initial with codePoint := b % 32, bytesNeeded := 1 })
  else if 224 ≤ b ∧ b ≤ 239 then
    (none, { codePoint := b % 16, bytesSeen := 0, bytesNeeded := 2,
             lower := if b = 224 then 160 else 128, upper := if b = 237 then 159 else 191 })
  else if 240 ≤ b ∧ b ≤ 244 then
    (none, { codePoint := b % 8, bytesSeen := 0, bytesNeeded := 3,
             lower := if b = 240 then 144 else 128, upper := if b = 244 then 143 else 191 })
  else (some replacementChar, Utf8State.initial)

/-- The UTF-8 decoder: ill-formed input is replaced by U+FFFD, one per
maximal ill-formed part. -/
def utf8Go : List Nat → Utf8State → JSString
  | [], s => if s.bytesNeeded = 0 then [] else [replacementChar]
  | b :: bs, s =>
    if s.bytesNeeded = 0 then
      (utf8Lead b).1.toList ++ utf8Go bs (utf8Lead b).2
    else if b < s.lower ∨ s.upper < b then
      replacementChar :: ((utf8Lead b).1.toList ++ utf8Go bs (utf8Lead b).2)
    else if s.bytesSeen + 1 = s.bytesNeeded then
      Char.ofNat (s.codePoint * 64 + b % 64) :: utf8Go bs Utf8State.initial
    else
      utf8Go bs { codePoint := s.codePoint * 64 + b % 64, bytesSeen := s.bytesSeen + 1,
                  bytesNeeded := s.bytesNeeded, lower := 128, upper := 191 }

/-- The expression `buf.toString("utf8")`. -/
def utf8ToString (bytes : List Nat) : JSString := utf8Go bytes Utf8State.initial

/-- What `getMsgFromTx` returns when it does not return null: either
`{ error: true, message, id: 7 }` (no `msg`, no `tx`) or `{ msg, tx }` (no
`error`). -/
structure TxResult where
  error : Bool
  msg : Option JSString
  tx : Option RawTx
deriving DecidableEq, Repr

/-- The loop of `getMsgFromTx` over the outputs: the first output whose
`scriptPubKey.asm` starts with `OP_RETURN` gives the message. -/
def findMessage (res : RawTx) : List Vout → Option TxResult
  | [] => none
  | cVout :: rest =>
    match cVout.scriptPubKey with
    | none => findMessage res rest
    | some spk =>
      match spk.asm with
      | none => findMessage res rest
      | some asm =>
        if isNil (some asm) then findMessage res rest
        else if startsWith asm "OP_RETURN".toList then
          some { error := false,
                 msg := some (utf8ToString (hexToBytes (removeFirst "OP_RETURN ".toList asm))),
                 tx := some res }
        else findMessage res rest

/-- The result `{ error: true, message: "Unable to fetch raw transaction, ...", id: 7 }`. -/
def fetchError : TxResult := { error := true, msg := none, tx := none }

/-- The function `getMsgFromTx(rawTX)`: fetch the transaction and extract its
message. A failing or nil fetch gives the error result; a transaction without
`vout` is not iterable. -/
def getMsgFromTx (env : Env) (rawTX : Option JSString) : Run (Option TxResult) :=
  match env.getrawtransaction rawTX with
  | .error _ => Run.done [.getrawtransaction rawTX] (some fetchError)
  | .ok none => Run.done [.getrawtransaction rawTX] (some fetchError)
  | .ok (some res) =>
    match res.vout with
    | none => Run.fail [.getrawtransaction rawTX] .typeError
    | some vout => Run.done [.getrawtransaction rawTX] (findMessage res vout)

/-! ## The scanner -/

/-- The token module `TOKENS` of `lib/token.js`, which is not part of the
given source, as a parameter: the type of its state, the lookup
`TOKENS.getToken`, and the effect of a call into it (`addToken`, the four
balance methods and `setBlockHeight`, given as the recorded event). A call
into the module is taken to return: it changes the state or leaves it, and
does not throw. -/
structure TokensModule (L : Type) where
  getToken : L → JSString → Option Token
  call : L → Event → L

/-- Carry out, in order, the calls into the token module (`addToken` and the
four balance methods) among the events of a run of `processState`. -/
def applyEvents {L : Type} (T : TokensModule L) (ledger : L) (events : List Event) : L :=
  (events.filter Event.isLedgerCall).foldl T.call ledger

/-- An entry of `chainMessages`. -/
structure ChainMessage where
  msg : JSString
  time : Int
  tx : Option JSString
  mempool : Bool
deriving DecidableEq, Repr

/-- The module-level state of the scanner together with the state of the
token module, and the events so far (`trace`, kept for the statements). -/
structure ScanState (L : Type) where
  chainMessages : List ChainMessage
  chainHashesCache : List JSString
  currentScanBlock : Option Block
  isScanningBlocks : Bool
  ledger : L
  trace : List Event
deriving DecidableEq, Repr

/-- What `getMsgsFromBlock` returns. -/
inductive BlockReturn where
  | null
  | undefined
  | true
deriving DecidableEq, Repr

/-- The loop `for (let i=0; i<blk.nTx; i++)` of `getMsgsFromBlock`, with
`remaining = blk.nTx - i` iterations to go. -/
def blockLoop {L : Type} (T : TokensModule L) (env : Env) (blk : Block) :
    Nat → Nat → ScanState L → ScanState L × Except Fault BlockReturn
  | 0, _, st => (st, .ok .true)
  | remaining + 1, i, st =>
    let fetched := getMsgFromTx env blk.tx[i]?
    let st1 := { st with trace := st.trace ++ fetched.events }
    match fetched.result with
    | .error f => (st1, .error f)
    | .ok none => blockLoop T env blk remaining (i + 1) st1
    | .ok (some txRes) =>
      match txRes.msg with
      | none => (st1, .error .typeError)
      | some msg =>
        if jsLength msg = 0 then blockLoop T env blk remaining (i + 1) st1
        else if txRes.error then
          ({ st1 with trace := st1.trace ++ [.console .error .txError] }, .ok .undefined)
        else
          match txRes.tx with
          | none => (st1, .error .typeError)
          | some tx =>
            -- Process the new state
            let run := processState env (T.getToken st1.ledger) msg tx
            let caught : List Event :=
              match run.result with
              | .ok _ => []
              | .error _ => [.console .error .processStateFailure, .console .error .dump]
            -- Cache this message and block
            blockLoop T env blk remaining (i + 1)
              { st1 with
                ledger := applyEvents T st1.ledger run.events
                chainMessages := st1.chainMessages ++
                  [{ msg := msg, time := blk.time, tx := blk.tx[i]?, mempool := false }]
                trace := st1.trace ++ [.processState msg tx] ++ run.events ++ caught ++
                  [.console .log .messageFound] }

/-- The function `getMsgsFromBlock(blk)`. -/
def getMsgsFromBlock {L : Type} (T : TokensModule L) (env : Env) (st : ScanState L) :
    Option Block → ScanState L × Except Fault BlockReturn
  | none => (st, .ok .null)
  | some blk =>
    let st1 := { st with
      chainHashesCache := st.chainHashesCache ++ [blk.hash]
      ledger := T.call st.ledger (.setBlockHeight blk.height)
      trace := st.trace ++ [.setBlockHeight blk.height] }
    if blk.nTx = 1 then (st1, .ok .null)
    else blockLoop T env blk blk.nTx 0 st1

/-- The hash `getMsgsFromChain` examines at height `i`: the forward link of
the cached block when there is one, else the answer of `getblockhash(i)`. -/
def scanHash {L : Type} (env : Env) (st : ScanState L) (i : Int) :
    List Event × Except Fault JSString :=
  match st.currentScanBlock with
  | none => ([.getblockhash i], env.getblockhash i)
  | some blk =>
    if isNil blk.nextblockhash then ([.getblockhash i], env.getblockhash i)
    else
      match blk.nextblockhash with
      | some h => ([], .ok h)
      | none => ([.getblockhash i], env.getblockhash i)

/-- One iteration of the loop of `getMsgsFromChain`, at height `i`. -/
def scanStep {L : Type} (T : TokensModule L) (env : Env) (st : ScanState L) (i : Int) :
    ScanState L × Except Fault Unit :=
  let st1 := { st with trace := st.trace ++ (scanHash env st i).1 }
  match (scanHash env st i).2 with
  | .error f => (st1, .error f)
  | .ok currentScanHash =>
    -- Skip blocks if we have already scanned them before
    if currentScanHash ∈ st.chainHashesCache then (st1, .ok ())
    else
      -- Grab the block from RPC, cache it to save on future requests
      match env.getblock currentScanHash with
      | .error f => ({ st1 with trace := st1.trace ++ [.getblock currentScanHash] }, .error f)
      | .ok blk =>
        let st2 := { st1 with
          trace := st1.trace ++ [.getblock currentScanHash]
          currentScanBlock := blk }
        match getMsgsFromBlock T env st2 blk with
        | (st3, .error f) => (st3, .error f)
        | (st3, .ok _) => (st3, .ok ())

/-- The loop `for (let i=nStartBlock; i<nBestBlock.height+1; i++)`, with
`remaining` iterations to go. -/
def scanLoop {L : Type} (T : TokensModule L) (env : Env) :
    Nat → Int → ScanState L → ScanState L × Except Fault Unit
  | 0, _, st => (st, .ok ())
  | remaining + 1, i, st =>
    match scanStep T env st i with
    | (st1, .error f) => (st1, .error f)
    | (st1, .ok _) => scanLoop T env remaining (i + 1) st1

/-- The function `getMsgsFromChain(nBlocksTotal)`. -/
def getMsgsFromChain {L : Type} (T : TokensModule L) (env : Env) (st : ScanState L)
    (nBlocksTotal : Int) : ScanState L × Except Fault Unit :=
  let st1 := { st with
    isScanningBlocks := true
    currentScanBlock := none
    trace := st.trace ++ [.getbestblockhash] }
  match env.getbestblockhash with
  | .error f => (st1, .error f)
  | .ok hash =>
    let st2 := { st1 with trace := st1.trace ++ [.getblock hash] }
    match env.getblock hash with
    | .error f => (st2, .error f)
    | .ok none => (st2, .error .typeError)
    | .ok (some nBestBlock) =>
      let nStartBlock := nBestBlock.height - nBlocksTotal
      let st3 := { st2 with trace := st2.trace ++ [.console .log .scanningBlockRange] }
      match scanLoop T env (nBestBlock.height + 1 - nStartBlock).toNat nStartBlock st3 with
      | (st4, .error f) => (st4, .error f)
      | (st4, .ok _) =>
        ({ st4 with
            isScanningBlocks := false
            trace := st4.trace ++ [.console .log .scanDone] }, .ok ())

/-- What processing one message does to the token module: the calls of
`processState`, looked up and carried out on the same state. -/
def processMessage {L : Type} (T : TokensModule L) (env : Env) (ledger : L) (newMsg : JSString)
    (tx : RawTx) : L :=
  applyEvents T ledger (processState env (T.getToken ledger) newMsg tx).events

/-- Processing a sequence of messages, each with the node answers and the
transaction it comes with. -/
def processMessages {L : Type} (T : TokensModule L) (ledger : L) :
    List (Env × JSString × RawTx) → L
  | [] => ledger
  | (env, newMsg, tx) :: rest => processMessages T (processMessage T env ledger newMsg tx) rest

/-! ## The ledger, from the specification -/

/-- Modelled from the spec: the state of the token module `lib/token.js`
(not part of the given source): the registered tokens with their accounts, and
the current block height pushed by the scanner. -/
structure Ledger where
  tokens : List Token
  blockHeight : Int
deriving DecidableEq, Repr

/-- Modelled from the spec: the ledger at process start, which holds no token
(`lib/token.js` is not part of the given source). -/
def Ledger.empty : Ledger := { tokens := [], blockHeight := 0 }

/-- Modelled from the spec: the total of all account balances of a token
(section 3; `lib/token.js` is not part of the given source). -/
def Token.supply (t : Token) : Int := (t.owners.map Account.balance).sum

/-- Modelled from the spec: the account of an address within a token, if the
token knows the address (`lib/token.js` is not part of the given source). -/
def Token.getAccount (t : Token) (address : JSString) : Option Account :=
  t.owners.find? fun a => a.address == address

/-- Modelled from the spec: crediting an address within the accounts of a
token; the account is created on first touch, and one activity is appended
(`lib/token.js` is not part of the given source). -/
def creditOwners : List Account → JSString → Int → Activity → List Account
  | [], address, amount, act =>
    [{ address := address, balance := amount, unclaimed_balance := 0, activity := [act] }]
  | a :: rest, address, amount, act =>
    if a.address = address then
      { a with balance := a.balance + amount, activity := a.activity ++ [act] } :: rest
    else a :: creditOwners rest address amount act

/-- Modelled from the spec: debiting an address within the accounts of a
token; it fails, leaving nothing changed, when the address has no account or
an insufficient balance (`lib/token.js` is not part of the given source). -/
def debitOwners : List Account → JSString → Int → Activity → Option (List Account)
  | [], _, _, _ => none
  | a :: rest, address, amount, act =>
    if a.address = address then
      if a.balance < amount then none
      else some ({ a with balance := a.balance - amount, activity := a.activity ++ [act] } :: rest)
    else (debitOwners rest address amount act).map fun os => a :: os

/-- Modelled from the spec: moving the whole unclaimed balance of an address
into its spendable balance, with one activity (`lib/token.js` is not part of
the given source). -/
def redeemOwners : List Account → JSString → Int → JSString → Option (List Account)
  | [], _, _, _ => none
  | a :: rest, address, height, txid =>
    if a.address = address then
      some ({ a with
        balance := a.balance + a.unclaimed_balance
        unclaimed_balance := 0
        activity := a.activity ++ [⟨"redeem", a.unclaimed_balance, height, txid⟩] } :: rest)
    else (redeemOwners rest address height txid).map fun os => a :: os

/-- Modelled from the spec: `creditAccount` of a token (`lib/token.js` is not
part of the given source). The total of all balances may not exceed the
maximum supply: this is enforced here, at mint time. -/
def Token.creditAccount (t : Token) (height : Int) (address : JSString) (amount : Int)
    (txid : JSString) : Option Token :=
  match t.maxSupply.toInt? with
  | none => none
  | some maxSupply =>
    if maxSupply < t.supply + amount then none
    else
      some { t with
        owners := creditOwners t.owners address amount
          ⟨"mint", amount, height, txid⟩ }

/-- Modelled from the spec: `debitAccount` of a token (`lib/token.js` is not
part of the given source). -/
def Token.debitAccount (t : Token) (height : Int) (address : JSString) (amount : Int)
    (txid : JSString) : Option Token :=
  (debitOwners t.owners address amount ⟨"burn", amount, height, txid⟩).map
    fun os => { t with owners := os }

/-- Modelled from the spec: `transfer` of a token: a debit of the sender
followed by a credit of the receiver within the same token; it fails with no
amount moved when the sender cannot pay (`lib/token.js` is not part of the
given source). -/
def Token.transfer (t : Token) (height : Int) (sender receiver : JSString) (amount : Int)
    (txid : JSString) : Option Token :=
  (debitOwners t.owners sender amount ⟨"send-out", amount, height, txid⟩).map
    fun os => { t with owners := creditOwners os receiver amount ⟨"send-in", amount, height, txid⟩ }

/-- Modelled from the spec: `redeemRewards` of a version-2 token
(`lib/token.js` is not part of the given source). -/
def Token.redeemRewards (t : Token) (height : Int) (address : JSString) (txid : JSString) :
    Option Token :=
  if t.version = 2 then
    (redeemOwners t.owners address height txid).map fun os => { t with owners := os }
  else none

/-- Modelled from the spec: apply an operation to the token registered under
`id`; nothing changes when there is no such token or the operation fails
(`lib/token.js` is not part of the given source). -/
def updateToken : List Token → JSString → (Token → Option Token) → List Token
  | [], _, _ => []
  | t :: rest, id, op =>
    if t.contract = id then
      match op t with
      | some t2 => t2 :: rest
      | none => t :: rest
    else t :: updateToken rest id op

/-- Modelled from the spec: `TOKENS.getToken` (`lib/token.js` is not part of
the given source). -/
def Ledger.getToken (l : Ledger) (id : JSString) : Option Token :=
  l.tokens.find? fun t => t.contract == id

/-- Modelled from the spec: the effect of a call into the token module
(`lib/token.js` is not part of the given source). `addToken` fails when the id
is already registered; amounts are the integers the numbers denote. -/
def Ledger.call (l : Ledger) : Event → Ledger
  | .addToken t =>
    if l.tokens.any (fun u => u.contract == t.contract) then l
    else { l with tokens := l.tokens ++ [t] }
  | .creditAccount id address amount tx =>
    match amount.toInt? with
    | some n =>
      { l with
        tokens := updateToken l.tokens id (Token.creditAccount · l.blockHeight address n tx.txid) }
    | none => l
  | .debitAccount id address amount tx =>
    match amount.toInt? with
    | some n =>
      { l with
        tokens := updateToken l.tokens id (Token.debitAccount · l.blockHeight address n tx.txid) }
    | none => l
  | .transfer id sender receiver amount tx =>
    match amount.toInt?, receiver with
    | some n, some r =>
      { l with
        tokens := updateToken l.tokens id (Token.transfer · l.blockHeight sender r n tx.txid) }
    | _, _ => l
  | .redeemRewards id address tx =>
    { l with
      tokens := updateToken l.tokens id (Token.redeemRewards · l.blockHeight address tx.txid) }
  | .setBlockHeight height => { l with blockHeight := height }
  | _ => l

/-- Modelled from the spec: the token module as the scanner uses it
(`lib/token.js` is not part of the given source). -/
def specTokens : TokensModule Ledger := { getToken := Ledger.getToken, call := Ledger.call }

/-- Modelled from the spec: the balance of an address within the token
registered under `id`, 0 when the token or the account does not exist
(`lib/token.js` is not part of the given source). -/
def Ledger.balanceOf (l : Ledger) (id address : JSString) : Int :=
  match l.getToken id with
  | some t =>
    match t.getAccount address with
    | some a => a.balance
    | none => 0
  | none => 0

/-! ## Vocabulary of the statements -/

/-- Fields joined by single spaces: the message `f1 f2 ... fn`. -/
def joinFields : List JSString → JSString
  | [] => []
  | [f] => f
  | f :: g :: rest => f ++ ' ' :: joinFields (g :: rest)

/-- The amount test of the contract calls: the number is greater than 0 and a
safe integer. -/
def isPositiveSafeInteger (n : JSNumber) : Bool := n.gt 0 && n.isSafeInteger

/-- The first address of `tx.vout[1]`, the address a contract call claims to
come from, when the output and its address exist. -/
def claimedAddress (tx : RawTx) : Option JSString :=
  match tx.vout with
  | none => none
  | some vout =>
    match firstAddress vout[1]? with
    | .ok a => a
    | .error _ => none

/-- The first address of the previous output an input refers to
(`vinTx.vout[cVin.vout].scriptPubKey.addresses[0]`), when the lookup of the
referenced transaction and every step of the path succeed. -/
def prevOutAddress (env : Env) (cVin : Vin) : Option JSString :=
  match env.getrawtransaction cVin.txid with
  | .ok (some vinTx) =>
    match vinTx.vout with
    | some vout =>
      match firstAddress (cVin.vout.bind fun i => vout[i]?) with
      | .ok a => a
      | .error _ => none
    | none => none
  | _ => none

/-- Every input of `tx` resolves to a previous output whose first address is
`addr`. -/
def AllInputsFrom (env : Env) (tx : RawTx) (addr : JSString) : Prop :=
  ∃ vin, tx.vin = some vin ∧ ∀ cVin ∈ vin, prevOutAddress env cVin = some addr

/-- A transaction id as the node prints it: 64 hexadecimal digits. -/
def IsTxid (id : JSString) : Prop :=
  id.length = 64 ∧ ∀ c ∈ id, (digitValue 16 c).isSome = true

/-- The `n` consecutive heights from `i` on, ascending. -/
def heightsFrom (i : Int) : Nat → List Int
  | 0 => []
  | n + 1 => i :: heightsFrom (i + 1) n

/-- The node answers consistently over the `n` heights from `i` on: the
height `j` has the hash `hashAt j` and the block `blockAt j`, which carries
that hash and whose forward link, when present, is the hash of the next
height; different heights have different hashes. -/
def ConsistentRange (env : Env) (hashAt : Int → JSString) (blockAt : Int → Block) (i : Int)
    (n : Nat) : Prop :=
  (∀ j ∈ heightsFrom i n,
    env.getblockhash j = .ok (hashAt j) ∧ env.getblock (hashAt j) = .ok (some (blockAt j)) ∧
    (blockAt j).hash = hashAt j ∧
    (isNil (blockAt j).nextblockhash = true ∨
      (blockAt j).nextblockhash = some (hashAt (j + 1)))) ∧
  ∀ j ∈ heightsFrom i n, ∀ k ∈ heightsFrom i n, hashAt j = hashAt k → j = k

/-- The parameter checks of CREATE, `check1 && check2 && check3 && (check4 && check5)`,
as `processCreate` computes them. -/
def createParamChecks (arrParams : List JSString) : Bool :=
  decide (fieldLength arrParams[1]? > 0) && decide (fieldLength arrParams[2]? > 0) &&
    ((Number arrParams[3]?).gt 0 && (Number arrParams[3]?).isSafeInteger) &&
    ((if createVersion arrParams = 2 then
        (Number arrParams[4]?).gt 1 && (Number arrParams[4]?).isSafeInteger else true) &&
     (if createVersion arrParams = 2 then
        (Number arrParams[5]?).gt 1 && (Number arrParams[5]?).isSafeInteger else true))

/-- The token `processCreate` builds from the fields, the transaction id and
the creator address. -/
def createdToken (arrParams : List JSString) (txid addrCreator : JSString) : Token :=
  if createVersion arrParams = 1 then
    SCP1Token txid (arrParams[1]?.getD []) (arrParams[2]?.getD []) (Number arrParams[3]?)
      addrCreator []
  else
    SCP2Token txid (arrParams[1]?.getD []) (arrParams[2]?.getD []) (Number arrParams[3]?)
      addrCreator [] (Number arrParams[4]?) (Number arrParams[5]?)

/-- A mint is authorised: the amount is a positive safe integer, output 1
names the creator, every input resolves to the creator, and a version-2 token
has no owner yet. -/
def MintAuthorised (env : Env) (cToken : Token) (amount : Option JSString) (tx : RawTx) : Prop :=
  isPositiveSafeInteger (Number amount) = true ∧
  claimedAddress tx = some cToken.creator ∧
  AllInputsFrom env tx cToken.creator ∧
  (cToken.version = 2 → cToken.owners = [])

/-- Output 1 of `tx` exists and pays at least the deployment fee to the
deployment fee address (its first address). -/
def PaysDeployFee (tx : RawTx) : Prop :=
  ∃ vout o spk addresses, tx.vout = some vout ∧ vout[1]? = some o ∧
    o.scriptPubKey = some spk ∧ spk.addresses = some addresses ∧
    addresses[0]? = some strDeployFeeDest ∧ o.value.ge nDeployFee = true

/-- The last output of `tx` exists and has `a` as its first address. -/
def LastOutputAddress (tx : RawTx) (a : JSString) : Prop :=
  ∃ vout last spk addresses, tx.vout = some vout ∧ vout.getLast? = some last ∧
    last.scriptPubKey = some spk ∧ spk.addresses = some addresses ∧ addresses[0]? = some a

/-- What `processState` guarantees of its calls into the token module: a
registered token has no owner yet and a positive safe-integer maximum supply,
and a minted, burnt or sent amount is a positive safe integer. -/
def WfCall : Event → Prop
  | .addToken t => t.owners = [] ∧ isPositiveSafeInteger t.maxSupply = true
  | .creditAccount _ _ amount _ => isPositiveSafeInteger amount = true
  | .debitAccount _ _ amount _ => isPositiveSafeInteger amount = true
  | .transfer _ _ _ amount _ => isPositiveSafeInteger amount = true
  | _ => True

/-- The supply invariant of one token of the modelled ledger: the total of
its balances is at most its maximum supply. -/
def Token.SupplyOk (t : Token) : Prop :=
  ∃ maxSupply, t.maxSupply.toInt? = some maxSupply ∧ t.supply ≤ maxSupply

/-- No account of the token holds an unclaimed balance. -/
def Token.NoUnclaimed (t : Token) : Prop :=
  ∀ a ∈ t.owners, a.unclaimed_balance = 0

/-! ## Sample data -/

/-- An output paying `value` to `address`. -/
def payTo (value : Int) (address : String) : Vout :=
  { value := JSNumber.ofInt value, scriptPubKey := some { asm := none, addresses := some [address.toList] } }

/-- A data-carrier output. -/
def dataOutput : Vout :=
  { value := JSNumber.ofInt 0,
    scriptPubKey := some { asm := some "OP_RETURN 00".toList, addresses := none } }

/-- A sample token id: 64 hexadecimal digits. -/
def sampleId : JSString := List.replicate 64 'a'

/-- A sample node: transaction `p0` pays the creator, transaction `p1` pays
somebody else, no other transaction is known; every address is valid. -/
def sampleEnv : Env :=
  { getbestblockhash := .error .rpcFault
    getblock := fun _ => .error .rpcFault
    getblockhash := fun _ => .error .rpcFault
    getblockcount := .error .rpcFault
    getrawtransaction := fun t =>
      if t = some "p0".toList then
        .ok (some { txid := "p0".toList, vin := some [], vout := some [payTo 3 "sXcreator"] })
      else if t = some "p1".toList then
        .ok (some { txid := "p1".toList, vin := some [], vout := some [payTo 3 "sYother"] })
      else .error .rpcFault
    validateaddress := fun _ => .ok (some true)
    formatNameDefined := false }

/-- A version-1 token created by `sXcreator`. -/
def sampleToken : Token := SCP1Token sampleId "MyToken".toList "MTK".toList (JSNumber.ofInt 1000000) "sXcreator".toList []

/-- A version-2 token created by `sXcreator` that already has an owner. -/
def sampleToken2 : Token :=
  SCP2Token sampleId "MyToken".toList "MTK".toList (JSNumber.ofInt 1000000) "sXcreator".toList
    [{ address := "sXcreator".toList, balance := 500, unclaimed_balance := 0, activity := [] }]
    (JSNumber.ofInt 5) (JSNumber.ofInt 10)

/-- A ledger lookup that knows `tok` under the sample id only. -/
def sampleLookup (tok : Token) : JSString → Option Token :=
  fun id => if id = sampleId then some tok else none

/-- The id of the sample CREATE transaction. -/
def sampleTxid : JSString := List.replicate 64 'c'

/-- A CREATE transaction: data output, fee output paying `fee`, change to
the creator. -/
def sampleCreateTx (fee : Int) : RawTx :=
  { txid := sampleTxid, vin := some [{ txid := some "p0".toList, vout := some 0 }],
    vout := some [dataOutput, payTo fee "sccburnaddressXXXXXXXXXXXXXXSfqakF", payTo 3 "sXcreator"] }

/-- A contract-call transaction claiming `sXcreator` in output 1 and spending
the given previous transactions (output 0 of each). -/
def sampleCallTx (prev : List String) : RawTx :=
  { txid := "ca11".toList,
    vin := some (prev.map fun p => { txid := some p.toList, vout := some 0 }),
    vout := some [dataOutput, payTo 3 "sXcreator"] }

/-- The hexadecimal text of an ASCII string, as a data-carrier script shows
its payload. -/
def hexOfAscii (s : String) : JSString :=
  s.toList.flatMap fun c =>
    [(Nat.toDigits 16 (c.toNat / 16)).headD '0', (Nat.toDigits 16 (c.toNat % 16)).headD '0']

/-- A transaction carrying `msg` in a data-carrier output, with the given
inputs (output 0 of each previous transaction) and change to `sXcreator`. -/
def sampleMsgTx (txid : String) (msg : String) (prev : List String) : RawTx :=
  { txid := txid.toList,
    vin := some (prev.map fun p => { txid := some p.toList, vout := some 0 }),
    vout := some [{ value := JSNumber.ofInt 0,
                    scriptPubKey := some { asm := some ("OP_RETURN ".toList ++ hexOfAscii msg),
                                           addresses := none } },
                  payTo 3 "sXcreator"] }

/-- The scanner state at process start, over the given token state. -/
def ScanState.initial {L : Type} (ledger : L) : ScanState L :=
  { chainMessages := [], chainHashesCache := [], currentScanBlock := none,
    isScanningBlocks := false, ledger := ledger, trace := [] }

/-- The message `<sampleId> mint 500`. -/
def sampleMintMsg : String := String.mk sampleId ++ " mint 500"

/-- The message `<sampleId> burn 5`. -/
def sampleBurnMsg : String := String.mk sampleId ++ " burn 5"

/-- A coinbase transaction. -/
def sampleCoinbase : RawTx :=
  { txid := "cb".toList, vin := some [{ txid := none, vout := none }],
    vout := some [payTo 50 "sMiner"] }

/-- A burn of 5 whose transaction has the data output only (no output 1). -/
def sampleTx3 : RawTx :=
  { txid := "t3".toList, vin := some [{ txid := some "p0".toList, vout := some 0 }],
    vout := some [{ value := JSNumber.ofInt 0,
                    scriptPubKey := some { asm := some ("OP_RETURN ".toList ++
                                             hexOfAscii sampleBurnMsg),
                                           addresses := none } }] }

/-- A sample chain of three blocks at heights 100 to 102 on top of
`sampleEnv`: block `b0` holds a mint by the creator (`t1`), block `b1` only its
coinbase, block `b2` a burn with a foreign input (`t2`), a burn whose
transaction has no output 1 (`t3`) and a burn by the creator (`t4`). Block
`bx` lists a transaction the node cannot return (`u1`) before the mint. -/
def sampleChain : Env :=
  { sampleEnv with
    getbestblockhash := .ok "b2".toList
    getblockcount := .ok 102
    getblockhash := fun i =>
      if i = 100 then .ok "b0".toList
      else if i = 101 then .ok "b1".toList
      else if i = 102 then .ok "b2".toList
      else .error .rpcFault
    getblock := fun h =>
      if h = "b0".toList then
        .ok (some { hash := "b0".toList, height := 100, time := 1000,
                    tx := ["cb0".toList, "t1".toList], nTx := 2,
                    nextblockhash := some "b1".toList })
      else if h = "b1".toList then
        .ok (some { hash := "b1".toList, height := 101, time := 1001, tx := ["cb1".toList],
                    nTx := 1, nextblockhash := some "b2".toList })
      else if h = "b2".toList then
        .ok (some { hash := "b2".toList, height := 102, time := 1002,
                    tx := ["cb2".toList, "t2".toList, "t3".toList, "t4".toList], nTx := 4,
                    nextblockhash := none })
      else .error .rpcFault
    getrawtransaction := fun t =>
      if t = some "t1".toList then .ok (some (sampleMsgTx "t1" sampleMintMsg ["p0"]))
      else if t = some "t2".toList then .ok (some (sampleMsgTx "t2" sampleBurnMsg ["p0", "p1"]))
      else if t = some "t3".toList then .ok (some sampleTx3)
      else if t = some "t4".toList then .ok (some (sampleMsgTx "t4" sampleBurnMsg ["p0"]))
      else if t = some "cb0".toList ∨ t = some "cb1".toList ∨ t = some "cb2".toList then
        .ok (some sampleCoinbase)
      else sampleEnv.getrawtransaction t }

/-- The block `bx`: its first transaction cannot be fetched, its second is
the mint `t1`. -/
def sampleBlockX : Block :=
  { hash := "bx".toList, height := 103, time := 1003, tx := ["u1".toList, "t1".toList],
    nTx := 2, nextblockhash := none }

/-- The block `b2` of the sample chain. -/
def sampleBlock2 : Block :=
  { hash := "b2".toList, height := 102, time := 1002,
    tx := ["cb2".toList, "t2".toList, "t3".toList, "t4".toList], nTx := 4,
    nextblockhash := none }

/-- The ledger holding the sample version-1 token, nothing minted yet. -/
def sampleLedger : Ledger := { tokens := [sampleToken], blockHeight := 0 }

/-- The ledger holding the sample version-1 token with `balance` minted to
the creator. -/
def sampleFunded (balance : Int) : Ledger :=
  { tokens := [{ sampleToken with
      owners := [{ address := "sXcreator".toList, balance := balance, unclaimed_balance := 0,
                   activity := [] }] }],
    blockHeight := 0 }


/-! ## The configuration file -/

/-- A JavaScript value of one of the kinds a caller passes as a default:
nothing, a boolean, a number or a string. -/
inductive JSValue where
  | undefined
  | null
  | bool (b : Bool)
  | number (n : JSNumber)
  | string (s : JSString)
deriving DecidableEq, Repr

/-- The function `isNil(a)` on any value, `a === undefined || a === null || !a`:
every falsy value is nil, that is undefined, null, `false`, zero, NaN and the
empty string. -/
def JSValue.isNil : JSValue → Bool
  | .undefined => true
  | .null => true
  | .bool b => !b
  | .number .NaN => true
  | .number (.Infinity _) => false
  | .number (.fin num _) => num == 0
  | .string s => s.isEmpty

/-- The function `getConfigValue(wantedValue, defaultValue)` over the lines
`SCC_CONFIG` of the node's configuration file: the first line that starts with
the key decides, and its value is `keypair.split("=")[1]`. -/
def getConfigValue (SCC_CONFIG : List JSString) (wantedValue : JSString)
    (defaultValue : JSValue) : JSValue :=
  match SCC_CONFIG with
  | [] =>
    -- No value, return the default, or nothing!
    if defaultValue.isNil then .undefined else defaultValue
  | keypair :: rest =>
    if !startsWith keypair wantedValue then getConfigValue rest wantedValue defaultValue
    else
      -- Return the key's value
      match (split keypair "=".toList)[1]? with
      | some value => .string value
      | none => .undefined

/-! ## The daemon loop -/

/-- The callback `setInterval(async () => ..., 5000)` of the core daemon, for
one tick: nothing unless the wallet is a full node and no scan is in flight;
with an empty processed set the chain is scanned from the first SCP block,
otherwise the last 20 blocks are scanned; a fault of the scan is caught and
logged, and the flag of the scan in flight is cleared. -/
def daemonLoop {L : Type} (T : TokensModule L) (env : Env) (isFullnode : Bool)
    (st : ScanState L) : ScanState L :=
  -- Only run the daemon loop when we are a full-node
  if !isFullnode then st
  else if !st.isScanningBlocks then
    let scanned : ScanState L × Except Fault Unit :=
      -- If we have no blocks cache, we need to start scanning the chain!
      if st.chainHashesCache.length = 0 then
        match env.getblockcount with
        | .error f => ({ st with trace := st.trace ++ [.getblockcount] }, .error f)
        | .ok nCurrentBlock =>
          -- Scan from the first known SCP-burn block
          getMsgsFromChain T env { st with trace := st.trace ++ [.getblockcount] }
            (nCurrentBlock - nFirstBlock)
      -- If we have a blocks cache, only try scanning the last ~20 blocks for changes
      else getMsgsFromChain T env st 20
    match scanned with
    | (st1, .ok _) => st1
    | (st1, .error _) =>
      { st1 with
        isScanningBlocks := false
        trace := st1.trace ++ [.console .warn .unableToScanBlocks] }
  else st

/-- A sequence of ticks of the daemon loop of a full node, one per answer
of the node. -/
def daemonLoops {L : Type} (T : TokensModule L) : List Env → ScanState L → ScanState L
  | [], st => st
  | env :: rest, st => daemonLoops T rest (daemonLoop T env true st)

/-! ## Vocabulary of the statements on scans -/

/-- Whether an output is a data carrier: its `scriptPubKey.asm` starts with
`OP_RETURN`. -/
def isDataCarrier (o : Vout) : Bool :=
  match o.scriptPubKey with
  | some spk =>
    match spk.asm with
    | some asm => startsWith asm "OP_RETURN".toList
    | none => false
  | none => false

/-- Whether `pat` occurs in `s`. -/
def occursIn (pat : JSString) : JSString → Bool
  | [] => startsWith [] pat
  | c :: cs => startsWith (c :: cs) pat || occursIn pat cs

/-- The scan step at each height of a list, in the order of the list, up to
the first fault. -/
def scanHeights {L : Type} (T : TokensModule L) (env : Env) :
    List Int → ScanState L → ScanState L × Except Fault Unit
  | [], st => (st, .ok ())
  | i :: rest, st =>
    match scanStep T env st i with
    | (st1, .error f) => (st1, .error f)
    | (st1, .ok _) => scanHeights T env rest st1

/-- The node returns, for a hash, a block that carries this hash. -/
def HashConsistent (env : Env) : Prop :=
  ∀ h b, env.getblock h = .ok (some b) → b.hash = h

/-- One invocation of `processState` by a scan: the height the scan was at,
the block it was handling and the index of the transaction in it, the message
and the transaction passed, and the calls into the token module that resulted
(`addToken` and the four balance methods). -/
structure Invocation where
  height : Int
  block : Block
  index : Nat
  msg : JSString
  tx : RawTx
  applied : List Event
deriving DecidableEq, Repr

/-- The entry of `chainMessages` an invocation leaves. -/
def Invocation.message (c : Invocation) : ChainMessage :=
  { msg := c.msg, time := c.block.time, tx := c.block.tx[c.index]?, mempool := false }

/-- The events of an invocation that bear on the ledger: the entry into
`processState`, then the calls into the token module that resulted. -/
def Invocation.events (c : Invocation) : List Event := .processState c.msg c.tx :: c.applied

/-- An invocation is the handling of transaction `index` of its block: the
index is below `nTx`, the message and the transaction are what `getMsgFromTx`
returns for this transaction, the message is not empty, and the calls applied
are those of `processState` on them, for the token state of that moment. -/
def Invocation.Genuine {L : Type} (T : TokensModule L) (env : Env) (c : Invocation) : Prop :=
  c.index < c.block.nTx ∧
  (getMsgFromTx env c.block.tx[c.index]?).result =
    .ok (some { error := false, msg := some c.msg, tx := some c.tx }) ∧
  c.msg ≠ [] ∧
  ∃ ledger, c.applied =
    (processState env (T.getToken ledger) c.msg c.tx).events.filter Event.isLedgerCall

/-- The order of invocations by (height, index): lower height first, and
within a height lower index first. -/
def Invocation.before (a b : Invocation) : Prop :=
  a.height < b.height ∨ (a.height = b.height ∧ a.index < b.index)

/-- Whether an event is the entry into `processState`. -/
def Event.isInvocation : Event → Bool
  | .processState _ _ => true
  | _ => false

/-- Whether an event is one the scanner itself causes around a run of
`processState`: the entry into `processState`, or `setBlockHeight`. -/
def Event.isOfScanner : Event → Bool
  | .processState _ _ => true
  | .setBlockHeight _ => true
  | _ => false

/-- Whether an event is a call into the token module: a ledger call or
`setBlockHeight`. -/
def Event.isTokenCall : Event → Bool
  | .setBlockHeight _ => true
  | e => e.isLedgerCall

/-- What a stretch of a scan did between the states `st` and `st2`, as the
list `calls` of its invocations of `processState`, in the order they were
made: the trace grew by events whose entries into `processState` and ledger
calls are, in this order, those of `calls`; the token state is the old one
after the calls into the token module in the order of the trace;
`chainMessages` grew by one entry per invocation, in this order. -/
def ScanLog {L : Type} (T : TokensModule L) (st st2 : ScanState L) (calls : List Invocation) :
    Prop :=
  ∃ new, st2.trace = st.trace ++ new ∧
    new.filter (fun e => e.isInvocation || e.isLedgerCall) = calls.flatMap Invocation.events ∧
    st2.ledger = (new.filter Event.isTokenCall).foldl T.call st.ledger ∧
    st2.chainMessages = st.chainMessages ++ calls.map Invocation.message

/-- The cached block of the scanner is in step with the height `j` to come:
there is none, or it has no forward link, or its forward link is the hash of
height `j`, or its forward link is already in the processed set. -/
def LinkOk {L : Type} (hashAt : Int → JSString) (st : ScanState L) (j : Int) : Prop :=
  st.currentScanBlock = none ∨
  ∃ b, st.currentScanBlock = some b ∧
    (isNil b.nextblockhash = true ∨ b.nextblockhash = some (hashAt j) ∨
      ∃ h, b.nextblockhash = some h ∧ h ∈ st.chainHashesCache)

/-! ## Vocabulary of the statements on message extraction -/

/-- The hexadecimal digit of a value below 16, in lower case. -/
def hexDigit (d : Nat) : Char := Char.ofNat (if d < 10 then 48 + d else 87 + d)

/-- The text of a list of bytes in hexadecimal, two lower-case digits per
byte, as a node prints the data of a script. -/
def hexOfBytes : List Nat → JSString
  | [] => []
  | b :: bs => hexDigit (b / 16) :: hexDigit (b % 16) :: hexOfBytes bs

/-! ## Sample data: messages, configuration, the launch chain -/

/-- A transaction with two data-carrier outputs: the first carries `Hello`,
the second `World`. -/
def sampleTwoMessages : RawTx :=
  { txid := "t5".toList, vin := some [],
    vout := some [payTo 3 "sXcreator",
      { value := JSNumber.ofInt 0,
        scriptPubKey := some { asm := some "OP_RETURN 48656c6c6f".toList, addresses := none } },
      { value := JSNumber.ofInt 0,
        scriptPubKey := some { asm := some "OP_RETURN 576f726c64".toList, addresses := none } }] }

/-- A transaction whose data-carrier output has a payload of two characters
U+0141, which are no hexadecimal digits but have the low byte of `A`. -/
def sampleLowByte : RawTx :=
  { txid := "t6".toList, vin := some [],
    vout := some [payTo 3 "sXcreator",
      { value := JSNumber.ofInt 0,
        scriptPubKey := some { asm := some ("OP_RETURN ".toList ++ [Char.ofNat 321, Char.ofNat 321]),
                               addresses := none } }] }

/-- A configuration file: transaction index and server switched on, a user
name, and a password that contains the character `=`. -/
def sampleConfig : List JSString :=
  ["txindex=1".toList, "server=1".toList, "rpcuser=alice".toList,
   "rpcpassword=c2VjcmV0cw==".toList]

/-- The hash of the block at height `j` of the launch chain. -/
def launchHash (j : Int) : JSString := 'b' :: Nat.toDigits 10 j.toNat

/-- The block at height `j` of the launch chain with tip `tip`: its only
transaction is a coinbase, except that block 155085 also holds the mint `t1`
and block 155087 holds a transaction the node cannot return (`u1`) before the
mint `t1`. -/
def launchBlock (tip j : Int) : Block :=
  { hash := launchHash j, height := j, time := j,
    tx := if j = 155085 then ["cb0".toList, "t1".toList]
      else if j = 155087 then ["u1".toList, "t1".toList] else ["cb0".toList],
    nTx := if j = 155085 ∨ j = 155087 then 2 else 1,
    nextblockhash := if j < tip then some (launchHash (j + 1)) else none }

/-- A consistent node around the first SCP block, with the best block at
height `tip`; transactions are those of the sample chain. -/
def launchChain (tip : Int) : Env :=
  { sampleChain with
    getbestblockhash := .ok (launchHash tip)
    getblockcount := .ok tip
    getblockhash := fun i => if 0 ≤ i ∧ i ≤ tip then .ok (launchHash i) else .error .rpcFault
    getblock := fun h =>
      match h with
      | 'b' :: ds =>
        match digitsValue 10 ds 0 with
        | some j =>
          if (j : Int) ≤ tip ∧ launchHash j = h then .ok (some (launchBlock tip j))
          else .error .rpcFault
        | none => .error .rpcFault
      | _ => .error .rpcFault }


/-! ## Basic facts -/

theorem jsLength_eq_zero_iff (s : JSString) : jsLength s = 0 ↔ s = [] := by
  cases s with
  | nil => simp [jsLength]
  | cons c cs =>
    simp only [jsLength, reduceCtorEq, iff_false]
    split <;> omega

theorem jsLength_pos_iff (s : JSString) : 0 < jsLength s ↔ s ≠ [] := by
  rw [Nat.pos_iff_ne_zero, Ne, jsLength_eq_zero_iff]

theorem length_le_jsLength (s : JSString) : s.length ≤ jsLength s := by
  induction s with
  | nil => simp [jsLength]
  | cons c cs ih =>
    simp only [jsLength, List.length_cons]
    split <;> omega

theorem isNil_some (s : JSString) : isNil (some s) = s.isEmpty := rfl

theorem isEmpty_some (s : JSString) : isEmpty (some s) = s.isEmpty := by
  simp only [isEmpty, isNil]
  cases h : jsLength s == 0 <;> simp_all

theorem requireAddress_eq_ok (what : String) (a : Option JSString) (addr : JSString) :
    requireAddress what a = .ok addr ↔ a = some addr ∧ addr ≠ [] := by
  cases a with
  | none => simp [requireAddress]
  | some x =>
    simp only [requireAddress, isNil_some, isEmpty_some, Bool.or_self, Option.some.injEq]
    cases x with
    | nil =>
      simp only [List.isEmpty_nil, reduceIte, reduceCtorEq, false_iff, not_and, not_not]
      intro h; exact h.symm
    | cons c cs =>
      simp only [List.isEmpty_cons, Bool.false_eq_true, reduceIte, Except.ok.injEq]
      constructor
      · intro h; subst h; simp
      · intro h; exact h.1

theorem callerAddress_eq_ok (what : String) (tx : RawTx) (addr : JSString) :
    callerAddress what tx = .ok addr ↔ claimedAddress tx = some addr ∧ addr ≠ [] := by
  unfold callerAddress claimedAddress
  cases tx.vout with
  | none => simp
  | some vout =>
    simp only
    cases h : firstAddress vout[1]? with
    | error f => simp
    | ok a => simp [requireAddress_eq_ok]

/-! ## The authentication loop -/

theorem authLoop_events (env : Env) (addr : JSString) (vin : List Vin) (b : Bool) :
    ∀ e ∈ (authLoop env addr vin b).events, ∃ t, e = Event.getrawtransaction t := by
  induction vin generalizing b with
  | nil => simp [authLoop, Run.done]
  | cons cVin rest ih =>
    intro e he
    unfold authLoop at he
    split at he
    · simp only [Run.fail, List.mem_singleton] at he; exact ⟨_, he⟩
    · simp only [Run.fail, List.mem_singleton] at he; exact ⟨_, he⟩
    · split at he
      · simp only [Run.fail, List.mem_singleton] at he; exact ⟨_, he⟩
      · split at he
        · simp only [Run.fail, List.mem_singleton] at he; exact ⟨_, he⟩
        · simp only [List.mem_cons] at he
          rcases he with he | he
          · exact ⟨_, he⟩
          · exact ih _ e he

theorem authLoop_ok_true (env : Env) (addr : JSString) (vin : List Vin) (b : Bool) :
    (authLoop env addr vin b).result = .ok true ↔
      b = true ∧ ∀ cVin ∈ vin, prevOutAddress env cVin = some addr := by
  induction vin generalizing b with
  | nil => simp [authLoop, Run.done]
  | cons cVin rest ih =>
    unfold authLoop
    simp only [List.mem_cons, forall_eq_or_imp]
    cases h1 : env.getrawtransaction cVin.txid with
    | error f =>
      have hp : prevOutAddress env cVin = none := by simp [prevOutAddress, h1]
      simp [Run.fail, hp]
    | ok r =>
      cases r with
      | none =>
        have hp : prevOutAddress env cVin = none := by simp [prevOutAddress, h1]
        simp [Run.fail, hp]
      | some vinTx =>
        simp only
        cases h2 : vinTx.vout with
        | none =>
          have hp : prevOutAddress env cVin = none := by simp [prevOutAddress, h1, h2]
          simp [Run.fail, hp]
        | some vout =>
          simp only
          cases h3 : firstAddress (cVin.vout.bind fun i => vout[i]?) with
          | error f =>
            have hp : prevOutAddress env cVin = none := by simp [prevOutAddress, h1, h2, h3]
            simp [Run.fail, hp]
          | ok a =>
            have hp : prevOutAddress env cVin = a := by simp [prevOutAddress, h1, h2, h3]
            simp only [ih, hp]
            by_cases ha : a = some addr
            · simp [ha]
            · simp [ha]

theorem authenticate_events (env : Env) (addr : JSString) (tx : RawTx) :
    ∀ e ∈ (authenticate env addr tx).events, ∃ t, e = Event.getrawtransaction t := by
  unfold authenticate
  cases tx.vin with
  | none => simp [Run.fail]
  | some vin => exact authLoop_events env addr vin true

theorem authenticate_ok_true (env : Env) (addr : JSString) (tx : RawTx) :
    (authenticate env addr tx).result = .ok true ↔ AllInputsFrom env tx addr := by
  unfold authenticate AllInputsFrom
  cases tx.vin with
  | none => simp [Run.fail]
  | some vin => simp [authLoop_ok_true]


/-! ## Splitting a message into its fields -/

theorem startsWith_space (c : Char) (cs : JSString) :
    startsWith (c :: cs) [' '] = (c == ' ') := by
  cases cs <;> simp [startsWith]

theorem splitGo_space_field (f : JSString) (hf : ' ' ∉ f) (acc : JSString) :
    splitGo [' '] f 0 acc = [acc.reverse ++ f] := by
  induction f generalizing acc with
  | nil => simp [splitGo]
  | cons c cs ih =>
    have hc : (c == ' ') = false := by
      simp only [List.mem_cons, not_or] at hf
      simpa using fun h => hf.1 h.symm
    have hcs : ' ' ∉ cs := fun h => hf (List.mem_cons_of_mem _ h)
    rw [splitGo, startsWith_space, hc]
    simp [ih hcs]

theorem splitGo_space_cons (f rest : JSString) (hf : ' ' ∉ f) (acc : JSString) :
    splitGo [' '] (f ++ ' ' :: rest) 0 acc = (acc.reverse ++ f) :: splitGo [' '] rest 0 [] := by
  induction f generalizing acc with
  | nil =>
    simp only [List.nil_append, List.append_nil]
    rw [splitGo, startsWith_space]
    simp
  | cons c cs ih =>
    have hc : (c == ' ') = false := by
      simp only [List.mem_cons, not_or] at hf
      simpa using fun h => hf.1 h.symm
    have hcs : ' ' ∉ cs := fun h => hf (List.mem_cons_of_mem _ h)
    rw [List.cons_append, splitGo, startsWith_space, hc]
    simp [ih hcs]

/-- Splitting the message made of space-free fields gives the fields back. -/
theorem split_joinFields (fs : List JSString) (hne : fs ≠ []) (hfs : ∀ f ∈ fs, ' ' ∉ f) :
    split (joinFields fs) " ".toList = fs := by
  show splitGo [' '] (joinFields fs) 0 [] = fs
  induction fs with
  | nil => exact absurd rfl hne
  | cons f rest ih =>
    cases rest with
    | nil =>
      simp only [joinFields]
      rw [splitGo_space_field f (hfs f (List.mem_cons_self _ _))]
      simp
    | cons g rest2 =>
      simp only [joinFields]
      rw [splitGo_space_cons f _ (hfs f (List.mem_cons_self _ _))]
      rw [ih (by simp) (fun x hx => hfs x (List.mem_cons_of_mem _ hx))]
      simp

theorem jsLength_append (s t : JSString) : jsLength (s ++ t) = jsLength s + jsLength t := by
  induction s with
  | nil => simp [jsLength]
  | cons c cs ih =>
    show jsLength (c :: (cs ++ t)) = jsLength (c :: cs) + jsLength t
    simp only [jsLength, ih]; omega

theorem digitValue_isSome_lt (base : Nat) (c : Char) (h : (digitValue base c).isSome = true) :
    c.toNat < 128 := by
  unfold digitValue at h
  simp only at h
  by_cases h1 : 48 ≤ c.toNat ∧ c.toNat ≤ 57
  · omega
  · by_cases h2 : 97 ≤ c.toNat ∧ c.toNat ≤ 102
    · omega
    · by_cases h3 : 65 ≤ c.toNat ∧ c.toNat ≤ 70
      · omega
      · simp [h1, h2, h3] at h

theorem jsLength_of_small (s : JSString) (h : ∀ c ∈ s, c.toNat < 65536) :
    jsLength s = s.length := by
  induction s with
  | nil => rfl
  | cons c cs ih =>
    have hc := h c (List.mem_cons_self _ _)
    simp only [jsLength, hc, reduceIte, List.length_cons,
      ih (fun x hx => h x (List.mem_cons_of_mem _ hx))]
    omega

theorem IsTxid.jsLength {id : JSString} (h : IsTxid id) : jsLength id = 64 := by
  rw [jsLength_of_small id (fun c hc => by
    have := digitValue_isSome_lt 16 c (h.2 c hc); omega)]
  exact h.1

theorem IsTxid.no_space {id : JSString} (h : IsTxid id) : ' ' ∉ id := by
  intro hmem
  have := h.2 ' ' hmem
  revert this
  decide

theorem IsTxid.startsWith_create {id : JSString} (h : IsTxid id) (rest : JSString) :
    startsWith (id ++ rest) "SCPCREATE".toList = false := by
  cases id with
  | nil => have := h.1; simp at this
  | cons c cs =>
    have hc := h.2 c (List.mem_cons_self _ _)
    show startsWith (c :: (cs ++ rest)) ('S' :: "CPCREATE".toList) = false
    rw [startsWith]
    have : (c == 'S') = false := by
      rw [beq_eq_false_iff_ne]
      rintro rfl
      revert hc
      decide
    simp [this]


theorem authenticate_not_ledgerCall (env : Env) (addr : JSString) (tx : RawTx) (e : Event)
    (he : e ∈ (authenticate env addr tx).events) : e.isLedgerCall = false := by
  obtain ⟨t, rfl⟩ := authenticate_events env addr tx e he
  rfl

theorem authenticate_filter (env : Env) (addr : JSString) (tx : RawTx) :
    (authenticate env addr tx).events.filter Event.isLedgerCall = [] := by
  rw [List.filter_eq_nil_iff]
  intro e he
  simp [authenticate_not_ledgerCall env addr tx e he]

/-- What the outcome of authentication says about the inputs. -/
theorem authenticate_cases (env : Env) (addr : JSString) (tx : RawTx) :
    (∃ evs, authenticate env addr tx = ⟨evs, .ok true⟩ ∧ AllInputsFrom env tx addr ∧
        evs.filter Event.isLedgerCall = []) ∨
    (∃ evs, authenticate env addr tx = ⟨evs, .ok false⟩ ∧ ¬ AllInputsFrom env tx addr ∧
        evs.filter Event.isLedgerCall = []) ∨
    (∃ evs f, authenticate env addr tx = ⟨evs, .error f⟩ ∧ ¬ AllInputsFrom env tx addr ∧
        evs.filter Event.isLedgerCall = []) := by
  have h1 := authenticate_ok_true env addr tx
  have h2 := authenticate_filter env addr tx
  rcases h : authenticate env addr tx with ⟨evs, res⟩
  rw [h] at h1 h2
  simp only at h1 h2
  cases res with
  | error f =>
    right; right
    exact ⟨evs, f, rfl, fun hc => by simpa using h1.mpr hc, h2⟩
  | ok b =>
    cases b with
    | true => left; exact ⟨evs, rfl, h1.mp rfl, h2⟩
    | false =>
      right; left
      exact ⟨evs, rfl, fun hc => by simpa using h1.mpr hc, h2⟩


/-! ## The four contract methods -/

theorem processBurn_calls (env : Env) (id : JSString) (arrParams : List JSString) (tx : RawTx) :
    ((processBurn env id arrParams tx).events.filter Event.isLedgerCall = [] ∧
      ¬ (isPositiveSafeInteger (Number arrParams[2]?) = true ∧
          ∃ a, claimedAddress tx = some a ∧ a ≠ [] ∧ AllInputsFrom env tx a)) ∨
    (∃ a, isPositiveSafeInteger (Number arrParams[2]?) = true ∧ claimedAddress tx = some a ∧
      a ≠ [] ∧ AllInputsFrom env tx a ∧
      (processBurn env id arrParams tx).events.filter Event.isLedgerCall =
        [.debitAccount id a (Number arrParams[2]?) tx] ∧
      (processBurn env id arrParams tx).result = .ok true) := by
  unfold processBurn
  simp only [isPositiveSafeInteger, Bool.and_eq_true]
  by_cases h3 : (Number arrParams[2]?).gt 0 = true ∧ (Number arrParams[2]?).isSafeInteger = true
  · simp only [h3, and_self, reduceIte, true_and]
    cases hc : callerAddress "Missing caller address!" tx with
    | error f =>
      left
      refine ⟨by simp [Run.fail], ?_⟩
      rintro ⟨a, ha1, ha2, -⟩
      have := (callerAddress_eq_ok "Missing caller address!" tx a).mpr ⟨ha1, ha2⟩
      rw [hc] at this; cases this
    | ok addrCaller =>
      obtain ⟨hca, hne⟩ := (callerAddress_eq_ok _ tx addrCaller).mp hc
      simp only
      rcases authenticate_cases env addrCaller tx with ⟨evs, h, hall, hf⟩ | ⟨evs, h, hall, hf⟩ |
        ⟨evs, f, h, hall, hf⟩
      · right
        refine ⟨addrCaller, hca, hne, hall, ?_⟩
        simp [h, Run.done, List.filter_append, hf, Event.isLedgerCall, Event.isBalanceCall]
      · left
        refine ⟨by simp [h, Run.done, List.filter_append, hf, Event.isLedgerCall,
          Event.isBalanceCall], ?_⟩
        rintro ⟨a, ha1, -, ha3⟩
        rw [hca] at ha1; cases ha1; exact hall ha3
      · left
        refine ⟨by simp [h, Run.fail, hf], ?_⟩
        rintro ⟨a, ha1, -, ha3⟩
        rw [hca] at ha1; cases ha1; exact hall ha3
  · left
    simp only [h3, reduceIte, false_and, not_false_eq_true, and_true]
    simp [Run.done, Event.isLedgerCall, Event.isBalanceCall]

theorem processRedeem_calls (env : Env) (id : JSString) (tx : RawTx) :
    ((processRedeem env id tx).events.filter Event.isLedgerCall = [] ∧
      ¬ (∃ a, claimedAddress tx = some a ∧ a ≠ [] ∧ AllInputsFrom env tx a)) ∨
    (∃ a, claimedAddress tx = some a ∧ a ≠ [] ∧ AllInputsFrom env tx a ∧
      (processRedeem env id tx).events.filter Event.isLedgerCall = [.redeemRewards id a tx] ∧
      (processRedeem env id tx).result = .ok true) := by
  unfold processRedeem
  cases hc : callerAddress "Missing caller address!" tx with
  | error f =>
    left
    refine ⟨by simp [Run.fail], ?_⟩
    rintro ⟨a, ha1, ha2, -⟩
    have := (callerAddress_eq_ok "Missing caller address!" tx a).mpr ⟨ha1, ha2⟩
    rw [hc] at this; cases this
  | ok addrCaller =>
    obtain ⟨hca, hne⟩ := (callerAddress_eq_ok _ tx addrCaller).mp hc
    simp only
    rcases authenticate_cases env addrCaller tx with ⟨evs, h, hall, hf⟩ | ⟨evs, h, hall, hf⟩ |
      ⟨evs, f, h, hall, hf⟩
    · right
      refine ⟨addrCaller, hca, hne, hall, ?_⟩
      simp [h, Run.done, List.filter_append, hf, Event.isLedgerCall, Event.isBalanceCall]
    · left
      refine ⟨by simp [h, Run.done, List.filter_append, hf, Event.isLedgerCall,
        Event.isBalanceCall], ?_⟩
      rintro ⟨a, ha1, -, ha3⟩
      rw [hca] at ha1; cases ha1; exact hall ha3
    · left
      refine ⟨by simp [h, Run.fail, hf], ?_⟩
      rintro ⟨a, ha1, -, ha3⟩
      rw [hca] at ha1; cases ha1; exact hall ha3

theorem processSend_calls (env : Env) (id : JSString) (arrParams : List JSString) (tx : RawTx) :
    ((processSend env id arrParams tx).events.filter Event.isLedgerCall = [] ∧
      ¬ (isPositiveSafeInteger (Number arrParams[2]?) = true ∧
          env.validateaddress arrParams[3]? = .ok (some true) ∧
          ∃ a, claimedAddress tx = some a ∧ a ≠ [] ∧ AllInputsFrom env tx a)) ∨
    (∃ a, isPositiveSafeInteger (Number arrParams[2]?) = true ∧
      env.validateaddress arrParams[3]? = .ok (some true) ∧
      claimedAddress tx = some a ∧ a ≠ [] ∧ AllInputsFrom env tx a ∧
      (processSend env id arrParams tx).events.filter Event.isLedgerCall =
        [.transfer id a arrParams[3]? (Number arrParams[2]?) tx] ∧
      (processSend env id arrParams tx).result = .ok true) := by
  unfold processSend
  simp only [isPositiveSafeInteger, Bool.and_eq_true]
  cases hc : callerAddress "Missing caller address!" tx with
  | error f =>
    left
    refine ⟨by simp [Run.fail], ?_⟩
    rintro ⟨-, -, a, ha1, ha2, -⟩
    have := (callerAddress_eq_ok "Missing caller address!" tx a).mpr ⟨ha1, ha2⟩
    rw [hc] at this; cases this
  | ok addrCaller =>
    obtain ⟨hca, hne⟩ := (callerAddress_eq_ok _ tx addrCaller).mp hc
    simp only
    cases hv : env.validateaddress arrParams[3]? with
    | error f => left; simp [Run.fail, Event.isLedgerCall, Event.isBalanceCall]
    | ok r =>
      cases r with
      | none => left; simp [Run.fail, Event.isLedgerCall, Event.isBalanceCall]
      | some check4 =>
        simp only
        by_cases h34 : ((Number arrParams[2]?).gt 0 = true ∧
            (Number arrParams[2]?).isSafeInteger = true) ∧ check4 = true
        · obtain ⟨h3, h4⟩ := h34
          subst h4
          simp only [h3, and_self, reduceIte, true_and]
          rcases authenticate_cases env addrCaller tx with ⟨evs, h, hall, hf⟩ |
            ⟨evs, h, hall, hf⟩ | ⟨evs, f, h, hall, hf⟩
          · right
            refine ⟨addrCaller, hca, hne, hall, ?_⟩
            simp [h, Run.done, List.filter_append, hf, Event.isLedgerCall, Event.isBalanceCall]
          · left
            refine ⟨by simp [h, Run.done, List.filter_append, hf, Event.isLedgerCall,
              Event.isBalanceCall], ?_⟩
            rintro ⟨a, ha1, -, ha3⟩
            rw [hca] at ha1; cases ha1; exact hall ha3
          · left
            refine ⟨by simp [h, Run.fail, hf, Event.isLedgerCall, Event.isBalanceCall], ?_⟩
            rintro ⟨a, ha1, -, ha3⟩
            rw [hca] at ha1; cases ha1; exact hall ha3
        · left
          simp only [h34, reduceIte]
          constructor
          · split
            · simp [Run.fail, Event.isLedgerCall, Event.isBalanceCall]
            · split <;> simp [Run.fail, Run.done, Event.isLedgerCall, Event.isBalanceCall]
          · rintro ⟨h3, h4, -⟩
            apply h34
            refine ⟨h3, ?_⟩
            simpa using h4


theorem processMint_calls (env : Env) (id : JSString) (cToken : Token)
    (arrParams : List JSString) (tx : RawTx) :
    ((processMint env id cToken arrParams tx).events.filter Event.isLedgerCall = [] ∧
      ¬ (MintAuthorised env cToken arrParams[2]? tx ∧ cToken.creator ≠ [])) ∨
    (MintAuthorised env cToken arrParams[2]? tx ∧ cToken.creator ≠ [] ∧
      (processMint env id cToken arrParams tx).events.filter Event.isLedgerCall =
        [.creditAccount id cToken.creator (Number arrParams[2]?) tx] ∧
      (processMint env id cToken arrParams tx).result = .ok true) := by
  unfold processMint MintAuthorised
  simp only [isPositiveSafeInteger, Bool.and_eq_true]
  by_cases hv : cToken.version = 2 ∧ cToken.owners.length > 0
  · left
    have hne : cToken.owners ≠ [] := List.length_pos.mp hv.2
    refine ⟨by simp [hv, Run.done], ?_⟩
    rintro ⟨⟨-, -, -, h⟩, -⟩
    exact hne (h hv.1)
  · have hv2 : cToken.version = 2 → cToken.owners = [] := by
      intro h
      by_contra hne
      exact hv ⟨h, List.length_pos.mpr hne⟩
    simp only [hv, reduceIte]
    by_cases h3 : (Number arrParams[2]?).gt 0 = true ∧ (Number arrParams[2]?).isSafeInteger = true
    · simp only [h3, and_self, reduceIte, true_and]
      cases hc : callerAddress "Missing creator address!" tx with
      | error f =>
        left
        refine ⟨by simp [Run.fail], ?_⟩
        rintro ⟨⟨ha1, -, -⟩, ha2⟩
        have := (callerAddress_eq_ok "Missing creator address!" tx _).mpr ⟨ha1, ha2⟩
        rw [hc] at this; cases this
      | ok addrCreator =>
        obtain ⟨hca, hne⟩ := (callerAddress_eq_ok _ tx addrCreator).mp hc
        simp only
        by_cases heq : addrCreator = cToken.creator
        · subst heq
          simp only [reduceIte]
          rcases authenticate_cases env cToken.creator tx with ⟨evs, h, hall, hf⟩ |
            ⟨evs, h, hall, hf⟩ | ⟨evs, f, h, hall, hf⟩
          · right
            refine ⟨⟨hca, hall, hv2⟩, hne, ?_⟩
            simp [h, Run.done, List.filter_append, hf, Event.isLedgerCall, Event.isBalanceCall]
          · left
            refine ⟨by simp [h, Run.done, List.filter_append, hf, Event.isLedgerCall,
              Event.isBalanceCall], ?_⟩
            rintro ⟨⟨-, ha3, -⟩, -⟩
            exact hall ha3
          · left
            refine ⟨by simp [h, Run.fail, hf], ?_⟩
            rintro ⟨⟨-, ha3, -⟩, -⟩
            exact hall ha3
        · left
          simp only [heq, reduceIte]
          refine ⟨by simp [Run.done, Event.isLedgerCall, Event.isBalanceCall], ?_⟩
          rintro ⟨⟨ha1, -, -⟩, -⟩
          rw [hca] at ha1
          exact heq (Option.some.inj ha1)
    · left
      simp only [h3, reduceIte, false_and, not_false_eq_true, and_true]
      simp [Run.done, Event.isLedgerCall, Event.isBalanceCall]

theorem processMint_single (env : Env) (id : JSString) (cToken : Token)
    (arrParams : List JSString) (tx : RawTx) (hv : cToken.version = 2)
    (ho : cToken.owners ≠ []) :
    processMint env id cToken arrParams tx = Run.done [] true := by
  unfold processMint
  have : cToken.owners.length > 0 := List.length_pos.mpr ho
  simp [hv, this]

/-! ## The CREATE branch -/

theorem processCreate_unfold (newMsg : JSString) (tx : RawTx) :
    processCreate newMsg tx =
      if (split newMsg " ".toList).length =
          (if createVersion (split newMsg " ".toList) = 2 then 6 else 4) then
        if createParamChecks (split newMsg " ".toList) = true then
          match creatorAddress tx with
          | .error _ =>
            Run.done [.console .warn .createFailedToVerifyOutputs, .console .error .dump] true
          | .ok addrCreator =>
            match feeOutputOk tx with
            | .error _ =>
              Run.done [.console .warn .createFailedToVerifyOutputs, .console .error .dump] true
            | .ok true =>
              Run.done [.addToken (createdToken (split newMsg " ".toList) tx.txid addrCreator),
                .console .log .tokenCreated, .console .log .dump] true
            | .ok false => Run.done [.console .warn .createInvalidFeeOutput] true
        else Run.done [.console .warn .createIncorrectParams] true
      else Run.done [.console .warn .createIncorrectParamCount] true := rfl

/-- The CREATE branch either registers exactly the token built from the
fields, when every check passes, or calls nothing of the token module; it
returns `true` in both cases. -/
theorem processCreate_cases (newMsg : JSString) (tx : RawTx) :
    (processCreate newMsg tx).result = .ok true ∧
    ((∃ addrCreator,
        (split newMsg " ".toList).length =
          (if createVersion (split newMsg " ".toList) = 2 then 6 else 4) ∧
        createParamChecks (split newMsg " ".toList) = true ∧
        creatorAddress tx = .ok addrCreator ∧ feeOutputOk tx = .ok true ∧
        (processCreate newMsg tx).events =
          [.addToken (createdToken (split newMsg " ".toList) tx.txid addrCreator),
            .console .log .tokenCreated, .console .log .dump]) ∨
     (¬ ((split newMsg " ".toList).length =
          (if createVersion (split newMsg " ".toList) = 2 then 6 else 4) ∧
        createParamChecks (split newMsg " ".toList) = true ∧
        (∃ addrCreator, creatorAddress tx = .ok addrCreator) ∧ feeOutputOk tx = .ok true) ∧
      ∀ e ∈ (processCreate newMsg tx).events, e.isLedgerCall = false)) := by
  rw [processCreate_unfold]
  by_cases hlen : (split newMsg " ".toList).length =
      (if createVersion (split newMsg " ".toList) = 2 then 6 else 4)
  · rw [if_pos hlen]
    by_cases hchk : createParamChecks (split newMsg " ".toList) = true
    · rw [if_pos hchk]
      cases hca : creatorAddress tx with
      | error f =>
        refine ⟨rfl, Or.inr ⟨?_, ?_⟩⟩
        · rintro ⟨-, -, ⟨a, ha⟩, -⟩; cases ha
        · intro e he
          simp only [Run.done, List.mem_cons, List.mem_singleton, List.not_mem_nil,
            or_false] at he
          rcases he with rfl | rfl <;> rfl
      | ok addrCreator =>
        cases hfee : feeOutputOk tx with
        | error f =>
          refine ⟨rfl, Or.inr ⟨?_, ?_⟩⟩
          · rintro ⟨-, -, -, h⟩; cases h
          · intro e he
            simp only [Run.done, List.mem_cons, List.mem_singleton, List.not_mem_nil,
              or_false] at he
            rcases he with rfl | rfl <;> rfl
        | ok b =>
          cases b with
          | true => exact ⟨rfl, Or.inl ⟨addrCreator, hlen, hchk, rfl, rfl, rfl⟩⟩
          | false =>
            refine ⟨rfl, Or.inr ⟨?_, ?_⟩⟩
            · rintro ⟨-, -, -, h⟩; cases h
            · intro e he
              simp only [Run.done, List.mem_singleton] at he
              subst he; rfl
    · rw [if_neg hchk]
      refine ⟨rfl, Or.inr ⟨fun h => hchk h.2.1, ?_⟩⟩
      intro e he
      simp only [Run.done, List.mem_singleton] at he
      subst he; rfl
  · rw [if_neg hlen]
    refine ⟨rfl, Or.inr ⟨fun h => hlen h.1, ?_⟩⟩
    intro e he
    simp only [Run.done, List.mem_singleton] at he
    subst he; rfl


theorem isLedgerCall_of_isBalanceCall (e : Event) (h : e.isBalanceCall = true) :
    e.isLedgerCall = true := by
  cases e <;> simp_all [Event.isLedgerCall, Event.isBalanceCall]

theorem mem_filter_nil {e : Event} {l : List Event} (hf : l.filter Event.isLedgerCall = [])
    (he : e ∈ l) : e.isLedgerCall = false := by
  rw [List.filter_eq_nil_iff] at hf
  simpa using hf e he

/-- A call into the token module made by the contract-call branch is made
for the address claimed in output 1, and only when every input resolves to
that address. -/
theorem processCall_ledgerCall (env : Env) (getToken : JSString → Option Token)
    (newMsg : JSString) (tx : RawTx) (e : Event)
    (he : e ∈ (processCall env getToken newMsg tx).events) (hl : e.isLedgerCall = true) :
    ∃ a, claimedAddress tx = some a ∧ a ≠ [] ∧ AllInputsFrom env tx a := by
  unfold processCall at he
  simp only at he
  split at he
  · split at he
    · rename_i cToken htok
      split at he
      · rcases processMint_calls env ((split newMsg " ".toList)[0]?.getD []) cToken
          (split newMsg " ".toList) tx with ⟨hf, -⟩ | ⟨hm, hne, -⟩
        · rw [mem_filter_nil hf he] at hl; cases hl
        · exact ⟨cToken.creator, hm.2.1, hne, hm.2.2.1⟩
      · split at he
        · rcases processBurn_calls env ((split newMsg " ".toList)[0]?.getD [])
            (split newMsg " ".toList) tx with ⟨hf, -⟩ | ⟨a, -, h1, h2, h3, -⟩
          · rw [mem_filter_nil hf he] at hl; cases hl
          · exact ⟨a, h1, h2, h3⟩
        · split at he
          · rcases processSend_calls env ((split newMsg " ".toList)[0]?.getD [])
              (split newMsg " ".toList) tx with ⟨hf, -⟩ | ⟨a, -, -, h1, h2, h3, -⟩
            · rw [mem_filter_nil hf he] at hl; cases hl
            · exact ⟨a, h1, h2, h3⟩
          · split at he
            · rcases processRedeem_calls env ((split newMsg " ".toList)[0]?.getD []) tx with
                ⟨hf, -⟩ | ⟨a, h1, h2, h3, -⟩
              · rw [mem_filter_nil hf he] at hl; cases hl
              · exact ⟨a, h1, h2, h3⟩
            · simp [Run.done] at he
    · simp only [Run.done, List.mem_cons, List.mem_singleton, List.not_mem_nil, or_false] at he
      rcases he with rfl | rfl <;> cases hl
  · simp [Run.done] at he

theorem processCreate_isBalanceCall (newMsg : JSString) (tx : RawTx) (e : Event)
    (he : e ∈ (processCreate newMsg tx).events) : e.isBalanceCall = false := by
  rcases (processCreate_cases newMsg tx).2 with ⟨a, -, -, -, -, hev⟩ | ⟨-, h⟩
  · rw [hev] at he
    simp only [List.mem_cons, List.mem_singleton, List.not_mem_nil, or_false] at he
    rcases he with rfl | rfl | rfl <;> rfl
  · have := h e he
    cases hb : e.isBalanceCall
    · rfl
    · rw [isLedgerCall_of_isBalanceCall e hb] at this; cases this

/-- A balance call made by `processState` is made for the address claimed in
output 1, and only when every input resolves to that address. -/
theorem processState_balanceCall (env : Env) (getToken : JSString → Option Token)
    (newMsg : JSString) (tx : RawTx) (e : Event)
    (he : e ∈ (processState env getToken newMsg tx).events) (hb : e.isBalanceCall = true) :
    ∃ a, claimedAddress tx = some a ∧ a ≠ [] ∧ AllInputsFrom env tx a := by
  unfold processState at he
  split at he
  · simp [Run.done] at he
  · split at he
    · rw [processCreate_isBalanceCall newMsg tx e he] at hb; cases hb
    · split at he
      · exact processCall_ledgerCall env getToken newMsg tx e he
          (isLedgerCall_of_isBalanceCall e hb)
      · simp [Run.done] at he


/-! ## Reading the outputs -/

theorem firstAddress_ok_some (o : Option Vout) (a : JSString) :
    firstAddress o = .ok (some a) ↔
      ∃ v spk addresses, o = some v ∧ v.scriptPubKey = some spk ∧
        spk.addresses = some addresses ∧ addresses[0]? = some a := by
  cases o with
  | none => simp [firstAddress]
  | some v =>
    unfold firstAddress
    cases h1 : v.scriptPubKey with
    | none => simp [h1]
    | some spk =>
      cases h2 : spk.addresses with
      | none => simp [h1, h2]
      | some addresses => simp [h1, h2]

theorem creatorAddress_ok (tx : RawTx) (a : JSString) :
    creatorAddress tx = .ok a ↔ LastOutputAddress tx a ∧ a ≠ [] := by
  unfold creatorAddress LastOutputAddress
  cases h : tx.vout with
  | none => simp
  | some vout =>
    simp only [Option.some.injEq, exists_and_left, exists_eq_left']
    cases h2 : firstAddress vout.getLast? with
    | error f =>
      simp only [reduceCtorEq, false_iff, not_and, not_not]
      rintro ⟨last, hl, spk, hs, addresses, ha, h0⟩
      have := (firstAddress_ok_some vout.getLast? a).mpr ⟨last, spk, addresses, hl, hs, ha, h0⟩
      rw [h2] at this; cases this
    | ok x =>
      simp only [requireAddress_eq_ok]
      constructor
      · rintro ⟨rfl, hne⟩
        obtain ⟨v, spk, addresses, h3, h4, h5, h6⟩ := (firstAddress_ok_some _ a).mp h2
        exact ⟨⟨v, h3, spk, h4, addresses, h5, h6⟩, hne⟩
      · rintro ⟨⟨last, hl, spk, hs, addresses, ha, h0⟩, hne⟩
        have := (firstAddress_ok_some vout.getLast? a).mpr ⟨last, spk, addresses, hl, hs, ha, h0⟩
        rw [h2] at this
        cases this
        exact ⟨rfl, hne⟩

theorem feeOutputOk_true (tx : RawTx) : feeOutputOk tx = .ok true ↔ PaysDeployFee tx := by
  unfold feeOutputOk PaysDeployFee
  cases h : tx.vout with
  | none => simp
  | some vout =>
    simp only [Option.some.injEq, exists_and_left, exists_eq_left']
    cases h1 : vout[1]? with
    | none => simp
    | some o =>
      simp only [Option.some.injEq, exists_eq_left']
      cases h2 : o.scriptPubKey with
      | none => simp
      | some spk =>
        simp only [Option.some.injEq, exists_eq_left']
        cases h3 : spk.addresses with
        | none => simp
        | some addresses =>
          simp only [Option.some.injEq, exists_eq_left']
          cases h4 : addresses[0]? with
          | none => simp
          | some a =>
            simp only [isNil_some, Except.ok.injEq, Bool.and_eq_true, Bool.not_eq_true',
              beq_iff_eq, Option.some.injEq]
            constructor
            · rintro ⟨⟨-, h5⟩, h6⟩; exact ⟨h5, h6⟩
            · rintro ⟨h5, h6⟩
              refine ⟨⟨?_, h5⟩, h6⟩
              subst h5; rfl

theorem createVersion_cases (arrParams : List JSString) :
    createVersion arrParams = 1 ∨ createVersion arrParams = 2 := by
  unfold createVersion
  split
  · split
    · right; rfl
    · left; rfl
  · left; rfl

theorem createdToken_version (arrParams : List JSString) (txid addrCreator : JSString) :
    (createdToken arrParams txid addrCreator).version = createVersion arrParams := by
  unfold createdToken
  rcases createVersion_cases arrParams with h | h <;> simp [h, SCP1Token, SCP2Token]

theorem createdToken_creator (arrParams : List JSString) (txid addrCreator : JSString) :
    (createdToken arrParams txid addrCreator).creator = addrCreator := by
  unfold createdToken
  split <;> rfl

theorem fieldLength_pos (a : Option JSString) :
    fieldLength a > 0 ↔ ∃ s, a = some s ∧ s ≠ [] := by
  cases a with
  | none => simp [fieldLength]
  | some s => simp [fieldLength, jsLength_pos_iff]

/-- The three ways `processState` dispatches a message. -/
theorem processState_cases (env : Env) (getToken : JSString → Option Token)
    (newMsg : JSString) (tx : RawTx) :
    (startsWith newMsg "SCPCREATE".toList = true ∧ tx.txid ≠ [] ∧ newMsg ≠ [] ∧
      processState env getToken newMsg tx = processCreate newMsg tx) ∨
    (¬ (startsWith newMsg "SCPCREATE".toList = true ∧ tx.txid ≠ []) ∧ jsLength newMsg > 64 ∧
      processState env getToken newMsg tx = processCall env getToken newMsg tx) ∨
    (¬ (startsWith newMsg "SCPCREATE".toList = true ∧ tx.txid ≠ [] ∧ newMsg ≠ []) ∧
      ¬ jsLength newMsg > 64 ∧
      processState env getToken newMsg tx = Run.done [] true) := by
  unfold processState
  simp only [isEmpty_some]
  cases newMsg with
  | nil =>
    right; right
    simp [jsLength]
  | cons c cs =>
    simp only [List.isEmpty_cons, Bool.false_eq_true, reduceIte, ne_eq, reduceCtorEq,
      not_false_eq_true, and_true]
    by_cases hcr : startsWith (c :: cs) "SCPCREATE".toList = true ∧ tx.txid ≠ []
    · left
      refine ⟨hcr.1, hcr.2, ?_⟩
      have : tx.txid.isEmpty = false := by
        cases h : tx.txid with
        | nil => exact absurd h hcr.2
        | cons _ _ => rfl
      rw [if_pos (by rw [hcr.1, this]; rfl)]
      exact ⟨trivial, rfl⟩
    · right
      have hif : ¬ ((startsWith (c :: cs) "SCPCREATE".toList && !tx.txid.isEmpty) = true) := by
        intro h
        simp only [Bool.and_eq_true, Bool.not_eq_true', List.isEmpty_eq_false] at h
        exact hcr h
      rw [if_neg hif]
      by_cases hlen : jsLength (c :: cs) > 64
      · left; exact ⟨hcr, hlen, by rw [if_pos hlen]⟩
      · right; exact ⟨hcr, hlen, by rw [if_neg hlen]⟩

/-- The contract-call branch calls the token module through the four balance
methods only. -/
theorem processCall_ledgerCall_isBalanceCall (env : Env) (getToken : JSString → Option Token)
    (newMsg : JSString) (tx : RawTx) (e : Event)
    (he : e ∈ (processCall env getToken newMsg tx).events) (hl : e.isLedgerCall = true) :
    e.isBalanceCall = true := by
  unfold processCall at he
  simp only at he
  split at he
  · split at he
    · rename_i cToken htok
      split at he
      · rcases processMint_calls env ((split newMsg " ".toList)[0]?.getD []) cToken
          (split newMsg " ".toList) tx with ⟨hf, -⟩ | ⟨-, -, hf, -⟩
        · rw [mem_filter_nil hf he] at hl; cases hl
        · have := List.mem_filter.mpr ⟨he, hl⟩
          rw [hf, List.mem_singleton] at this
          subst this; rfl
      · split at he
        · rcases processBurn_calls env ((split newMsg " ".toList)[0]?.getD [])
            (split newMsg " ".toList) tx with ⟨hf, -⟩ | ⟨a, -, -, -, -, hf, -⟩
          · rw [mem_filter_nil hf he] at hl; cases hl
          · have := List.mem_filter.mpr ⟨he, hl⟩
            rw [hf, List.mem_singleton] at this
            subst this; rfl
        · split at he
          · rcases processSend_calls env ((split newMsg " ".toList)[0]?.getD [])
              (split newMsg " ".toList) tx with ⟨hf, -⟩ | ⟨a, -, -, -, -, -, hf, -⟩
            · rw [mem_filter_nil hf he] at hl; cases hl
            · have := List.mem_filter.mpr ⟨he, hl⟩
              rw [hf, List.mem_singleton] at this
              subst this; rfl
          · split at he
            · rcases processRedeem_calls env ((split newMsg " ".toList)[0]?.getD []) tx with
                ⟨hf, -⟩ | ⟨a, -, -, -, hf, -⟩
              · rw [mem_filter_nil hf he] at hl; cases hl
              · have := List.mem_filter.mpr ⟨he, hl⟩
                rw [hf, List.mem_singleton] at this
                subst this; rfl
            · simp [Run.done] at he
    · simp only [Run.done, List.mem_cons, List.mem_singleton, List.not_mem_nil, or_false] at he
      rcases he with rfl | rfl <;> cases hl
  · simp [Run.done] at he

/-- What a registration by `processState` implies. -/
theorem processState_addToken (env : Env) (getToken : JSString → Option Token)
    (newMsg : JSString) (tx : RawTx) (t : Token)
    (h : Event.addToken t ∈ (processState env getToken newMsg tx).events) :
    startsWith newMsg "SCPCREATE".toList = true ∧ tx.txid ≠ [] ∧
    (split newMsg " ".toList).length =
      (if createVersion (split newMsg " ".toList) = 2 then 6 else 4) ∧
    createParamChecks (split newMsg " ".toList) = true ∧
    PaysDeployFee tx ∧
    ∃ addrCreator, LastOutputAddress tx addrCreator ∧ addrCreator ≠ [] ∧
      t = createdToken (split newMsg " ".toList) tx.txid addrCreator ∧
      (processState env getToken newMsg tx).events =
        [.addToken t, .console .log .tokenCreated, .console .log .dump] := by
  rcases processState_cases env getToken newMsg tx with ⟨hs, htx, -, heq⟩ | ⟨-, -, heq⟩ |
    ⟨-, -, heq⟩
  · rw [heq] at h ⊢
    rcases (processCreate_cases newMsg tx).2 with ⟨a, h1, h2, h3, h4, hev⟩ | ⟨-, hno⟩
    · rw [hev] at h
      simp only [List.mem_cons, Event.addToken.injEq, reduceCtorEq, List.mem_singleton,
        List.not_mem_nil, or_false] at h
      obtain ⟨hl, hne⟩ := (creatorAddress_ok tx a).mp h3
      refine ⟨hs, htx, h1, h2, (feeOutputOk_true tx).mp h4, a, hl, hne, h, ?_⟩
      rw [hev, h]
    · have := hno _ h
      cases this
  · rw [heq] at h
    have := processCall_ledgerCall_isBalanceCall env getToken newMsg tx _ h rfl
    cases this
  · rw [heq] at h
    simp [Run.done] at h


/-! ## The scanner -/

theorem scanHash_events {L : Type} (env : Env) (st : ScanState L) (i : Int) :
    (scanHash env st i).1 = [] ∨ (scanHash env st i).1 = [.getblockhash i] := by
  unfold scanHash
  split
  · right; rfl
  · split
    · right; rfl
    · split
      · left; rfl
      · right; rfl

theorem scanHash_of_no_block {L : Type} (env : Env) (st : ScanState L) (i : Int)
    (h : st.currentScanBlock = none) :
    scanHash env st i = ([.getblockhash i], env.getblockhash i) := by
  unfold scanHash
  rw [h]

/-- A height whose examined hash is already processed is skipped: only the
trace can grow, by the lookup of the hash. -/
theorem scanStep_skip {L : Type} (T : TokensModule L) (env : Env) (st : ScanState L) (i : Int)
    (h : JSString) (hh : (scanHash env st i).2 = .ok h) (hmem : h ∈ st.chainHashesCache) :
    scanStep T env st i = ({ st with trace := st.trace ++ (scanHash env st i).1 }, .ok ()) := by
  unfold scanStep
  simp only [hh, hmem, reduceIte]

theorem mem_heightsFrom (i : Int) (n : Nat) (j : Int) :
    j ∈ heightsFrom i n ↔ i ≤ j ∧ j < i + n := by
  induction n generalizing i with
  | zero => simp [heightsFrom]
  | succ n ih =>
    simp only [heightsFrom, List.mem_cons, ih, Nat.cast_succ]
    omega

/-- A scan loop over heights that are all processed already, entered without
a cached block, only looks the hashes up. -/
theorem scanLoop_all_processed {L : Type} (T : TokensModule L) (env : Env) (remaining : Nat)
    (i : Int) (st : ScanState L) (hnone : st.currentScanBlock = none)
    (hall : ∀ j ∈ heightsFrom i remaining,
      ∃ h, env.getblockhash j = .ok h ∧ h ∈ st.chainHashesCache) :
    scanLoop T env remaining i st =
      ({ st with trace := st.trace ++ (heightsFrom i remaining).map Event.getblockhash },
        .ok ()) := by
  induction remaining generalizing i st with
  | zero => simp [scanLoop, heightsFrom]
  | succ n ih =>
    obtain ⟨h, hh, hmem⟩ := hall i (by simp [heightsFrom])
    have hsh := scanHash_of_no_block env st i hnone
    have hstep := scanStep_skip T env st i h (by rw [hsh]; exact hh) hmem
    rw [scanLoop, hstep]
    simp only [hsh]
    have hrest := ih (i + 1) { st with trace := st.trace ++ [Event.getblockhash i] } hnone
      (fun j hj => hall j (by simp [heightsFrom, hj]))
    rw [hrest]
    simp [heightsFrom]

theorem findMessage_shape (res : RawTx) (vout : List Vout) (r : TxResult)
    (h : findMessage res vout = some r) :
    r.error = false ∧ (∃ m, r.msg = some m) ∧ r.tx = some res := by
  induction vout with
  | nil => simp [findMessage] at h
  | cons cVout rest ih =>
    unfold findMessage at h
    split at h
    · exact ih h
    · split at h
      · exact ih h
      · split at h
        · exact ih h
        · split at h
          · cases h
            exact ⟨rfl, ⟨_, rfl⟩, rfl⟩
          · exact ih h


/-! ## Authentication and minting -/

/-- C1 (authentication soundness): whatever the message, when some input of
the transaction refers to a previous output whose first address differs from
the address claimed in `tx.vout[1]` (or output 1 names no address),
`processState` calls none of `creditAccount`, `debitAccount`, `transfer`,
`redeemRewards`; and unless the message is a CREATE message it calls nothing
of the token module at all. -/
theorem authentication_soundness (env : Env) (getToken : JSString → Option Token)
    (newMsg : JSString) (tx : RawTx) (vin : List Vin) (cVin : Vin) (a : JSString)
    (hvin : tx.vin = some vin) (hmem : cVin ∈ vin)
    (hprev : prevOutAddress env cVin = some a) (hdiff : claimedAddress tx ≠ some a) :
    (∀ e ∈ (processState env getToken newMsg tx).events, e.isBalanceCall = false) ∧
    (startsWith newMsg "SCPCREATE".toList = false →
      ∀ e ∈ (processState env getToken newMsg tx).events, e.isLedgerCall = false) := by
  have hno : ¬ ∃ c, claimedAddress tx = some c ∧ c ≠ [] ∧ AllInputsFrom env tx c := by
    rintro ⟨c, hc, -, vin2, hvin2, hall⟩
    rw [hvin] at hvin2
    cases hvin2
    have := hall cVin hmem
    rw [hprev] at this
    cases this
    exact hdiff hc
  constructor
  · intro e he
    cases hb : e.isBalanceCall with
    | false => rfl
    | true => exact absurd (processState_balanceCall env getToken newMsg tx e he hb) hno
  · intro hstart e he
    cases hl : e.isLedgerCall with
    | false => rfl
    | true =>
      exfalso
      rcases processState_cases env getToken newMsg tx with ⟨hs, -⟩ | ⟨-, -, heq⟩ |
        ⟨-, -, heq⟩
      · rw [hstart] at hs; cases hs
      · rw [heq] at he
        exact hno (processCall_ledgerCall env getToken newMsg tx e he hl)
      · rw [heq] at he
        simp [Run.done] at he

/-- A send by `sXcreator` whose second input comes from `sYother` moves
nothing, although the same send with the first input alone is applied. -/
theorem authentication_soundness_witness :
    ((sampleCallTx ["p0", "p1"]).vin =
        some [{ txid := some "p0".toList, vout := some 0 },
          { txid := some "p1".toList, vout := some 0 }] ∧
      prevOutAddress sampleEnv { txid := some "p1".toList, vout := some 0 } =
        some "sYother".toList ∧
      claimedAddress (sampleCallTx ["p0", "p1"]) ≠ some "sYother".toList) ∧
    (∀ e ∈ (processState sampleEnv (sampleLookup sampleToken)
        (joinFields [sampleId, "send".toList, "100".toList, "sYreceiver".toList])
        (sampleCallTx ["p0", "p1"])).events, e.isLedgerCall = false) ∧
    (processState sampleEnv (sampleLookup sampleToken)
        (joinFields [sampleId, "send".toList, "100".toList, "sYreceiver".toList])
        (sampleCallTx ["p0"])).events.filter Event.isLedgerCall =
      [.transfer sampleId "sXcreator".toList (some "sYreceiver".toList) (JSNumber.ofInt 100)
        (sampleCallTx ["p0"])] :=
  ⟨⟨rfl, by decide, by decide⟩,
    (authentication_soundness sampleEnv (sampleLookup sampleToken) _ (sampleCallTx ["p0", "p1"])
      _ { txid := some "p1".toList, vout := some 0 } "sYother".toList rfl (by simp)
      (by decide) (by decide)).2 (by decide),
    by decide⟩

/-- C2 (single-mint invariant): for a version-2 token with a non-empty owners
list and a message whose first two fields are the token's id and `mint`,
`processState` returns `true` and calls no balance method, whatever the
amount, the outputs and the inputs; unless the message is at the same time a
CREATE message, it does nothing at all. -/
theorem single_mint_invariant (env : Env) (getToken : JSString → Option Token)
    (newMsg : JSString) (tx : RawTx) (id : JSString) (cToken : Token)
    (h0 : (split newMsg " ".toList)[0]? = some id)
    (h1 : (split newMsg " ".toList)[1]? = some "mint".toList)
    (htok : getToken id = some cToken) (hv : cToken.version = 2) (ho : cToken.owners ≠ []) :
    (processState env getToken newMsg tx).result = .ok true ∧
    (∀ e ∈ (processState env getToken newMsg tx).events, e.isBalanceCall = false) ∧
    (startsWith newMsg "SCPCREATE".toList = false →
      (processState env getToken newMsg tx).events = []) := by
  rcases processState_cases env getToken newMsg tx with ⟨hs, htx, -, heq⟩ | ⟨-, -, heq⟩ |
    ⟨-, -, heq⟩
  · rw [heq]
    refine ⟨(processCreate_cases newMsg tx).1, processCreate_isBalanceCall newMsg tx, ?_⟩
    intro hf; rw [hs] at hf; cases hf
  · have hcall : processCall env getToken newMsg tx = Run.done [] true := by
      unfold processCall
      simp only [h0, h1, Option.getD_some, htok, reduceIte]
      split
      · exact processMint_single env id cToken _ tx hv ho
      · rfl
    rw [heq, hcall]
    simp [Run.done]
  · rw [heq]
    simp [Run.done]

/-- A second mint of 500 on a version-2 token that has an owner, sent by the
creator with inputs of the creator, does nothing. -/
theorem single_mint_invariant_witness :
    ((split (joinFields [sampleId, "mint".toList, "500".toList]) " ".toList)[0]? = some sampleId ∧
      (split (joinFields [sampleId, "mint".toList, "500".toList]) " ".toList)[1]? =
        some "mint".toList ∧
      sampleLookup sampleToken2 sampleId = some sampleToken2 ∧ sampleToken2.version = 2 ∧
      sampleToken2.owners ≠ []) ∧
    ((processState sampleEnv (sampleLookup sampleToken2)
        (joinFields [sampleId, "mint".toList, "500".toList]) (sampleCallTx ["p0"])).result =
        .ok true ∧
      (∀ e ∈ (processState sampleEnv (sampleLookup sampleToken2)
        (joinFields [sampleId, "mint".toList, "500".toList]) (sampleCallTx ["p0"])).events,
        e.isBalanceCall = false) ∧
      (startsWith (joinFields [sampleId, "mint".toList, "500".toList]) "SCPCREATE".toList =
          false →
        (processState sampleEnv (sampleLookup sampleToken2)
          (joinFields [sampleId, "mint".toList, "500".toList]) (sampleCallTx ["p0"])).events =
          [])) :=
  ⟨⟨by decide, by decide, by decide, by decide, by decide⟩,
    single_mint_invariant sampleEnv (sampleLookup sampleToken2) _ (sampleCallTx ["p0"]) sampleId
      sampleToken2 (by decide) (by decide) (by decide) (by decide) (by decide)⟩


/-! ## CREATE -/

/-- C3 (CREATE soundness): if `processState` registers a token (calls
`addToken`), then the message starts with `SCPCREATE`, its name and ticker
fields are non-empty, its max-supply field is a positive safe integer, for
version 2 the inflation and min-age fields are safe integers greater than 1,
the last output has a non-empty first address, and output 1 exists and pays at
least 10 to `sccburnaddressXXXXXXXXXXXXXXSfqakF`; in particular output 1 does
not pay 5. -/
theorem create_soundness (env : Env) (getToken : JSString → Option Token)
    (newMsg : JSString) (tx : RawTx) (t : Token)
    (h : Event.addToken t ∈ (processState env getToken newMsg tx).events) :
    startsWith newMsg "SCPCREATE".toList = true ∧
    (∃ name ticker, (split newMsg " ".toList)[1]? = some name ∧ name ≠ [] ∧
      (split newMsg " ".toList)[2]? = some ticker ∧ ticker ≠ []) ∧
    isPositiveSafeInteger (Number (split newMsg " ".toList)[3]?) = true ∧
    (t.version = 2 →
      ((Number (split newMsg " ".toList)[4]?).gt 1 = true ∧
        (Number (split newMsg " ".toList)[4]?).isSafeInteger = true) ∧
      ((Number (split newMsg " ".toList)[5]?).gt 1 = true ∧
        (Number (split newMsg " ".toList)[5]?).isSafeInteger = true)) ∧
    (∃ a, LastOutputAddress tx a ∧ a ≠ []) ∧
    (PaysDeployFee tx ∧ nDeployFee = 10 ∧
      strDeployFeeDest = "sccburnaddressXXXXXXXXXXXXXXSfqakF".toList) ∧
    (∀ vout o, tx.vout = some vout → vout[1]? = some o → o.value ≠ JSNumber.ofInt 5) := by
  obtain ⟨hs, -, -, hchk, hfee, a, hl, hne, ht, -⟩ :=
    processState_addToken env getToken newMsg tx t h
  unfold createParamChecks at hchk
  simp only [Bool.and_eq_true, decide_eq_true_eq, fieldLength_pos] at hchk
  obtain ⟨⟨⟨⟨name, hn1, hn2⟩, ⟨ticker, ht1, ht2⟩⟩, h3⟩, h4, h5⟩ := hchk
  refine ⟨hs, ⟨name, ticker, hn1, hn2, ht1, ht2⟩, ?_, ?_, ⟨a, hl, hne⟩, ⟨hfee, rfl, rfl⟩, ?_⟩
  · simp only [isPositiveSafeInteger, Bool.and_eq_true]; exact h3
  · intro hv
    rw [ht, createdToken_version] at hv
    rw [if_pos hv] at h4 h5
    simp only [Bool.and_eq_true] at h4 h5
    exact ⟨h4, h5⟩
  · intro vout o hvout ho hval
    obtain ⟨vout2, o2, spk, addresses, hv2, ho2, -, -, -, hge⟩ := hfee
    rw [hvout] at hv2; cases hv2
    rw [ho] at ho2; cases ho2
    rw [hval] at hge
    revert hge
    decide

/-- The version-2 create `SCPCREATE2 MyToken MTK 1000000 5 10` with a fee of
10 registers a token, so the conclusion applies to it. -/
theorem create_soundness_witness :
    Event.addToken (SCP2Token sampleTxid "MyToken".toList "MTK".toList
        (JSNumber.ofInt 1000000) "sXcreator".toList [] (JSNumber.ofInt 5) (JSNumber.ofInt 10)) ∈
      (processState sampleEnv (sampleLookup sampleToken)
        "SCPCREATE2 MyToken MTK 1000000 5 10".toList (sampleCreateTx 10)).events ∧
    PaysDeployFee (sampleCreateTx 10) ∧
    isPositiveSafeInteger
      (Number (split "SCPCREATE2 MyToken MTK 1000000 5 10".toList " ".toList)[3]?) = true :=
  ⟨by decide,
    (create_soundness sampleEnv (sampleLookup sampleToken)
      "SCPCREATE2 MyToken MTK 1000000 5 10".toList (sampleCreateTx 10)
      (SCP2Token sampleTxid "MyToken".toList "MTK".toList
        (JSNumber.ofInt 1000000) "sXcreator".toList [] (JSNumber.ofInt 5) (JSNumber.ofInt 10))
      (by decide)).2.2.2.2.2.1.1,
    (create_soundness sampleEnv (sampleLookup sampleToken)
      "SCPCREATE2 MyToken MTK 1000000 5 10".toList (sampleCreateTx 10)
      (SCP2Token sampleTxid "MyToken".toList "MTK".toList
        (JSNumber.ofInt 1000000) "sXcreator".toList [] (JSNumber.ofInt 5) (JSNumber.ofInt 10))
      (by decide)).2.2.1⟩

/-- C4 (CREATE completeness and resulting token): the message
`SCPCREATE <name> <ticker> <maxsupply>` with non-empty name and ticker and a
positive safe-integer maxsupply, in a transaction with a non-empty txid whose
output 1 pays at least 10 to the burn address and whose last output has the
non-empty first address `creator`, makes `processState` return `true` and call
the token module exactly once: `addToken` of the version-1 token with id
`txid`, that name, ticker and numeric maxsupply, creator `creator` and no
owners. -/
theorem create_completeness (env : Env) (getToken : JSString → Option Token)
    (name ticker maxsupply creator : JSString) (tx : RawTx)
    (hname : name ≠ []) (hnameField : ' ' ∉ name)
    (hticker : ticker ≠ []) (htickerField : ' ' ∉ ticker)
    (hmax : isPositiveSafeInteger (Number (some maxsupply)) = true)
    (hmaxField : ' ' ∉ maxsupply)
    (htxid : tx.txid ≠ []) (hfee : PaysDeployFee tx)
    (hlast : LastOutputAddress tx creator) (hcreator : creator ≠ []) :
    (processState env getToken
        (joinFields ["SCPCREATE".toList, name, ticker, maxsupply]) tx).result = .ok true ∧
    (processState env getToken
        (joinFields ["SCPCREATE".toList, name, ticker, maxsupply]) tx).events.filter
        Event.isLedgerCall =
      [.addToken
        { version := 1, contract := tx.txid, name := name, ticker := ticker,
          maxSupply := Number (some maxsupply), creator := creator, owners := [],
          inflation := none, minAge := none }] := by
  have hsplit : split (joinFields ["SCPCREATE".toList, name, ticker, maxsupply]) " ".toList =
      ["SCPCREATE".toList, name, ticker, maxsupply] := by
    apply split_joinFields _ (by simp)
    intro f hf
    simp only [List.mem_cons, List.mem_singleton, List.not_mem_nil, or_false] at hf
    rcases hf with rfl | rfl | rfl | rfl
    · decide
    · exact hnameField
    · exact htickerField
    · exact hmaxField
  have hver : createVersion ["SCPCREATE".toList, name, ticker, maxsupply] = 1 := by
    simp [createVersion]
  have hstart : startsWith (joinFields ["SCPCREATE".toList, name, ticker, maxsupply])
      "SCPCREATE".toList = true := by
    simp [joinFields, startsWith]
  rcases processState_cases env getToken
      (joinFields ["SCPCREATE".toList, name, ticker, maxsupply]) tx with
    ⟨-, -, -, heq⟩ | ⟨hno, -⟩ | ⟨hno, -⟩
  · rw [heq]
    refine ⟨(processCreate_cases _ tx).1, ?_⟩
    rcases (processCreate_cases (joinFields ["SCPCREATE".toList, name, ticker, maxsupply])
        tx).2 with ⟨a, -, -, h3, -, hev⟩ | ⟨hnot, -⟩
    · obtain ⟨hl, -⟩ := (creatorAddress_ok tx a).mp h3
      have hac : a = creator := by
        obtain ⟨v1, l1, s1, a1, e1, e2, e3, e4, e5⟩ := hl
        obtain ⟨v2, l2, s2, a2, f1, f2, f3, f4, f5⟩ := hlast
        rw [e1] at f1; cases f1
        rw [e2] at f2; cases f2
        rw [e3] at f3; cases f3
        rw [e4] at f4; cases f4
        rw [e5] at f5; cases f5
        rfl
      rw [hev, hsplit, hac]
      unfold createdToken
      rw [if_pos hver]
      simp [SCP1Token, Event.isLedgerCall, Event.isBalanceCall]
    · exfalso
      apply hnot
      rw [hsplit]
      refine ⟨by rw [hver]; rfl, ?_,
        ⟨creator, (creatorAddress_ok tx creator).mpr ⟨hlast, hcreator⟩⟩,
        (feeOutputOk_true tx).mpr hfee⟩
      unfold createParamChecks
      rw [hver]
      have h1 : fieldLength (some name) > 0 := (fieldLength_pos _).mpr ⟨name, rfl, hname⟩
      have h2 : fieldLength (some ticker) > 0 := (fieldLength_pos _).mpr ⟨ticker, rfl, hticker⟩
      simp only [isPositiveSafeInteger] at hmax
      simp only [List.getElem?_cons_succ, List.getElem?_cons_zero, h1, h2, hmax, decide_True,
        Bool.and_self, OfNat.ofNat_ne_one, reduceIte, (by decide : (1 : Nat) ≠ 2)]
  · exact absurd ⟨hstart, htxid⟩ hno
  · exfalso
    apply hno
    refine ⟨hstart, htxid, ?_⟩
    simp [joinFields]

/-- The first example scenario of the specification: `SCPCREATE MyToken MTK
1000000` with a fee of 10 and change to `sXcreator`. -/
theorem create_completeness_witness :
    (isPositiveSafeInteger (Number (some "1000000".toList)) = true ∧
      PaysDeployFee (sampleCreateTx 10) ∧
      LastOutputAddress (sampleCreateTx 10) "sXcreator".toList) ∧
    ((processState sampleEnv (fun _ => none)
        (joinFields ["SCPCREATE".toList, "MyToken".toList, "MTK".toList, "1000000".toList])
        (sampleCreateTx 10)).result = .ok true ∧
      (processState sampleEnv (fun _ => none)
        (joinFields ["SCPCREATE".toList, "MyToken".toList, "MTK".toList, "1000000".toList])
        (sampleCreateTx 10)).events.filter Event.isLedgerCall =
      [.addToken
        { version := 1, contract := (sampleCreateTx 10).txid, name := "MyToken".toList,
          ticker := "MTK".toList, maxSupply := Number (some "1000000".toList),
          creator := "sXcreator".toList, owners := [], inflation := none, minAge := none }]) :=
  ⟨⟨by decide, ⟨_, _, _, _, rfl, rfl, rfl, rfl, rfl, by decide⟩, ⟨_, _, _, _, rfl, rfl, rfl, rfl, rfl⟩⟩,
    create_completeness sampleEnv (fun _ => none) "MyToken".toList "MTK".toList
      "1000000".toList "sXcreator".toList (sampleCreateTx 10) (by decide) (by decide)
      (by decide) (by decide) (by decide) (by decide) (by decide)
      ⟨_, _, _, _, rfl, rfl, rfl, rfl, rfl, by decide⟩ ⟨_, _, _, _, rfl, rfl, rfl, rfl, rfl⟩
      (by decide)⟩


/-- A message `<id> <method> ...` for a transaction id `id` and a known token
is handled by the contract-call branch with the token found. -/
theorem processState_call (env : Env) (getToken : JSString → Option Token)
    (id method : JSString) (args : List JSString) (tx : RawTx)
    (hid : IsTxid id) (hmethod : ' ' ∉ method) (hlen : 1 < jsLength method)
    (hargs : ∀ f ∈ args, ' ' ∉ f) :
    split (joinFields (id :: method :: args)) " ".toList = id :: method :: args ∧
    processState env getToken (joinFields (id :: method :: args)) tx =
      processCall env getToken (joinFields (id :: method :: args)) tx ∧
    fieldLength (some id) = 64 ∧ isNil (some method) = false := by
  have hsplit : split (joinFields (id :: method :: args)) " ".toList = id :: method :: args := by
    apply split_joinFields _ (by simp)
    intro f hf
    simp only [List.mem_cons] at hf
    rcases hf with rfl | rfl | hf
    · exact hid.no_space
    · exact hmethod
    · exact hargs f hf
  have hstart : startsWith (joinFields (id :: method :: args)) "SCPCREATE".toList = false := by
    simp only [joinFields]
    exact hid.startsWith_create _
  have hlong : jsLength (joinFields (id :: method :: args)) > 64 := by
    simp only [joinFields, jsLength_append, hid.jsLength]
    simp only [jsLength]
    split <;> omega
  have hnil : isNil (some method) = false := by
    cases method with
    | nil => simp [jsLength] at hlen
    | cons _ _ => rfl
  refine ⟨hsplit, ?_, hid.jsLength, hnil⟩
  rcases processState_cases env getToken (joinFields (id :: method :: args)) tx with
    ⟨hs, -⟩ | ⟨-, -, heq⟩ | ⟨-, hno, -⟩
  · rw [hstart] at hs; cases hs
  · exact heq
  · exact absurd hlong hno

/-- C5 (mint is applied exactly when authorised): for a token registered
under the transaction id `id` with a non-empty creator (as CREATE guarantees)
and the message `<id> mint <amount>`, `processState` calls the token module
exactly once, `creditAccount(creator, Number(amount), tx)`, when the amount is
a positive safe integer, output 1 names the creator, every input resolves to
the creator and a version-2 token has no owner; otherwise it calls nothing of
the token module. -/
theorem mint_applied_iff_authorised (env : Env) (getToken : JSString → Option Token)
    (id amount : JSString) (cToken : Token) (tx : RawTx)
    (hid : IsTxid id) (htok : getToken id = some cToken) (hcreator : cToken.creator ≠ [])
    (hamount : ' ' ∉ amount) :
    (MintAuthorised env cToken (some amount) tx →
      (processState env getToken (joinFields [id, "mint".toList, amount]) tx).events.filter
          Event.isLedgerCall =
        [.creditAccount id cToken.creator (Number (some amount)) tx]) ∧
    (¬ MintAuthorised env cToken (some amount) tx →
      (processState env getToken (joinFields [id, "mint".toList, amount]) tx).events.filter
          Event.isLedgerCall = []) := by
  obtain ⟨hsplit, heq, h64, hnil⟩ := processState_call env getToken id "mint".toList [amount] tx
    hid (by decide) (by decide) (by simpa using hamount)
  have hcall : processCall env getToken (joinFields [id, "mint".toList, amount]) tx =
      processMint env id cToken [id, "mint".toList, amount] tx := by
    unfold processCall
    rw [hsplit]
    simp only [List.getElem?_cons_zero, List.getElem?_cons_succ, h64, hnil, Option.getD_some,
      htok]
    rfl
  rw [heq, hcall]
  rcases processMint_calls env id cToken [id, "mint".toList, amount] tx with
    ⟨hf, hno⟩ | ⟨hyes, -, hf, -⟩
  · constructor
    · intro h; exact absurd ⟨h, hcreator⟩ hno
    · intro _; exact hf
  · constructor
    · intro _; exact hf
    · intro h; exact absurd hyes h

/-- The third example scenario of the specification: `<id> mint 500` sent by
the creator with an input of the creator credits 500 to the creator. -/
theorem mint_applied_iff_authorised_witness :
    (IsTxid sampleId ∧ MintAuthorised sampleEnv sampleToken (some "500".toList)
        (sampleCallTx ["p0"])) ∧
    (processState sampleEnv (sampleLookup sampleToken)
        (joinFields [sampleId, "mint".toList, "500".toList]) (sampleCallTx ["p0"])).events.filter
        Event.isLedgerCall =
      [.creditAccount sampleId "sXcreator".toList (JSNumber.ofInt 500) (sampleCallTx ["p0"])] :=
  have hid : IsTxid sampleId := ⟨by decide, by decide⟩
  have hauth : MintAuthorised sampleEnv sampleToken (some "500".toList) (sampleCallTx ["p0"]) :=
    ⟨by decide, by decide, ⟨_, rfl, by decide⟩, by decide⟩
  ⟨⟨hid, hauth⟩,
    (mint_applied_iff_authorised sampleEnv (sampleLookup sampleToken) sampleId "500".toList
      sampleToken (sampleCallTx ["p0"]) hid (by decide) (by decide) (by decide)).1 hauth⟩


/-! ## What a scan adds to the processed set -/

theorem blockLoop_cache {L : Type} (T : TokensModule L) (env : Env) (blk : Block)
    (remaining i : Nat) (st : ScanState L) :
    (blockLoop T env blk remaining i st).1.chainHashesCache = st.chainHashesCache ∧
    (blockLoop T env blk remaining i st).1.currentScanBlock = st.currentScanBlock := by
  induction remaining generalizing i st with
  | zero => exact ⟨rfl, rfl⟩
  | succ n ih =>
    rw [blockLoop]
    simp only
    split
    · exact ⟨rfl, rfl⟩
    · exact ih _ _
    · split
      · exact ⟨rfl, rfl⟩
      · split
        · exact ih _ _
        · split
          · exact ⟨rfl, rfl⟩
          · split
            · exact ⟨rfl, rfl⟩
            · exact ih _ _

theorem getMsgsFromBlock_cache {L : Type} (T : TokensModule L) (env : Env) (st : ScanState L)
    (blk : Block) :
    (getMsgsFromBlock T env st (some blk)).1.chainHashesCache =
      st.chainHashesCache ++ [blk.hash] ∧
    (getMsgsFromBlock T env st (some blk)).1.currentScanBlock = st.currentScanBlock := by
  unfold getMsgsFromBlock
  simp only
  split
  · exact ⟨rfl, rfl⟩
  · exact blockLoop_cache T env blk _ _ _

/-- A scan step at a height whose hash is not processed yet and whose block
the node returns: if the step completes, the block is cached and its hash is
added to the processed set. -/
theorem scanStep_fetch {L : Type} (T : TokensModule L) (env : Env) (st : ScanState L) (i : Int)
    (h : JSString) (b : Block) (hh : (scanHash env st i).2 = .ok h)
    (hnew : h ∉ st.chainHashesCache) (hb : env.getblock h = .ok (some b)) :
    (scanStep T env st i).1.chainHashesCache = st.chainHashesCache ++ [b.hash] ∧
    (scanStep T env st i).1.currentScanBlock = some b := by
  unfold scanStep
  simp only [hh, hnew, reduceIte, hb]
  have hc := getMsgsFromBlock_cache T env
    { st with
      trace := st.trace ++ (scanHash env st i).1 ++ [.getblock h]
      currentScanBlock := some b } b
  split
  · rename_i st3 f heq
    rw [heq] at hc
    exact hc
  · rename_i st3 u heq
    rw [heq] at hc
    exact hc

theorem scanHash_of_link {L : Type} (env : Env) (st : ScanState L) (i : Int) (h : JSString)
    (hlookup : env.getblockhash i = .ok h)
    (hcur : st.currentScanBlock = none ∨
      ∃ b, st.currentScanBlock = some b ∧
        (isNil b.nextblockhash = true ∨ b.nextblockhash = some h)) :
    (scanHash env st i).2 = .ok h := by
  unfold scanHash
  rcases hcur with hnone | ⟨b, hb, hnil | hnext⟩
  · rw [hnone]; exact hlookup
  · rw [hb]; simp only [hnil, reduceIte]; exact hlookup
  · rw [hb]
    simp only
    split
    · exact hlookup
    · rw [hnext]

theorem scanLoop_step {L : Type} (T : TokensModule L) (env : Env) (remaining : Nat) (i : Int)
    (st : ScanState L) (hok : (scanLoop T env (remaining + 1) i st).2 = .ok ()) :
    (scanStep T env st i).2 = .ok () ∧
    scanLoop T env (remaining + 1) i st = scanLoop T env remaining (i + 1) (scanStep T env st i).1 := by
  rw [scanLoop] at hok ⊢
  rcases hs : scanStep T env st i with ⟨st1, r⟩
  rw [hs] at hok
  cases r with
  | error f => simp at hok
  | ok u => exact ⟨rfl, rfl⟩

/-- A completed scan loop over a consistent range of heights none of which
is processed yet adds the hash of every height of the range to the processed
set, and removes none. -/
theorem scanLoop_caches {L : Type} (T : TokensModule L) (env : Env) (hashAt : Int → JSString)
    (blockAt : Int → Block) (remaining : Nat) (i : Int) (st : ScanState L)
    (hcons : ConsistentRange env hashAt blockAt i remaining)
    (hcur : st.currentScanBlock = none ∨
      ∃ b, st.currentScanBlock = some b ∧
        (isNil b.nextblockhash = true ∨ b.nextblockhash = some (hashAt i)))
    (hfresh : ∀ j ∈ heightsFrom i remaining, hashAt j ∉ st.chainHashesCache)
    (hok : (scanLoop T env remaining i st).2 = .ok ()) :
    (∀ h ∈ st.chainHashesCache, h ∈ (scanLoop T env remaining i st).1.chainHashesCache) ∧
    ∀ j ∈ heightsFrom i remaining,
      hashAt j ∈ (scanLoop T env remaining i st).1.chainHashesCache := by
  induction remaining generalizing i st with
  | zero =>
    refine ⟨fun h hh => hh, ?_⟩
    intro j hj
    simp [heightsFrom] at hj
  | succ n ih =>
    have hi : i ∈ heightsFrom i (n + 1) := by simp [heightsFrom]
    obtain ⟨hlookup, hblock, hhash, hlink⟩ := hcons.1 i hi
    have hsh := scanHash_of_link env st i (hashAt i) hlookup hcur
    obtain ⟨hc, hb⟩ := scanStep_fetch T env st i (hashAt i) (blockAt i) hsh (hfresh i hi) hblock
    obtain ⟨-, heq⟩ := scanLoop_step T env n i st hok
    rw [heq] at hok ⊢
    have hsub : ∀ j, j ∈ heightsFrom (i + 1) n → j ∈ heightsFrom i (n + 1) := by
      intro j hj
      simp [heightsFrom, hj]
    have hcons2 : ConsistentRange env hashAt blockAt (i + 1) n :=
      ⟨fun j hj => hcons.1 j (hsub j hj),
        fun j hj k hk => hcons.2 j (hsub j hj) k (hsub k hk)⟩
    have hfresh2 : ∀ j ∈ heightsFrom (i + 1) n,
        hashAt j ∉ (scanStep T env st i).1.chainHashesCache := by
      intro j hj
      rw [hc, hhash]
      simp only [List.mem_append, List.mem_singleton, not_or]
      refine ⟨hfresh j (hsub j hj), ?_⟩
      intro hjk
      have := hcons.2 j (hsub j hj) i hi hjk
      rw [mem_heightsFrom] at hj
      omega
    obtain ⟨hmono, hall⟩ := ih (i + 1) (scanStep T env st i).1 hcons2
      (Or.inr ⟨blockAt i, hb, hlink⟩) hfresh2 hok
    constructor
    · intro h hh
      apply hmono
      rw [hc]
      exact List.mem_append_left _ hh
    · intro j hj
      simp only [heightsFrom, List.mem_cons] at hj
      rcases hj with rfl | hj
      · apply hmono
        rw [hc, hhash]
        simp
      · exact hall j hj

/-- A scan of a range whose hashes are all processed: the state is left as
it was, but for the flags and the trace, which gains the tip lookup, one
`getblockhash` per height and the two console lines. -/
theorem getMsgsFromChain_all_processed {L : Type} (T : TokensModule L) (env : Env)
    (st : ScanState L) (nBlocksTotal : Int) (best : JSString) (tip : Block)
    (hbest : env.getbestblockhash = .ok best) (htip : env.getblock best = .ok (some tip))
    (hall : ∀ j ∈ heightsFrom (tip.height - nBlocksTotal) (nBlocksTotal + 1).toNat,
      ∃ h, env.getblockhash j = .ok h ∧ h ∈ st.chainHashesCache) :
    getMsgsFromChain T env st nBlocksTotal =
      ({ st with
          isScanningBlocks := false
          currentScanBlock := none
          trace := st.trace ++
            [.getbestblockhash, .getblock best, .console .log .scanningBlockRange] ++
            (heightsFrom (tip.height - nBlocksTotal) (nBlocksTotal + 1).toNat).map
              Event.getblockhash ++
            [.console .log .scanDone] }, .ok ()) := by
  unfold getMsgsFromChain
  simp only [hbest, htip]
  have hcount : (tip.height + 1 - (tip.height - nBlocksTotal)).toNat =
      (nBlocksTotal + 1).toNat := by
    congr 1; ring
  rw [hcount]
  rw [scanLoop_all_processed T env _ _ _ rfl]
  · simp
  · exact hall

/-- A completed scan has completed its loop, and its processed set is the
one the loop leaves. -/
theorem getMsgsFromChain_ok {L : Type} (T : TokensModule L) (env : Env) (st : ScanState L)
    (nBlocksTotal : Int) (best : JSString) (tip : Block)
    (hbest : env.getbestblockhash = .ok best) (htip : env.getblock best = .ok (some tip))
    (hok : (getMsgsFromChain T env st nBlocksTotal).2 = .ok ()) :
    (scanLoop T env (nBlocksTotal + 1).toNat (tip.height - nBlocksTotal)
      { st with
        isScanningBlocks := true
        currentScanBlock := none
        trace := st.trace ++ [.getbestblockhash] ++ [.getblock best] ++
          [.console .log .scanningBlockRange] }).2 = .ok () ∧
    (getMsgsFromChain T env st nBlocksTotal).1.chainHashesCache =
      (scanLoop T env (nBlocksTotal + 1).toNat (tip.height - nBlocksTotal)
        { st with
          isScanningBlocks := true
          currentScanBlock := none
          trace := st.trace ++ [.getbestblockhash] ++ [.getblock best] ++
            [.console .log .scanningBlockRange] }).1.chainHashesCache := by
  have hcount : (tip.height + 1 - (tip.height - nBlocksTotal)).toNat =
      (nBlocksTotal + 1).toNat := by
    congr 1; ring
  unfold getMsgsFromChain at hok ⊢
  simp only [hbest, htip, hcount] at hok ⊢
  split at hok
  · simp at hok
  · rename_i st4 u heq
    rw [heq]
    exact ⟨rfl, rfl⟩


/-! ## Scanning -/

/-- C8 (idempotent rescanning): at a height whose examined hash is already in
`chainHashesCache`, the scan step fetches no block and no transaction, calls
neither `processState` nor the token module and appends nothing to
`chainMessages` or `chainHashesCache` (only the lookup of the hash may be
added to the trace); hence a scan of a range whose hashes are all processed
leaves messages, processed set and token state as they were, its only node
calls being the tip lookup and one `getblockhash` per height; and this is the
case of a second scan of a range over an unchanged, consistent chain after a
completed first scan from cold start. -/
theorem idempotent_rescanning {L : Type} (T : TokensModule L) (env : Env) :
    (∀ (st : ScanState L) (i : Int) (h : JSString),
      (scanHash env st i).2 = .ok h → h ∈ st.chainHashesCache →
      scanStep T env st i = ({ st with trace := st.trace ++ (scanHash env st i).1 }, .ok ()) ∧
      ∀ e ∈ (scanHash env st i).1, e = Event.getblockhash i) ∧
    (∀ (st : ScanState L) (nBlocksTotal : Int) (best : JSString) (tip : Block),
      env.getbestblockhash = .ok best → env.getblock best = .ok (some tip) →
      (∀ j, tip.height - nBlocksTotal ≤ j → j ≤ tip.height →
        ∃ h, env.getblockhash j = .ok h ∧ h ∈ st.chainHashesCache) →
      getMsgsFromChain T env st nBlocksTotal =
        ({ st with
            isScanningBlocks := false
            currentScanBlock := none
            trace := st.trace ++
              [.getbestblockhash, .getblock best, .console .log .scanningBlockRange] ++
              (heightsFrom (tip.height - nBlocksTotal) (nBlocksTotal + 1).toNat).map
                Event.getblockhash ++
              [.console .log .scanDone] }, .ok ())) ∧
    (∀ (st : ScanState L) (nBlocksTotal : Int) (best : JSString) (tip : Block)
        (hashAt : Int → JSString) (blockAt : Int → Block),
      st.chainHashesCache = [] →
      env.getbestblockhash = .ok best → env.getblock best = .ok (some tip) →
      ConsistentRange env hashAt blockAt (tip.height - nBlocksTotal) (nBlocksTotal + 1).toNat →
      (getMsgsFromChain T env st nBlocksTotal).2 = .ok () →
      getMsgsFromChain T env (getMsgsFromChain T env st nBlocksTotal).1 nBlocksTotal =
        ({ (getMsgsFromChain T env st nBlocksTotal).1 with
            isScanningBlocks := false
            currentScanBlock := none
            trace := (getMsgsFromChain T env st nBlocksTotal).1.trace ++
              [.getbestblockhash, .getblock best, .console .log .scanningBlockRange] ++
              (heightsFrom (tip.height - nBlocksTotal) (nBlocksTotal + 1).toNat).map
                Event.getblockhash ++
              [.console .log .scanDone] }, .ok ())) := by
  refine ⟨?_, ?_, ?_⟩
  · intro st i h hh hmem
    refine ⟨scanStep_skip T env st i h hh hmem, ?_⟩
    intro e he
    rcases scanHash_events env st i with h0 | h1
    · rw [h0] at he; cases he
    · rw [h1] at he; simpa using he
  · intro st nBlocksTotal best tip hbest htip hall
    apply getMsgsFromChain_all_processed T env st nBlocksTotal best tip hbest htip
    intro j hj
    rw [mem_heightsFrom] at hj
    apply hall j hj.1
    have := hj.2
    by_cases hn : 0 ≤ nBlocksTotal + 1
    · rw [Int.toNat_of_nonneg hn] at this; omega
    · have h0 : (nBlocksTotal + 1).toNat = 0 := by
        apply Int.toNat_eq_zero.mpr; omega
      rw [h0] at this
      omega
  · intro st nBlocksTotal best tip hashAt blockAt hcold hbest htip hcons hfirst
    apply getMsgsFromChain_all_processed T env _ nBlocksTotal best tip hbest htip
    obtain ⟨hloop, hcache⟩ := getMsgsFromChain_ok T env st nBlocksTotal best tip hbest htip hfirst
    have hcaches := scanLoop_caches T env hashAt blockAt (nBlocksTotal + 1).toNat
      (tip.height - nBlocksTotal)
      { st with
        isScanningBlocks := true
        currentScanBlock := none
        trace := st.trace ++ [.getbestblockhash] ++ [.getblock best] ++
          [.console .log .scanningBlockRange] }
      hcons (Or.inl rfl) (by intro j _; simp [hcold]) hloop
    intro j hj
    refine ⟨hashAt j, (hcons.1 j hj).1, ?_⟩
    rw [hcache]
    exact hcaches.2 j hj

/-- The sample chain answers consistently over the heights 100 to 102. -/
theorem sampleChain_consistent :
    ConsistentRange sampleChain
      (fun j => if j = 100 then "b0".toList else if j = 101 then "b1".toList else "b2".toList)
      (fun j =>
        if j = 100 then
          { hash := "b0".toList, height := 100, time := 1000,
            tx := ["cb0".toList, "t1".toList], nTx := 2, nextblockhash := some "b1".toList }
        else if j = 101 then
          { hash := "b1".toList, height := 101, time := 1001, tx := ["cb1".toList], nTx := 1,
            nextblockhash := some "b2".toList }
        else sampleBlock2)
      100 3 := by
  constructor
  · intro j hj
    rw [mem_heightsFrom] at hj
    obtain ⟨h1, h2⟩ := hj
    have h2 : j < 103 := h2
    interval_cases j
    · exact ⟨rfl, rfl, rfl, Or.inr rfl⟩
    · exact ⟨rfl, rfl, rfl, Or.inr rfl⟩
    · exact ⟨rfl, rfl, rfl, Or.inl rfl⟩
  · intro j hj k hk
    rw [mem_heightsFrom] at hj hk
    obtain ⟨h1, h2⟩ := hj
    obtain ⟨h3, h4⟩ := hk
    have h2 : j < 103 := h2
    have h4 : k < 103 := h4
    interval_cases j <;> interval_cases k <;> simp

/-- Heights 100 to 102 of the sample chain are scanned from cold start (a
mint and a burn are applied), then scanned again: the second scan changes
neither the ledger nor the messages nor the processed set. -/
theorem idempotent_rescanning_witness :
    (getMsgsFromChain specTokens sampleChain (ScanState.initial sampleLedger) 2).2 = .ok () ∧
    (getMsgsFromChain specTokens sampleChain (ScanState.initial sampleLedger)
        2).1.ledger.balanceOf sampleId "sXcreator".toList = 495 ∧
    (getMsgsFromChain specTokens sampleChain
        (getMsgsFromChain specTokens sampleChain (ScanState.initial sampleLedger) 2).1 2).1.ledger =
      (getMsgsFromChain specTokens sampleChain (ScanState.initial sampleLedger) 2).1.ledger ∧
    (getMsgsFromChain specTokens sampleChain
        (getMsgsFromChain specTokens sampleChain (ScanState.initial sampleLedger) 2).1
        2).1.chainMessages =
      (getMsgsFromChain specTokens sampleChain (ScanState.initial sampleLedger)
        2).1.chainMessages ∧
    (getMsgsFromChain specTokens sampleChain
        (getMsgsFromChain specTokens sampleChain (ScanState.initial sampleLedger) 2).1
        2).1.chainHashesCache =
      (getMsgsFromChain specTokens sampleChain (ScanState.initial sampleLedger)
        2).1.chainHashesCache := by
  have hfirst : (getMsgsFromChain specTokens sampleChain (ScanState.initial sampleLedger) 2).2 =
      .ok () := by decide
  have h := (idempotent_rescanning specTokens sampleChain).2.2
    (ScanState.initial sampleLedger) 2 "b2".toList sampleBlock2 _ _ rfl rfl rfl
    sampleChain_consistent hfirst
  rw [h]
  exact ⟨hfirst, by decide, rfl, rfl, rfl⟩


theorem getMsgFromTx_failure (env : Env) (rawTX : Option JSString)
    (hfail : (∃ f, env.getrawtransaction rawTX = .error f) ∨
      env.getrawtransaction rawTX = .ok none) :
    getMsgFromTx env rawTX = Run.done [.getrawtransaction rawTX] (some fetchError) := by
  unfold getMsgFromTx
  rcases hfail with ⟨f, h⟩ | h <;> rw [h]

theorem getMsgFromTx_fetched (env : Env) (rawTX : Option JSString) (res : RawTx)
    (vout : List Vout) (h : env.getrawtransaction rawTX = .ok (some res))
    (hv : res.vout = some vout) :
    getMsgFromTx env rawTX = Run.done [.getrawtransaction rawTX] (findMessage res vout) := by
  unfold getMsgFromTx
  rw [h]
  simp only [hv]

/-- C9, as the code has it: when `getrawtransaction` fails for the
transaction at index `i` of a block (it throws or answers nothing), the
handling of the block ends there: the loop of `getMsgsFromBlock` leaves the
state as it was before that transaction, but for the recorded lookup; no
later transaction of the block is fetched or passed to `processState`. -/
theorem fetch_failure_ends_block {L : Type} (T : TokensModule L) (env : Env) (blk : Block)
    (remaining i : Nat) (st : ScanState L)
    (hfail : (∃ f, env.getrawtransaction blk.tx[i]? = .error f) ∨
      env.getrawtransaction blk.tx[i]? = .ok none) :
    (blockLoop T env blk (remaining + 1) i st).1 =
      { st with trace := st.trace ++ [.getrawtransaction blk.tx[i]?] } := by
  rw [blockLoop, getMsgFromTx_failure env _ hfail]
  rfl

/-- In block `bx` the first transaction cannot be fetched: the mint after it
is never looked at. -/
theorem fetch_failure_ends_block_witness :
    sampleChain.getrawtransaction sampleBlockX.tx[0]? = .error .rpcFault ∧
    (blockLoop specTokens sampleChain sampleBlockX 2 0 (ScanState.initial sampleLedger)).1 =
      { ScanState.initial sampleLedger with trace := [.getrawtransaction (some "u1".toList)] } :=
  ⟨by decide,
    fetch_failure_ends_block specTokens sampleChain sampleBlockX 1 0
      (ScanState.initial sampleLedger) (Or.inl ⟨.rpcFault, by decide⟩)⟩

/-- C9 as stated fails: in block `bx`, whose first transaction cannot be
fetched, `getMsgsFromBlock` ends with a TypeError, the second transaction (a
valid mint) is neither fetched nor processed; handled alone it is fetched
and credits 500. -/
theorem fetch_failure_not_isolated :
    (getMsgsFromBlock specTokens sampleChain (ScanState.initial sampleLedger)
        (some sampleBlockX)).2 = .error .typeError ∧
    Event.getrawtransaction (some "t1".toList) ∉
      (getMsgsFromBlock specTokens sampleChain (ScanState.initial sampleLedger)
        (some sampleBlockX)).1.trace ∧
    (getMsgsFromBlock specTokens sampleChain (ScanState.initial sampleLedger)
        (some sampleBlockX)).1.ledger.balanceOf sampleId "sXcreator".toList = 0 ∧
    Event.getrawtransaction (some "t1".toList) ∈
      (getMsgsFromBlock specTokens sampleChain (ScanState.initial sampleLedger)
        (some { sampleBlockX with tx := ["cb0".toList, "t1".toList] })).1.trace ∧
    (getMsgsFromBlock specTokens sampleChain (ScanState.initial sampleLedger)
        (some { sampleBlockX with tx := ["cb0".toList, "t1".toList] })).1.ledger.balanceOf
        sampleId "sXcreator".toList = 500 := by
  decide


/-- The contract-call branch either calls nothing of the token module or
returns `true`. -/
theorem processCall_calls_or_ok (env : Env) (getToken : JSString → Option Token)
    (newMsg : JSString) (tx : RawTx) :
    (processCall env getToken newMsg tx).events.filter Event.isLedgerCall = [] ∨
    (processCall env getToken newMsg tx).result = .ok true := by
  unfold processCall
  simp only
  split
  · split
    · rename_i cToken htok
      split
      · rcases processMint_calls env ((split newMsg " ".toList)[0]?.getD []) cToken
          (split newMsg " ".toList) tx with ⟨hf, -⟩ | ⟨-, -, -, hr⟩
        · exact Or.inl hf
        · exact Or.inr hr
      · split
        · rcases processBurn_calls env ((split newMsg " ".toList)[0]?.getD [])
            (split newMsg " ".toList) tx with ⟨hf, -⟩ | ⟨a, -, -, -, -, -, hr⟩
          · exact Or.inl hf
          · exact Or.inr hr
        · split
          · rcases processSend_calls env ((split newMsg " ".toList)[0]?.getD [])
              (split newMsg " ".toList) tx with ⟨hf, -⟩ | ⟨a, -, -, -, -, -, -, hr⟩
            · exact Or.inl hf
            · exact Or.inr hr
          · split
            · rcases processRedeem_calls env ((split newMsg " ".toList)[0]?.getD []) tx with
                ⟨hf, -⟩ | ⟨a, -, -, -, -, hr⟩
              · exact Or.inl hf
              · exact Or.inr hr
            · right; rfl
    · right; rfl
  · right; rfl

/-- A run of `processState` that throws has called nothing of the token
module. -/
theorem processState_error_no_call (env : Env) (getToken : JSString → Option Token)
    (newMsg : JSString) (tx : RawTx) (f : Fault)
    (h : (processState env getToken newMsg tx).result = .error f) :
    (processState env getToken newMsg tx).events.filter Event.isLedgerCall = [] := by
  rcases processState_cases env getToken newMsg tx with ⟨-, -, -, heq⟩ | ⟨-, -, heq⟩ |
    ⟨-, -, heq⟩
  · rw [heq, (processCreate_cases newMsg tx).1] at h; cases h
  · rw [heq] at h ⊢
    rcases processCall_calls_or_ok env getToken newMsg tx with hf | hr
    · exact hf
    · rw [hr] at h; cases h
  · rw [heq] at h; cases h

/-- The loop of `getMsgsFromBlock` returns `true` when every transaction of
the block can be fetched and has outputs, whatever `processState` does. -/
theorem blockLoop_returns_true {L : Type} (T : TokensModule L) (env : Env) (blk : Block)
    (remaining i : Nat) (st : ScanState L)
    (hfetch : ∀ j, i ≤ j → j < i + remaining →
      ∃ res vout, env.getrawtransaction blk.tx[j]? = .ok (some res) ∧ res.vout = some vout) :
    (blockLoop T env blk remaining i st).2 = .ok .true := by
  induction remaining generalizing i st with
  | zero => rfl
  | succ n ih =>
    obtain ⟨res, vout, hres, hvout⟩ := hfetch i (le_refl i) (by omega)
    have hrest : ∀ j, i + 1 ≤ j → j < i + 1 + n →
        ∃ res vout, env.getrawtransaction blk.tx[j]? = .ok (some res) ∧ res.vout = some vout :=
      fun j h1 h2 => hfetch j (by omega) (by omega)
    rw [blockLoop, getMsgFromTx_fetched env _ res vout hres hvout]
    simp only [Run.done]
    cases hfm : findMessage res vout with
    | none => exact ih (i + 1) _ hrest
    | some txRes =>
      obtain ⟨herr, ⟨m, hm⟩, htx⟩ := findMessage_shape res vout txRes hfm
      simp only [hm, herr, htx, Bool.false_eq_true, reduceIte]
      split
      · exact ih (i + 1) _ hrest
      · exact ih (i + 1) _ hrest

/-- C10 (message-processing fault containment): when `processState` throws
on the message of the transaction at index `i`, the loop of
`getMsgsFromBlock` catches the fault: no call into the token module was made
and the token state is unchanged, the failure is logged, the message is
recorded, and the loop goes on with index `i + 1`; and whenever every
transaction of a block can be fetched, `getMsgsFromBlock` returns `true` (or
`null` for a block of one transaction), however many of its messages make
`processState` throw. -/
theorem processState_fault_contained {L : Type} (T : TokensModule L) (env : Env) (blk : Block) :
    (∀ (remaining i : Nat) (st : ScanState L) (evs : List Event) (msg : JSString) (tx : RawTx)
        (f : Fault),
      getMsgFromTx env blk.tx[i]? =
        Run.done evs (some { error := false, msg := some msg, tx := some tx }) →
      jsLength msg ≠ 0 →
      (processState env (T.getToken st.ledger) msg tx).result = .error f →
      (∀ e ∈ (processState env (T.getToken st.ledger) msg tx).events,
        e.isLedgerCall = false) ∧
      blockLoop T env blk (remaining + 1) i st =
        blockLoop T env blk remaining (i + 1)
          { st with
            chainMessages := st.chainMessages ++
              [{ msg := msg, time := blk.time, tx := blk.tx[i]?, mempool := false }]
            trace := st.trace ++ evs ++ [.processState msg tx] ++
              (processState env (T.getToken st.ledger) msg tx).events ++
              [.console .error .processStateFailure, .console .error .dump] ++
              [.console .log .messageFound] }) ∧
    (∀ (st : ScanState L),
      (∀ j, j < blk.nTx →
        ∃ res vout, env.getrawtransaction blk.tx[j]? = .ok (some res) ∧ res.vout = some vout) →
      (getMsgsFromBlock T env st (some blk)).2 = .ok (if blk.nTx = 1 then .null else .true)) := by
  constructor
  · intro remaining i st evs msg tx f hget hne hthrow
    have hnone := processState_error_no_call env (T.getToken st.ledger) msg tx f hthrow
    refine ⟨fun e he => mem_filter_nil hnone he, ?_⟩
    rw [blockLoop, hget]
    simp only [Run.done, hne, Bool.false_eq_true, reduceIte, hthrow, applyEvents, hnone,
      List.foldl_nil]
  · intro st hfetch
    unfold getMsgsFromBlock
    simp only
    split
    · rfl
    · exact blockLoop_returns_true T env blk blk.nTx 0 _
        (fun j _ h2 => hfetch j (by omega))

set_option maxRecDepth 8000 in
/-- Block `b2` of the sample chain: the burn `t2` has a foreign input, the
burn `t3` makes `processState` throw (its transaction has no output 1) and
calls nothing, the burn `t4` after it is still applied and the block returns
`true`. -/
theorem processState_fault_contained_witness :
    (∀ e ∈ (processState sampleChain
        (specTokens.getToken { tokens := [sampleToken2], blockHeight := 102 })
        sampleBurnMsg.toList sampleTx3).events, e.isLedgerCall = false) ∧
    (getMsgsFromBlock specTokens sampleChain
        (ScanState.initial { tokens := [sampleToken2], blockHeight := 0 })
        (some sampleBlock2)).2 = .ok .true ∧
    (getMsgsFromBlock specTokens sampleChain
        (ScanState.initial { tokens := [sampleToken2], blockHeight := 0 })
        (some sampleBlock2)).1.ledger.balanceOf sampleId "sXcreator".toList = 495 :=
  ⟨((processState_fault_contained specTokens sampleChain sampleBlock2).1 1 2
      (ScanState.initial { tokens := [sampleToken2], blockHeight := 102 })
      [.getrawtransaction (some "t3".toList)] sampleBurnMsg.toList sampleTx3
      .typeError (by decide) (by decide) (by decide)).1,
    (processState_fault_contained specTokens sampleChain sampleBlock2).2
      (ScanState.initial { tokens := [sampleToken2], blockHeight := 0 })
      (by
        intro j hj
        have hj : j < 4 := hj
        interval_cases j
        · exact ⟨_, _, rfl, rfl⟩
        · exact ⟨_, _, rfl, rfl⟩
        · exact ⟨_, _, rfl, rfl⟩
        · exact ⟨_, _, rfl, rfl⟩),
    by decide⟩


/-! ## The modelled ledger -/

theorem applyEvents_nil {L : Type} (T : TokensModule L) (ledger : L) (events : List Event)
    (h : events.filter Event.isLedgerCall = []) : applyEvents T ledger events = ledger := by
  simp [applyEvents, h]

theorem applyEvents_single {L : Type} (T : TokensModule L) (ledger : L) (events : List Event)
    (e : Event) (h : events.filter Event.isLedgerCall = [e]) :
    applyEvents T ledger events = T.call ledger e := by
  simp [applyEvents, h]

theorem updateToken_of_none (ts : List Token) (id : JSString) (op : Token → Option Token)
    (h : ∀ t, ts.find? (fun t => t.contract == id) = some t → op t = none) :
    updateToken ts id op = ts := by
  induction ts with
  | nil => rfl
  | cons t rest ih =>
    unfold updateToken
    by_cases hc : t.contract = id
    · have : op t = none := h t (by simp [List.find?, hc])
      simp [hc, this]
    · simp only [hc, reduceIte]
      rw [ih]
      intro u hu
      apply h u
      have hbeq : (t.contract == id) = false := beq_eq_false_iff_ne.mpr hc
      rw [List.find?_cons, hbeq]
      exact hu

theorem updateToken_mem (ts : List Token) (id : JSString) (op : Token → Option Token)
    (P : Token → Prop) (hop : ∀ t u, t ∈ ts → op t = some u → P t → P u)
    (hall : ∀ t ∈ ts, P t) : ∀ t ∈ updateToken ts id op, P t := by
  induction ts with
  | nil => intro t ht; simp [updateToken] at ht
  | cons t rest ih =>
    intro u hu
    unfold updateToken at hu
    by_cases hc : t.contract = id
    · simp only [hc, reduceIte] at hu
      cases hop2 : op t with
      | none =>
        rw [hop2] at hu
        exact hall u hu
      | some t2 =>
        rw [hop2] at hu
        simp only [List.mem_cons] at hu
        rcases hu with rfl | hu
        · exact hop t _ (List.mem_cons_self _ _) hop2 (hall t (List.mem_cons_self _ _))
        · exact hall u (List.mem_cons_of_mem _ hu)
    · simp only [hc, reduceIte, List.mem_cons] at hu
      rcases hu with rfl | hu
      · exact hall _ (List.mem_cons_self _ _)
      · exact ih (fun a b ha => hop a b (List.mem_cons_of_mem _ ha))
          (fun a ha => hall a (List.mem_cons_of_mem _ ha)) u hu

theorem creditOwners_sum (os : List Account) (address : JSString) (n : Int) (act : Activity) :
    ((creditOwners os address n act).map Account.balance).sum =
      (os.map Account.balance).sum + n := by
  induction os with
  | nil => simp [creditOwners]
  | cons a rest ih =>
    unfold creditOwners
    split
    · simp only [List.map_cons, List.sum_cons]; ring
    · simp only [List.map_cons, List.sum_cons, ih]; ring

theorem creditOwners_unclaimed (os : List Account) (address : JSString) (n : Int)
    (act : Activity) (h : ∀ a ∈ os, a.unclaimed_balance = 0) :
    ∀ a ∈ creditOwners os address n act, a.unclaimed_balance = 0 := by
  induction os with
  | nil =>
    intro a ha
    simp only [creditOwners, List.mem_singleton] at ha
    subst ha; rfl
  | cons b rest ih =>
    intro a ha
    unfold creditOwners at ha
    split at ha
    · simp only [List.mem_cons] at ha
      rcases ha with rfl | ha
      · exact h b (List.mem_cons_self _ _)
      · exact h a (List.mem_cons_of_mem _ ha)
    · simp only [List.mem_cons] at ha
      rcases ha with rfl | ha
      · exact h _ (List.mem_cons_self _ _)
      · exact ih (fun x hx => h x (List.mem_cons_of_mem _ hx)) a ha

theorem debitOwners_some (os os2 : List Account) (address : JSString) (n : Int)
    (act : Activity) (h : debitOwners os address n act = some os2) :
    (os2.map Account.balance).sum = (os.map Account.balance).sum - n ∧
    ((∀ a ∈ os, a.unclaimed_balance = 0) → ∀ a ∈ os2, a.unclaimed_balance = 0) ∧
    ∃ a, os.find? (fun a => a.address == address) = some a ∧ n ≤ a.balance := by
  induction os generalizing os2 with
  | nil => simp [debitOwners] at h
  | cons b rest ih =>
    unfold debitOwners at h
    by_cases hb : b.address = address
    · simp only [hb, reduceIte] at h
      by_cases hlt : b.balance < n
      · simp [hlt] at h
      · simp only [hlt, reduceIte, Option.some.injEq] at h
        subst h
        refine ⟨by simp only [List.map_cons, List.sum_cons]; ring, ?_, b, by simp [List.find?, hb],
          by omega⟩
        intro hz a ha
        simp only [List.mem_cons] at ha
        rcases ha with rfl | ha
        · exact hz b (List.mem_cons_self _ _)
        · exact hz a (List.mem_cons_of_mem _ ha)
    · simp only [hb, reduceIte, Option.map_eq_some'] at h
      obtain ⟨os3, h3, rfl⟩ := h
      obtain ⟨hs, hu, a, ha, hn⟩ := ih os3 h3
      refine ⟨by simp only [List.map_cons, List.sum_cons, hs]; ring, ?_, a, ?_, hn⟩
      · intro hz x hx
        simp only [List.mem_cons] at hx
        rcases hx with rfl | hx
        · exact hz _ (List.mem_cons_self _ _)
        · exact hu (fun y hy => hz y (List.mem_cons_of_mem _ hy)) x hx
      · have hbeq : (b.address == address) = false := beq_eq_false_iff_ne.mpr hb
        rw [List.find?_cons, hbeq]
        exact ha

theorem redeemOwners_some (os os2 : List Account) (address : JSString) (height : Int)
    (txid : JSString) (h : redeemOwners os address height txid = some os2)
    (hz : ∀ a ∈ os, a.unclaimed_balance = 0) :
    (os2.map Account.balance).sum = (os.map Account.balance).sum ∧
    ∀ a ∈ os2, a.unclaimed_balance = 0 := by
  induction os generalizing os2 with
  | nil => simp [redeemOwners] at h
  | cons b rest ih =>
    unfold redeemOwners at h
    by_cases hb : b.address = address
    · simp only [hb, reduceIte, Option.some.injEq] at h
      subst h
      have hb0 := hz b (List.mem_cons_self _ _)
      refine ⟨by simp [hb0], ?_⟩
      intro a ha
      simp only [List.mem_cons] at ha
      rcases ha with rfl | ha
      · rfl
      · exact hz a (List.mem_cons_of_mem _ ha)
    · simp only [hb, reduceIte, Option.map_eq_some'] at h
      obtain ⟨os3, h3, rfl⟩ := h
      obtain ⟨hs, hu⟩ := ih os3 h3 (fun y hy => hz y (List.mem_cons_of_mem _ hy))
      refine ⟨by simp only [List.map_cons, List.sum_cons, hs], ?_⟩
      intro x hx
      simp only [List.mem_cons] at hx
      rcases hx with rfl | hx
      · exact hz _ (List.mem_cons_self _ _)
      · exact hu x hx

theorem toInt_pos_of_isPositiveSafeInteger (a : JSNumber) (n : Int)
    (h : isPositiveSafeInteger a = true) (hn : a.toInt? = some n) : 0 < n := by
  unfold isPositiveSafeInteger at h
  simp only [Bool.and_eq_true] at h
  cases a with
  | NaN => simp [JSNumber.toInt?] at hn
  | Infinity b => simp [JSNumber.toInt?] at hn
  | fin num k =>
    simp only [JSNumber.gt, zero_mul, decide_eq_true_eq] at h
    simp only [JSNumber.toInt?] at hn
    split at hn
    · rename_i hmod
      simp only [Option.some.injEq] at hn
      subst hn
      have hpos : (0 : Int) < 2 ^ k := by positivity
      have hdvd : (2 : Int) ^ k ∣ num := Int.dvd_of_emod_eq_zero hmod
      obtain ⟨c, rfl⟩ := hdvd
      rw [Int.mul_ediv_cancel_left _ (ne_of_gt hpos)]
      by_contra hc
      have : c ≤ 0 := by omega
      have := mul_nonpos_of_nonneg_of_nonpos (le_of_lt hpos) this
      omega
    · cases hn

theorem toInt_of_isPositiveSafeInteger (a : JSNumber) (h : isPositiveSafeInteger a = true) :
    ∃ n, a.toInt? = some n ∧ 0 < n := by
  have h2 := h
  unfold isPositiveSafeInteger at h2
  simp only [Bool.and_eq_true, JSNumber.isSafeInteger] at h2
  cases hn : a.toInt? with
  | none => rw [hn] at h2; simp at h2
  | some n => exact ⟨n, rfl, toInt_pos_of_isPositiveSafeInteger a n h hn⟩


theorem Token.creditAccount_preserves (t u : Token) (height : Int) (address : JSString)
    (n : Int) (txid : JSString) (h : t.creditAccount height address n txid = some u)
    (hok : t.SupplyOk ∧ t.NoUnclaimed) : u.SupplyOk ∧ u.NoUnclaimed := by
  unfold Token.creditAccount at h
  cases hm : t.maxSupply.toInt? with
  | none => rw [hm] at h; cases h
  | some maxSupply =>
    rw [hm] at h
    simp only at h
    split at h
    · cases h
    · rename_i hle
      simp only [Option.some.injEq] at h
      subst h
      refine ⟨⟨maxSupply, hm, ?_⟩, ?_⟩
      · simp only [Token.supply, creditOwners_sum]
        simp only [Token.supply] at hle
        omega
      · exact creditOwners_unclaimed _ _ _ _ hok.2

theorem Token.debitAccount_preserves (t u : Token) (height : Int) (address : JSString)
    (n : Int) (txid : JSString) (hn : 0 < n)
    (h : t.debitAccount height address n txid = some u)
    (hok : t.SupplyOk ∧ t.NoUnclaimed) : u.SupplyOk ∧ u.NoUnclaimed := by
  unfold Token.debitAccount at h
  simp only [Option.map_eq_some'] at h
  obtain ⟨os, hos, rfl⟩ := h
  obtain ⟨hs, hu, -⟩ := debitOwners_some _ _ _ _ _ hos
  obtain ⟨⟨maxSupply, hm, hle⟩, hz⟩ := hok
  refine ⟨⟨maxSupply, hm, ?_⟩, hu hz⟩
  simp only [Token.supply] at hle ⊢
  omega

theorem Token.transfer_preserves (t u : Token) (height : Int) (sender receiver : JSString)
    (n : Int) (txid : JSString) (h : t.transfer height sender receiver n txid = some u)
    (hok : t.SupplyOk ∧ t.NoUnclaimed) : u.SupplyOk ∧ u.NoUnclaimed := by
  unfold Token.transfer at h
  simp only [Option.map_eq_some'] at h
  obtain ⟨os, hos, rfl⟩ := h
  obtain ⟨hs, hu, -⟩ := debitOwners_some _ _ _ _ _ hos
  obtain ⟨⟨maxSupply, hm, hle⟩, hz⟩ := hok
  refine ⟨⟨maxSupply, hm, ?_⟩, creditOwners_unclaimed _ _ _ _ (hu hz)⟩
  simp only [Token.supply, creditOwners_sum] at hle ⊢
  omega

theorem Token.redeemRewards_preserves (t u : Token) (height : Int) (address : JSString)
    (txid : JSString) (h : t.redeemRewards height address txid = some u)
    (hok : t.SupplyOk ∧ t.NoUnclaimed) : u.SupplyOk ∧ u.NoUnclaimed := by
  unfold Token.redeemRewards at h
  split at h
  · simp only [Option.map_eq_some'] at h
    obtain ⟨os, hos, rfl⟩ := h
    obtain ⟨⟨maxSupply, hm, hle⟩, hz⟩ := hok
    obtain ⟨hs, hu⟩ := redeemOwners_some _ _ _ _ _ hos hz
    refine ⟨⟨maxSupply, hm, ?_⟩, hu⟩
    simp only [Token.supply] at hle ⊢
    omega
  · cases h

/-- Every call `processState` can make keeps the supply invariant of the
modelled ledger, as long as no account holds an unclaimed balance. -/
theorem Ledger.call_preserves (l : Ledger) (e : Event) (hwf : WfCall e)
    (hok : ∀ t ∈ l.tokens, t.SupplyOk ∧ t.NoUnclaimed) :
    ∀ t ∈ (l.call e).tokens, t.SupplyOk ∧ t.NoUnclaimed := by
  cases e with
  | addToken t =>
    simp only [Ledger.call]
    split
    · exact hok
    · intro u hu
      simp only [List.mem_append, List.mem_singleton] at hu
      rcases hu with hu | rfl
      · exact hok u hu
      · obtain ⟨ho, hm⟩ := hwf
        obtain ⟨n, hn, hpos⟩ := toInt_of_isPositiveSafeInteger _ hm
        refine ⟨⟨n, hn, ?_⟩, ?_⟩
        · simp only [Token.supply, ho, List.map_nil, List.sum_nil]; omega
        · intro a ha; rw [ho] at ha; cases ha
  | creditAccount id address amount tx =>
    simp only [Ledger.call]
    split
    · exact updateToken_mem _ _ _ _
        (fun t u _ h hp => Token.creditAccount_preserves t u _ _ _ _ h hp) hok
    · exact hok
  | debitAccount id address amount tx =>
    simp only [Ledger.call]
    split
    · rename_i n hn
      have hpos := toInt_pos_of_isPositiveSafeInteger amount n hwf hn
      exact updateToken_mem _ _ _ _
        (fun t u _ h hp => Token.debitAccount_preserves t u _ _ _ _ hpos h hp) hok
    · exact hok
  | transfer id sender receiver amount tx =>
    simp only [Ledger.call]
    split
    · exact updateToken_mem _ _ _ _
        (fun t u _ h hp => Token.transfer_preserves t u _ _ _ _ _ h hp) hok
    · exact hok
  | redeemRewards id address tx =>
    simp only [Ledger.call]
    exact updateToken_mem _ _ _ _
      (fun t u _ h hp => Token.redeemRewards_preserves t u _ _ _ h hp) hok
  | setBlockHeight height => exact hok
  | getbestblockhash => exact hok
  | getblock _ => exact hok
  | getblockhash _ => exact hok
  | getblockcount => exact hok
  | getrawtransaction _ => exact hok
  | validateaddress _ => exact hok
  | processState _ _ => exact hok
  | console _ _ => exact hok

/-- The contract-call branch makes at most one call into the token module,
and then with a positive safe-integer amount. -/
theorem processCall_calls_wf (env : Env) (getToken : JSString → Option Token)
    (newMsg : JSString) (tx : RawTx) :
    (processCall env getToken newMsg tx).events.filter Event.isLedgerCall = [] ∨
    ∃ e, (processCall env getToken newMsg tx).events.filter Event.isLedgerCall = [e] ∧
      WfCall e := by
  unfold processCall
  simp only
  split
  · split
    · rename_i cToken htok
      split
      · rcases processMint_calls env ((split newMsg " ".toList)[0]?.getD []) cToken
          (split newMsg " ".toList) tx with ⟨hf, -⟩ | ⟨hm, -, hf, -⟩
        · exact Or.inl hf
        · exact Or.inr ⟨_, hf, hm.1⟩
      · split
        · rcases processBurn_calls env ((split newMsg " ".toList)[0]?.getD [])
            (split newMsg " ".toList) tx with ⟨hf, -⟩ | ⟨a, hp, -, -, -, hf, -⟩
          · exact Or.inl hf
          · exact Or.inr ⟨_, hf, hp⟩
        · split
          · rcases processSend_calls env ((split newMsg " ".toList)[0]?.getD [])
              (split newMsg " ".toList) tx with ⟨hf, -⟩ | ⟨a, hp, -, -, -, -, hf, -⟩
            · exact Or.inl hf
            · exact Or.inr ⟨_, hf, hp⟩
          · split
            · rcases processRedeem_calls env ((split newMsg " ".toList)[0]?.getD []) tx with
                ⟨hf, -⟩ | ⟨a, -, -, -, hf, -⟩
              · exact Or.inl hf
              · exact Or.inr ⟨_, hf, trivial⟩
            · left; rfl
    · left; rfl
  · left; rfl

theorem createdToken_wf (arrParams : List JSString) (txid addrCreator : JSString)
    (h : createParamChecks arrParams = true) :
    WfCall (.addToken (createdToken arrParams txid addrCreator)) := by
  unfold createParamChecks at h
  simp only [Bool.and_eq_true] at h
  have h3 : isPositiveSafeInteger (Number arrParams[3]?) = true := by
    simp only [isPositiveSafeInteger, Bool.and_eq_true]; exact h.1.2
  unfold createdToken
  split
  · exact ⟨rfl, h3⟩
  · exact ⟨rfl, h3⟩

/-- The run of `processState` makes at most one call into the token module, and a
well-formed one. -/
theorem processState_calls_wf (env : Env) (getToken : JSString → Option Token)
    (newMsg : JSString) (tx : RawTx) :
    (processState env getToken newMsg tx).events.filter Event.isLedgerCall = [] ∨
    ∃ e, (processState env getToken newMsg tx).events.filter Event.isLedgerCall = [e] ∧
      WfCall e := by
  rcases processState_cases env getToken newMsg tx with ⟨-, -, -, heq⟩ | ⟨-, -, heq⟩ |
    ⟨-, -, heq⟩
  · rw [heq]
    rcases (processCreate_cases newMsg tx).2 with ⟨a, -, hchk, -, -, hev⟩ | ⟨-, hno⟩
    · right
      refine ⟨_, ?_, createdToken_wf (split newMsg " ".toList) tx.txid a hchk⟩
      rw [hev]
      simp [Event.isLedgerCall, Event.isBalanceCall]
    · left
      rw [List.filter_eq_nil_iff]
      intro e he
      simp [hno e he]
  · rw [heq]
    exact processCall_calls_wf env getToken newMsg tx
  · left
    rw [heq]
    rfl

/-- Processing a message keeps the supply invariant of the modelled ledger,
as long as no account holds an unclaimed balance. -/
theorem processMessage_preserves (env : Env) (l : Ledger) (newMsg : JSString) (tx : RawTx)
    (hok : ∀ t ∈ l.tokens, t.SupplyOk ∧ t.NoUnclaimed) :
    ∀ t ∈ (processMessage specTokens env l newMsg tx).tokens, t.SupplyOk ∧ t.NoUnclaimed := by
  unfold processMessage
  rcases processState_calls_wf env (specTokens.getToken l) newMsg tx with hf | ⟨e, hf, hwf⟩
  · rw [applyEvents_nil _ _ _ hf]; exact hok
  · rw [applyEvents_single _ _ _ e hf]
    exact Ledger.call_preserves l e hwf hok

theorem processMessages_preserves (steps : List (Env × JSString × RawTx)) (l : Ledger)
    (hok : ∀ t ∈ l.tokens, t.SupplyOk ∧ t.NoUnclaimed) :
    ∀ t ∈ (processMessages specTokens l steps).tokens, t.SupplyOk ∧ t.NoUnclaimed := by
  induction steps generalizing l with
  | nil => exact hok
  | cons s rest ih =>
    obtain ⟨env, newMsg, tx⟩ := s
    exact ih _ (processMessage_preserves env l newMsg tx hok)


/-! ## Balances -/

theorem Ledger.with_tokens_self (l : Ledger) : { l with tokens := l.tokens } = l := by
  cases l; rfl

theorem Ledger.call_debit_insufficient (l : Ledger) (id address : JSString) (amount : JSNumber)
    (tx : RawTx) (n : Int) (hn : amount.toInt? = some n) (hbal : l.balanceOf id address < n) :
    l.call (.debitAccount id address amount tx) = l := by
  simp only [Ledger.call, hn]
  rw [updateToken_of_none, Ledger.with_tokens_self]
  intro t ht
  cases hd : t.debitAccount l.blockHeight address n tx.txid with
  | none => rfl
  | some u =>
    exfalso
    unfold Token.debitAccount at hd
    simp only [Option.map_eq_some'] at hd
    obtain ⟨os, hos, -⟩ := hd
    obtain ⟨-, -, a, ha, hle⟩ := debitOwners_some _ _ _ _ _ hos
    simp only [Ledger.balanceOf, Ledger.getToken, ht, Token.getAccount, ha] at hbal
    omega

theorem Ledger.call_transfer_insufficient (l : Ledger) (id sender : JSString)
    (receiver : Option JSString) (amount : JSNumber) (tx : RawTx) (n : Int)
    (hn : amount.toInt? = some n) (hbal : l.balanceOf id sender < n) :
    l.call (.transfer id sender receiver amount tx) = l := by
  cases receiver with
  | none => simp only [Ledger.call, hn]
  | some r =>
    simp only [Ledger.call, hn]
    rw [updateToken_of_none, Ledger.with_tokens_self]
    intro t ht
    cases hd : t.transfer l.blockHeight sender r n tx.txid with
    | none => rfl
    | some u =>
      exfalso
      unfold Token.transfer at hd
      simp only [Option.map_eq_some'] at hd
      obtain ⟨os, hos, -⟩ := hd
      obtain ⟨-, -, a, ha, hle⟩ := debitOwners_some _ _ _ _ _ hos
      simp only [Ledger.balanceOf, Ledger.getToken, ht, Token.getAccount, ha] at hbal
      omega

theorem Ledger.call_credit_exceeding (l : Ledger) (id address : JSString) (amount : JSNumber)
    (tx : RawTx) (cToken : Token) (n maxSupply : Int) (hn : amount.toInt? = some n)
    (htok : l.getToken id = some cToken) (hmax : cToken.maxSupply.toInt? = some maxSupply)
    (hexceed : maxSupply < cToken.supply + n) :
    l.call (.creditAccount id address amount tx) = l := by
  simp only [Ledger.call, hn]
  rw [updateToken_of_none, Ledger.with_tokens_self]
  intro t ht
  have : t = cToken := by
    unfold Ledger.getToken at htok
    rw [ht] at htok
    exact Option.some.inj htok
  subst this
  unfold Token.creditAccount
  simp [hmax, hexceed]

/-- The contract-call branch on a message whose method field is `method`,
for a known token. -/
theorem processCall_dispatch (env : Env) (getToken : JSString → Option Token)
    (id method : JSString) (args : List JSString) (tx : RawTx)
    (hid : IsTxid id) (hmethod : ' ' ∉ method) (hlen : 1 < jsLength method)
    (hargs : ∀ f ∈ args, ' ' ∉ f) :
    processState env getToken (joinFields (id :: method :: args)) tx =
      match getToken id with
      | some cToken =>
        if method = "mint".toList then processMint env id cToken (id :: method :: args) tx
        else if method = "burn".toList then processBurn env id (id :: method :: args) tx
        else if method = "send".toList then processSend env id (id :: method :: args) tx
        else if cToken.version = 2 ∧ method = "redeem".toList then processRedeem env id tx
        else Run.done [] true
      | none => Run.done [.console .error .nonExistantContract, .console .error .dump] true := by
  obtain ⟨hsplit, heq, h64, hnil⟩ := processState_call env getToken id method args tx hid hmethod
    hlen hargs
  rw [heq]
  unfold processCall
  rw [hsplit]
  have hlen2 : fieldLength (some method) > 1 := hlen
  simp only [List.getElem?_cons_zero, List.getElem?_cons_succ, h64, hnil, Option.getD_some,
    hlen2, decide_True, Bool.not_false, Bool.and_self, reduceIte, Option.some.injEq]

/-- C7 (balance non-negativity), on the ledger modelled from the
specification: a burn or a send of an amount greater than the current balance
of the caller (the address claimed in output 1) leaves the whole ledger as it
was: no balance changes and no activity is recorded, for any account. -/
theorem insufficient_balance_rejected (env : Env) (l : Ledger)
    (id amount receiver : JSString) (tx : RawTx) (n : Int)
    (hid : IsTxid id) (hamount : ' ' ∉ amount) (hreceiver : ' ' ∉ receiver)
    (hn : (Number (some amount)).toInt? = some n)
    (hbal : ∀ caller, claimedAddress tx = some caller → l.balanceOf id caller < n) :
    processMessage specTokens env l (joinFields [id, "burn".toList, amount]) tx = l ∧
    processMessage specTokens env l (joinFields [id, "send".toList, amount, receiver]) tx = l := by
  constructor
  · unfold processMessage
    rw [processCall_dispatch env _ id "burn".toList [amount] tx hid (by decide) (by decide)
      (by simpa using hamount)]
    cases specTokens.getToken l id with
    | none => rfl
    | some cToken =>
      simp only [(by decide : ¬ ("burn".toList = "mint".toList)), reduceIte]
      rcases processBurn_calls env id [id, "burn".toList, amount] tx with
        ⟨hf, -⟩ | ⟨a, -, hca, -, -, hf, -⟩
      · exact applyEvents_nil _ _ _ hf
      · rw [applyEvents_single _ _ _ _ hf]
        exact Ledger.call_debit_insufficient l id a _ tx n hn (hbal a hca)
  · unfold processMessage
    rw [processCall_dispatch env _ id "send".toList [amount, receiver] tx hid (by decide)
      (by decide) (by
        intro f hf
        simp only [List.mem_cons, List.mem_singleton, List.not_mem_nil, or_false] at hf
        rcases hf with rfl | rfl
        · exact hamount
        · exact hreceiver)]
    cases specTokens.getToken l id with
    | none => rfl
    | some cToken =>
      simp only [(by decide : ¬ ("send".toList = "mint".toList)),
        (by decide : ¬ ("send".toList = "burn".toList)), reduceIte]
      rcases processSend_calls env id [id, "send".toList, amount, receiver] tx with
        ⟨hf, -⟩ | ⟨a, -, -, hca, -, -, hf, -⟩
      · exact applyEvents_nil _ _ _ hf
      · rw [applyEvents_single _ _ _ _ hf]
        exact Ledger.call_transfer_insufficient l id a _ _ tx n hn (hbal a hca)

/-- The fourth example scenario of the specification: a send of 100 by a
caller whose balance is 50 changes nothing. -/
theorem insufficient_balance_rejected_witness :
    (sampleFunded 50).balanceOf sampleId "sXcreator".toList = 50 ∧
    processMessage specTokens sampleEnv (sampleFunded 50)
      (joinFields [sampleId, "send".toList, "100".toList, "sYreceiver".toList])
      (sampleCallTx ["p0"]) = sampleFunded 50 :=
  ⟨by decide,
    (insufficient_balance_rejected sampleEnv (sampleFunded 50) sampleId "100".toList
      "sYreceiver".toList (sampleCallTx ["p0"]) 100 ⟨by decide, by decide⟩ (by decide)
      (by decide) (by decide) (by
        intro caller hc
        have : caller = "sXcreator".toList := by
          have h : claimedAddress (sampleCallTx ["p0"]) = some "sXcreator".toList := by decide
          rw [h] at hc
          exact (Option.some.inj hc).symm
        subst this
        decide)).2⟩

/-- C6 (supply conservation at mint), on the ledger modelled from the
specification: a mint that would take the total of the balances of the token
above its maximum supply leaves the ledger as it was; a ledger in which every
token respects its maximum supply and no account holds an unclaimed balance
stays so under any sequence of processed messages; in particular, from the
empty ledger of process start, after any sequence of processed messages the
total of the balances of every token is at most its maximum supply. -/
theorem supply_conservation :
    (∀ (env : Env) (l : Ledger) (id amount : JSString) (tx : RawTx) (cToken : Token)
        (n maxSupply : Int),
      IsTxid id → ' ' ∉ amount → l.getToken id = some cToken →
      (Number (some amount)).toInt? = some n → cToken.maxSupply.toInt? = some maxSupply →
      maxSupply < cToken.supply + n →
      processMessage specTokens env l (joinFields [id, "mint".toList, amount]) tx = l) ∧
    (∀ (l : Ledger) (steps : List (Env × JSString × RawTx)),
      (∀ t ∈ l.tokens, t.SupplyOk ∧ t.NoUnclaimed) →
      ∀ t ∈ (processMessages specTokens l steps).tokens, t.SupplyOk ∧ t.NoUnclaimed) ∧
    (∀ (steps : List (Env × JSString × RawTx)),
      ∀ t ∈ (processMessages specTokens Ledger.empty steps).tokens,
        ∃ maxSupply, t.maxSupply.toInt? = some maxSupply ∧ t.supply ≤ maxSupply) := by
  refine ⟨?_, ?_, ?_⟩
  · intro env l id amount tx cToken n maxSupply hid hamount htok hn hmax hexceed
    unfold processMessage
    rw [processCall_dispatch env _ id "mint".toList [amount] tx hid (by decide) (by decide)
      (by simpa using hamount)]
    have htok2 : specTokens.getToken l id = some cToken := htok
    rw [htok2]
    simp only [reduceIte]
    rcases processMint_calls env id cToken [id, "mint".toList, amount] tx with
      ⟨hf, -⟩ | ⟨-, -, hf, -⟩
    · exact applyEvents_nil _ _ _ hf
    · rw [applyEvents_single _ _ _ _ hf]
      exact Ledger.call_credit_exceeding l id _ _ tx cToken n maxSupply hn htok hmax hexceed
  · intro l steps hok
    exact processMessages_preserves steps l hok
  · intro steps t ht
    exact (processMessages_preserves steps Ledger.empty
      (fun u hu => by simp [Ledger.empty] at hu) t ht).1

/-- With 999600 of 1000000 minted, a mint of 500 is not applied; and from
process start, after a create with maximum supply 700, a mint of 500 and a
second mint of 500, the creator holds 500 and the token respects its maximum
supply. -/
theorem supply_conservation_witness :
    processMessage specTokens sampleEnv (sampleFunded 999600)
      (joinFields [sampleId, "mint".toList, "500".toList]) (sampleCallTx ["p0"]) =
      sampleFunded 999600 ∧
    (processMessages specTokens Ledger.empty
        [(sampleEnv, "SCPCREATE MyToken MTK 700".toList, sampleCreateTx 10),
         (sampleEnv, joinFields [sampleTxid, "mint".toList, "500".toList], sampleCallTx ["p0"]),
         (sampleEnv, joinFields [sampleTxid, "mint".toList, "500".toList],
           sampleCallTx ["p0"])]).balanceOf sampleTxid "sXcreator".toList = 500 ∧
    ∀ t ∈ (processMessages specTokens Ledger.empty
        [(sampleEnv, "SCPCREATE MyToken MTK 700".toList, sampleCreateTx 10),
         (sampleEnv, joinFields [sampleTxid, "mint".toList, "500".toList], sampleCallTx ["p0"]),
         (sampleEnv, joinFields [sampleTxid, "mint".toList, "500".toList],
           sampleCallTx ["p0"])]).tokens,
      ∃ maxSupply, t.maxSupply.toInt? = some maxSupply ∧ t.supply ≤ maxSupply :=
  ⟨supply_conservation.1 sampleEnv (sampleFunded 999600) sampleId "500".toList
      (sampleCallTx ["p0"])
      { sampleToken with
        owners := [{ address := "sXcreator".toList, balance := 999600, unclaimed_balance := 0,
                     activity := [] }] }
      500 1000000 ⟨by decide, by decide⟩ (by decide) (by decide) (by decide) (by decide)
      (by decide),
    by decide,
    supply_conservation.2.2 _⟩

/-! ## More on strings -/

theorem startsWith_single (d c : Char) (cs : JSString) :
    startsWith (c :: cs) [d] = (c == d) := by
  cases cs <;> simp [startsWith]

theorem splitGo_single_field (d : Char) (f : JSString) (hf : d ∉ f) (acc : JSString) :
    splitGo [d] f 0 acc = [acc.reverse ++ f] := by
  induction f generalizing acc with
  | nil => simp [splitGo]
  | cons c cs ih =>
    have hc : (c == d) = false := by
      simp only [List.mem_cons, not_or] at hf
      simpa using fun h => hf.1 h.symm
    have hcs : d ∉ cs := fun h => hf (List.mem_cons_of_mem _ h)
    rw [splitGo, startsWith_single, hc]
    simp [ih hcs]

theorem splitGo_single_cons (d : Char) (f rest : JSString) (hf : d ∉ f) (acc : JSString) :
    splitGo [d] (f ++ d :: rest) 0 acc = (acc.reverse ++ f) :: splitGo [d] rest 0 [] := by
  induction f generalizing acc with
  | nil =>
    simp only [List.nil_append, List.append_nil]
    rw [splitGo, startsWith_single]
    simp
  | cons c cs ih =>
    have hc : (c == d) = false := by
      simp only [List.mem_cons, not_or] at hf
      simpa using fun h => hf.1 h.symm
    have hcs : d ∉ cs := fun h => hf (List.mem_cons_of_mem _ h)
    rw [List.cons_append, splitGo, startsWith_single, hc]
    simp [ih hcs]

theorem startsWith_append (p rest : JSString) : startsWith (p ++ rest) p = true := by
  induction p with
  | nil => cases rest <;> rfl
  | cons c cs ih => simp [startsWith, ih]

/-- A string in which the separator does not occur is a single field. -/
theorem splitGo_no_occurrence (sep s : JSString) (h : occursIn sep s = false) (acc : JSString) :
    splitGo sep s 0 acc = [acc.reverse ++ s] := by
  induction s generalizing acc with
  | nil => simp [splitGo]
  | cons c cs ih =>
    simp only [occursIn, Bool.or_eq_false_iff] at h
    rw [splitGo, h.1]
    simp [ih h.2]

/-- The keyword followed by a suffix without the keyword splits, at the
keyword, into the empty string and the suffix. -/
theorem split_keyword_suffix (suffix : JSString)
    (h : occursIn "SCPCREATE".toList suffix = false) :
    split ("SCPCREATE".toList ++ suffix) "SCPCREATE".toList = [[], suffix] := by
  show splitGo "SCPCREATE".toList ('S' :: 'C' :: 'P' :: 'C' :: 'R' :: 'E' :: 'A' :: 'T' :: 'E' ::
    suffix) 0 [] = [[], suffix]
  have hs : startsWith ('S' :: 'C' :: 'P' :: 'C' :: 'R' :: 'E' :: 'A' :: 'T' :: 'E' :: suffix)
      "SCPCREATE".toList = true := startsWith_append "SCPCREATE".toList suffix
  rw [splitGo, hs]
  simp only [reduceIte, List.reverse_nil]
  show [] :: splitGo "SCPCREATE".toList ('C' :: 'P' :: 'C' :: 'R' :: 'E' :: 'A' :: 'T' :: 'E' ::
    suffix) 8 [] = [[], suffix]
  simp only [splitGo]
  rw [splitGo_no_occurrence _ suffix h]
  rfl

/-- The first field of a message is a leading part of the message. -/
theorem splitGo_head_leading (sep s : JSString) (acc f : JSString)
    (h : (splitGo sep s 0 acc)[0]? = some f) :
    ∃ pre rest, f = acc.reverse ++ pre ∧ s = pre ++ rest := by
  induction s generalizing acc with
  | nil =>
    simp only [splitGo, List.getElem?_cons_zero, Option.some.injEq] at h
    exact ⟨[], [], by simp [h], rfl⟩
  | cons c cs ih =>
    rw [splitGo] at h
    split at h
    · simp only [List.getElem?_cons_zero, Option.some.injEq] at h
      exact ⟨[], c :: cs, by simp [h], rfl⟩
    · obtain ⟨pre, rest, h1, h2⟩ := ih _ h
      exact ⟨c :: pre, rest, by simp [h1], by simp [h2]⟩

theorem startsWith_of_first_field (newMsg sep p suffix : JSString)
    (h : (split newMsg sep)[0]? = some (p ++ suffix)) : startsWith newMsg p = true := by
  obtain ⟨pre, rest, h1, h2⟩ := splitGo_head_leading sep newMsg [] _ h
  simp only [List.reverse_nil, List.nil_append] at h1
  rw [h2, ← h1, List.append_assoc]
  exact startsWith_append p _

/-! ## CREATE: faults, version and arity -/

/-- The CREATE branch returns `true` after one of five event sequences: the
registration, or one of the four logged rejections. -/
theorem processCreate_outcome (newMsg : JSString) (tx : RawTx) :
    (processCreate newMsg tx).result = .ok true ∧
    ((∃ t, (processCreate newMsg tx).events =
        [.addToken t, .console .log .tokenCreated, .console .log .dump]) ∨
     (processCreate newMsg tx).events = [.console .warn .createIncorrectParamCount] ∨
     (processCreate newMsg tx).events = [.console .warn .createIncorrectParams] ∨
     (processCreate newMsg tx).events =
        [.console .warn .createFailedToVerifyOutputs, .console .error .dump] ∨
     (processCreate newMsg tx).events = [.console .warn .createInvalidFeeOutput]) := by
  rw [processCreate_unfold]
  by_cases hlen : (split newMsg " ".toList).length =
      (if createVersion (split newMsg " ".toList) = 2 then 6 else 4)
  · rw [if_pos hlen]
    by_cases hchk : createParamChecks (split newMsg " ".toList) = true
    · rw [if_pos hchk]
      cases creatorAddress tx with
      | error f => exact ⟨rfl, Or.inr (Or.inr (Or.inr (Or.inl rfl)))⟩
      | ok addrCreator =>
        cases feeOutputOk tx with
        | error f => exact ⟨rfl, Or.inr (Or.inr (Or.inr (Or.inl rfl)))⟩
        | ok b =>
          cases b with
          | true => exact ⟨rfl, Or.inl ⟨_, rfl⟩⟩
          | false => exact ⟨rfl, Or.inr (Or.inr (Or.inr (Or.inr rfl)))⟩
    · rw [if_neg hchk]
      exact ⟨rfl, Or.inr (Or.inr (Or.inl rfl))⟩
  · rw [if_neg hlen]
    exact ⟨rfl, Or.inr (Or.inl rfl)⟩

/-- A message that starts with `SCPCREATE`, with a transaction that has a
txid, is handled by the CREATE branch. -/
theorem processState_create (env : Env) (getToken : JSString → Option Token)
    (newMsg : JSString) (tx : RawTx)
    (hs : startsWith newMsg "SCPCREATE".toList = true) (htx : tx.txid ≠ []) :
    processState env getToken newMsg tx = processCreate newMsg tx := by
  rcases processState_cases env getToken newMsg tx with ⟨-, -, -, heq⟩ | ⟨hno, -, -⟩ |
    ⟨hno, -, -⟩
  · exact heq
  · exact absurd ⟨hs, htx⟩ hno
  · refine absurd ⟨hs, htx, ?_⟩ hno
    intro h
    subst h
    cases hs

/-- C11 (CREATE never throws): for every message that starts with `SCPCREATE`
and every transaction with a non-empty txid, whatever its inputs and outputs
are, `processState` returns `true` (it does not throw), and what it did is
either the registration of a token or exactly one of the four logged
rejections (wrong field count, failed parameter checks, outputs that cannot be
read, wrong fee output), none of which calls the token module. -/
theorem create_never_throws (env : Env) (getToken : JSString → Option Token)
    (newMsg : JSString) (tx : RawTx)
    (hs : startsWith newMsg "SCPCREATE".toList = true) (htx : tx.txid ≠ []) :
    (processState env getToken newMsg tx).result = .ok true ∧
    ((∃ t, (processState env getToken newMsg tx).events =
        [.addToken t, .console .log .tokenCreated, .console .log .dump]) ∨
     (processState env getToken newMsg tx).events =
        [.console .warn .createIncorrectParamCount] ∨
     (processState env getToken newMsg tx).events = [.console .warn .createIncorrectParams] ∨
     (processState env getToken newMsg tx).events =
        [.console .warn .createFailedToVerifyOutputs, .console .error .dump] ∨
     (processState env getToken newMsg tx).events = [.console .warn .createInvalidFeeOutput]) := by
  rw [processState_create env getToken newMsg tx hs htx]
  exact processCreate_outcome newMsg tx

/-- A well-formed CREATE message on transactions whose outputs are missing,
empty, a single output, or outputs without `scriptPubKey` or without
`addresses`: each is rejected with a log line, none throws. -/
theorem create_never_throws_witness :
    (processState sampleEnv (sampleLookup sampleToken) "SCPCREATE MyToken MTK 1000".toList
        { txid := sampleTxid, vin := none, vout := none }).result = .ok true ∧
    (∀ vout ∈ [none, some [], some [dataOutput],
        some [dataOutput, { value := JSNumber.ofInt 10, scriptPubKey := none }],
        some [dataOutput, { value := JSNumber.ofInt 10,
                            scriptPubKey := some { asm := none, addresses := none } }],
        some [dataOutput, { value := JSNumber.ofInt 10,
                            scriptPubKey := some { asm := none, addresses := some [] } }]],
      processState sampleEnv (sampleLookup sampleToken) "SCPCREATE MyToken MTK 1000".toList
          { txid := sampleTxid, vin := none, vout := vout } =
        Run.done [.console .warn .createFailedToVerifyOutputs, .console .error .dump] true) :=
  ⟨(create_never_throws sampleEnv (sampleLookup sampleToken)
      "SCPCREATE MyToken MTK 1000".toList { txid := sampleTxid, vin := none, vout := none }
      (by decide) (by decide)).1, by decide⟩

/-! ## Message extraction -/

theorem findMessage_skip (res : RawTx) (p : Vout) (rest : List Vout)
    (hp : isDataCarrier p = false) : findMessage res (p :: rest) = findMessage res rest := by
  rw [findMessage]
  unfold isDataCarrier at hp
  cases h1 : p.scriptPubKey with
  | none => rfl
  | some s =>
    rw [h1] at hp
    simp only at hp ⊢
    cases h2 : s.asm with
    | none => rfl
    | some a =>
      rw [h2] at hp
      simp only at hp ⊢
      simp only [hp, Bool.false_eq_true, reduceIte]
      split <;> rfl

theorem findMessage_first (res : RawTx) (pre : List Vout) (o : Vout) (post : List Vout)
    (spk : ScriptPubKey) (asm : JSString)
    (hpre : ∀ p ∈ pre, isDataCarrier p = false) (hspk : o.scriptPubKey = some spk)
    (hasm : spk.asm = some asm) (hs : startsWith asm "OP_RETURN".toList = true) :
    findMessage res (pre ++ o :: post) =
      some { error := false,
             msg := some (utf8ToString (hexToBytes (removeFirst "OP_RETURN ".toList asm))),
             tx := some res } := by
  induction pre with
  | nil =>
    have hne : isNil (some asm) = false := by
      cases asm with
      | nil => cases hs
      | cons _ _ => rfl
    simp only [List.nil_append, findMessage, hspk, hasm, hne, hs, Bool.false_eq_true, reduceIte]
  | cons p pre ih =>
    rw [List.cons_append, findMessage_skip res p _ (hpre p (List.mem_cons_self _ _))]
    exact ih (fun q hq => hpre q (List.mem_cons_of_mem _ hq))

theorem findMessage_none (res : RawTx) (vout : List Vout)
    (h : ∀ o ∈ vout, isDataCarrier o = false) : findMessage res vout = none := by
  induction vout with
  | nil => rfl
  | cons p rest ih =>
    rw [findMessage_skip res p _ (h p (List.mem_cons_self _ _))]
    exact ih (fun q hq => h q (List.mem_cons_of_mem _ hq))

theorem unhex_hexDigit (d : Nat) (h : d < 16) :
    (hexDigit d).toNat < 65536 ∧ unhex ((hexDigit d).toNat % 256) = some d := by
  interval_cases d <;> decide

/-- The hex decoder gives back the bytes of a hexadecimal text. -/
theorem hexToBytes_hexOfBytes (bytes : List Nat) (h : ∀ b ∈ bytes, b < 256) :
    hexToBytes (hexOfBytes bytes) = bytes := by
  unfold hexToBytes
  induction bytes with
  | nil => rfl
  | cons b bs ih =>
    have hb : b < 256 := h b (List.mem_cons_self _ _)
    have h1 := unhex_hexDigit (b / 16) (by omega)
    have h2 := unhex_hexDigit (b % 16) (by omega)
    simp only [hexOfBytes, codeUnits, h1.1, h2.1, reduceIte, hexDecode, h1.2, h2.2]
    rw [ih (fun x hx => h x (List.mem_cons_of_mem _ hx))]
    congr 1
    omega

/-- Removing a pattern from a string that starts with it leaves the rest. -/
theorem removeFirst_leading (pat s : JSString) (hp : pat ≠ []) :
    removeFirst pat (pat ++ s) = s := by
  cases pat with
  | nil => exact absurd rfl hp
  | cons p ps =>
    have hs : startsWith (p :: ps ++ s) (p :: ps) = true := startsWith_append (p :: ps) s
    show removeFirst (p :: ps) (p :: (ps ++ s)) = s
    rw [removeFirst]
    rw [show p :: (ps ++ s) = p :: ps ++ s from rfl, hs]
    simp

/-- C13 (message extraction takes the first data-carrier output only): for a
fetched transaction `res` with outputs `vout`, when `o` is the first output in
`vout` order whose `scriptPubKey.asm` starts with `OP_RETURN`, `getMsgFromTx`
returns (without an error flag) the message decoded as UTF-8 from the bytes
that the hex decoder reads from the payload of `o` (its `asm` without the
leading `OP_RETURN `), together with `res`, whatever outputs follow `o`; when
the `asm` of `o` is `OP_RETURN ` followed by the hexadecimal text of a list of
bytes, the message is the UTF-8 text of these bytes; and when no output has
such a script it returns null. In all cases it returns normally, its only
node call being the fetch. -/
theorem first_data_output_only (env : Env) (rawTX : Option JSString) (res : RawTx)
    (vout : List Vout) (hres : env.getrawtransaction rawTX = .ok (some res))
    (hvout : res.vout = some vout) :
    (∀ (pre post : List Vout) (o : Vout) (spk : ScriptPubKey) (asm : JSString),
      vout = pre ++ o :: post → (∀ p ∈ pre, isDataCarrier p = false) →
      o.scriptPubKey = some spk → spk.asm = some asm →
      startsWith asm "OP_RETURN".toList = true →
      getMsgFromTx env rawTX = Run.done [.getrawtransaction rawTX]
        (some { error := false,
                msg := some (utf8ToString (hexToBytes (removeFirst "OP_RETURN ".toList asm))),
                tx := some res })) ∧
    (∀ (pre post : List Vout) (o : Vout) (spk : ScriptPubKey) (bytes : List Nat),
      vout = pre ++ o :: post → (∀ p ∈ pre, isDataCarrier p = false) →
      o.scriptPubKey = some spk → spk.asm = some ("OP_RETURN ".toList ++ hexOfBytes bytes) →
      (∀ b ∈ bytes, b < 256) →
      getMsgFromTx env rawTX = Run.done [.getrawtransaction rawTX]
        (some { error := false, msg := some (utf8ToString bytes), tx := some res })) ∧
    ((∀ o ∈ vout, isDataCarrier o = false) →
      getMsgFromTx env rawTX = Run.done [.getrawtransaction rawTX] none) := by
  refine ⟨?_, ?_, ?_⟩
  · intro pre post o spk asm hsplit hpre hspk hasm hs
    unfold getMsgFromTx
    simp only [hres, hvout, hsplit]
    rw [findMessage_first res pre o post spk asm hpre hspk hasm hs]
  · intro pre post o spk bytes hsplit hpre hspk hasm hbytes
    unfold getMsgFromTx
    simp only [hres, hvout, hsplit]
    rw [findMessage_first res pre o post spk _ hpre hspk hasm
      (startsWith_append "OP_RETURN".toList (" ".toList ++ hexOfBytes bytes)),
      removeFirst_leading "OP_RETURN ".toList (hexOfBytes bytes) (by decide),
      hexToBytes_hexOfBytes bytes hbytes]
  · intro hno
    unfold getMsgFromTx
    simp only [hres, hvout]
    rw [findMessage_none res vout hno]

/-- A transaction whose outputs 1 and 2 both carry data gives the message of
output 1, `Hello`, which is the UTF-8 text of the bytes 72, 101, 108, 108,
111 of its hexadecimal payload; a coinbase transaction gives null; a payload
of two characters U+0141 is read by their low bytes as the byte 170, which
decodes to the replacement character. -/
theorem first_data_output_only_witness :
    getMsgFromTx { sampleEnv with getrawtransaction := fun _ => .ok (some sampleTwoMessages) }
        (some "t5".toList) =
      Run.done [.getrawtransaction (some "t5".toList)]
        (some { error := false, msg := some "Hello".toList, tx := some sampleTwoMessages }) ∧
    "OP_RETURN 48656c6c6f".toList = "OP_RETURN ".toList ++ hexOfBytes [72, 101, 108, 108, 111] ∧
    getMsgFromTx { sampleEnv with getrawtransaction := fun _ => .ok (some sampleTwoMessages) }
        (some "t5".toList) =
      Run.done [.getrawtransaction (some "t5".toList)]
        (some { error := false, msg := some (utf8ToString [72, 101, 108, 108, 111]),
                tx := some sampleTwoMessages }) ∧
    getMsgFromTx { sampleEnv with getrawtransaction := fun _ => .ok (some sampleCoinbase) }
        (some "cb".toList) = Run.done [.getrawtransaction (some "cb".toList)] none ∧
    hexToBytes [Char.ofNat 321, Char.ofNat 321] = [170] ∧
    getMsgFromTx { sampleEnv with getrawtransaction := fun _ => .ok (some sampleLowByte) }
        (some "t6".toList) =
      Run.done [.getrawtransaction (some "t6".toList)]
        (some { error := false, msg := some [replacementChar], tx := some sampleLowByte }) :=
  ⟨(first_data_output_only
      { sampleEnv with getrawtransaction := fun _ => .ok (some sampleTwoMessages) }
      (some "t5".toList) sampleTwoMessages _ rfl rfl).1 [payTo 3 "sXcreator"]
      [{ value := JSNumber.ofInt 0,
         scriptPubKey := some { asm := some "OP_RETURN 576f726c64".toList, addresses := none } }]
      _ _ _ rfl (by decide) rfl rfl (by decide),
    by decide,
    (first_data_output_only
      { sampleEnv with getrawtransaction := fun _ => .ok (some sampleTwoMessages) }
      (some "t5".toList) sampleTwoMessages _ rfl rfl).2.1 [payTo 3 "sXcreator"]
      [{ value := JSNumber.ofInt 0,
         scriptPubKey := some { asm := some "OP_RETURN 576f726c64".toList, addresses := none } }]
      _ _ [72, 101, 108, 108, 111] rfl (by decide) rfl (by decide) (by decide),
    by decide, by decide, by decide⟩

/-- A message longer than 64 whose first field is not 64 long is no contract
call: nothing happens. -/
theorem processCall_first_field (env : Env) (getToken : JSString → Option Token)
    (newMsg : JSString) (tx : RawTx) (p0 : JSString)
    (hfirst : (split newMsg " ".toList)[0]? = some p0) (hlen : jsLength p0 ≠ 64) :
    processCall env getToken newMsg tx = Run.done [] true := by
  unfold processCall
  simp only [hfirst, fieldLength, hlen, decide_False, Bool.false_and, Bool.false_eq_true,
    reduceIte]

/-- A CREATE message with a field count other than the one its version
expects registers nothing and returns `true`. -/
theorem processState_wrong_arity (env : Env) (getToken : JSString → Option Token)
    (newMsg : JSString) (tx : RawTx) (p0 : JSString)
    (hfirst : (split newMsg " ".toList)[0]? = some p0) (hlen : jsLength p0 ≠ 64)
    (harity : (split newMsg " ".toList).length ≠
      (if createVersion (split newMsg " ".toList) = 2 then 6 else 4)) :
    (processState env getToken newMsg tx).result = .ok true ∧
    ∀ e ∈ (processState env getToken newMsg tx).events, e.isLedgerCall = false := by
  rcases processState_cases env getToken newMsg tx with ⟨-, -, -, heq⟩ | ⟨-, -, heq⟩ |
    ⟨-, -, heq⟩
  · rw [heq, processCreate_unfold, if_neg harity]
    refine ⟨rfl, ?_⟩
    intro e he
    simp only [Run.done, List.mem_singleton] at he
    subst he; rfl
  · rw [heq, processCall_first_field env getToken newMsg tx p0 hfirst hlen]
    exact ⟨rfl, fun e he => by simp [Run.done] at he⟩
  · rw [heq]
    exact ⟨rfl, fun e he => by simp [Run.done] at he⟩

/-- C14 (CREATE version and arity): a message whose first field is exactly
`SCPCREATE` is a version-1 create: a token it registers has version 1 and the
message has exactly 4 space-separated fields; a message whose first field is
`SCPCREATE2` is a version-2 create: a token it registers has version 2 and the
message has exactly 6 fields; with any other field count `processState`
registers no token (it makes no call into the token module) and returns
`true`. -/
theorem create_version_and_arity (env : Env) (getToken : JSString → Option Token)
    (newMsg : JSString) (tx : RawTx) :
    ((split newMsg " ".toList)[0]? = some "SCPCREATE".toList →
      createVersion (split newMsg " ".toList) = 1 ∧
      (∀ t, Event.addToken t ∈ (processState env getToken newMsg tx).events →
        (split newMsg " ".toList).length = 4 ∧ t.version = 1) ∧
      ((split newMsg " ".toList).length ≠ 4 →
        (processState env getToken newMsg tx).result = .ok true ∧
        ∀ e ∈ (processState env getToken newMsg tx).events, e.isLedgerCall = false)) ∧
    ((split newMsg " ".toList)[0]? = some "SCPCREATE2".toList →
      createVersion (split newMsg " ".toList) = 2 ∧
      (∀ t, Event.addToken t ∈ (processState env getToken newMsg tx).events →
        (split newMsg " ".toList).length = 6 ∧ t.version = 2) ∧
      ((split newMsg " ".toList).length ≠ 6 →
        (processState env getToken newMsg tx).result = .ok true ∧
        ∀ e ∈ (processState env getToken newMsg tx).events, e.isLedgerCall = false)) := by
  constructor
  · intro hfirst
    have hver : createVersion (split newMsg " ".toList) = 1 := by
      unfold createVersion
      rw [hfirst]
      simp
    refine ⟨hver, ?_, ?_⟩
    · intro t ht
      obtain ⟨-, -, hlen, -, -, a, -, -, rfl, -⟩ := processState_addToken env getToken newMsg tx t ht
      rw [hver] at hlen
      exact ⟨hlen, by rw [createdToken_version, hver]⟩
    · intro hlen
      apply processState_wrong_arity env getToken newMsg tx _ hfirst (by decide)
      rw [hver]
      exact hlen
  · intro hfirst
    have hver : createVersion (split newMsg " ".toList) = 2 := by
      unfold createVersion
      rw [hfirst]
      decide
    refine ⟨hver, ?_, ?_⟩
    · intro t ht
      obtain ⟨-, -, hlen, -, -, a, -, -, rfl, -⟩ := processState_addToken env getToken newMsg tx t ht
      rw [hver] at hlen
      exact ⟨hlen, by rw [createdToken_version, hver]⟩
    · intro hlen
      apply processState_wrong_arity env getToken newMsg tx _ hfirst (by decide)
      rw [hver]
      exact hlen

/-- The message `SCPCREATE2 MyToken MTK 1000`, a version-2 create with 4
fields instead of 6, registers nothing and returns `true`, although the same
transaction would carry a version-1 create. -/
theorem create_version_and_arity_witness :
    (processState sampleEnv (sampleLookup sampleToken) "SCPCREATE2 MyToken MTK 1000".toList
      (sampleCreateTx 10)).result = .ok true ∧
    ∀ e ∈ (processState sampleEnv (sampleLookup sampleToken)
      "SCPCREATE2 MyToken MTK 1000".toList (sampleCreateTx 10)).events,
      e.isLedgerCall = false :=
  ((create_version_and_arity sampleEnv (sampleLookup sampleToken)
    "SCPCREATE2 MyToken MTK 1000".toList (sampleCreateTx 10)).2 (by decide)).2.2 (by decide)

/-- C20, as the code has it: a message whose first field is `SCPCREATE`
followed by a suffix in which `SCPCREATE` does not occur again and which does
not convert to the number 2 is a version-1 create: a token it registers has
version 1 and the message has exactly 4 fields; with another field count it is
rejected for its field count; with 4 fields, a non-empty name and ticker, a
positive safe-integer maximum supply, a transaction id, the fee output and a
creator address it registers the version-1 token. Every token `processState`
registers, for any message, has version 1 or 2. -/
theorem create_suffix_version (env : Env) (getToken : JSString → Option Token)
    (newMsg suffix : JSString) (tx : RawTx)
    (hfirst : (split newMsg " ".toList)[0]? = some ("SCPCREATE".toList ++ suffix))
    (hplain : occursIn "SCPCREATE".toList suffix = false)
    (hnum : (Number (some suffix)).strictEq 2 = false) :
    createVersion (split newMsg " ".toList) = 1 ∧
    (∀ t, Event.addToken t ∈ (processState env getToken newMsg tx).events →
      (split newMsg " ".toList).length = 4 ∧ t.version = 1) ∧
    (tx.txid ≠ [] → (split newMsg " ".toList).length ≠ 4 →
      processState env getToken newMsg tx =
        Run.done [.console .warn .createIncorrectParamCount] true) ∧
    (∀ name ticker maxsupply creator : JSString,
      split newMsg " ".toList = ["SCPCREATE".toList ++ suffix, name, ticker, maxsupply] →
      name ≠ [] → ticker ≠ [] → isPositiveSafeInteger (Number (some maxsupply)) = true →
      tx.txid ≠ [] → PaysDeployFee tx → LastOutputAddress tx creator → creator ≠ [] →
      processState env getToken newMsg tx =
        Run.done [.addToken
          { version := 1, contract := tx.txid, name := name, ticker := ticker,
            maxSupply := Number (some maxsupply), creator := creator, owners := [],
            inflation := none, minAge := none },
          .console .log .tokenCreated, .console .log .dump] true) ∧
    (∀ (env2 : Env) (getToken2 : JSString → Option Token) (msg2 : JSString) (tx2 : RawTx)
        (t : Token),
      Event.addToken t ∈ (processState env2 getToken2 msg2 tx2).events →
      t.version = 1 ∨ t.version = 2) := by
  have hver : createVersion (split newMsg " ".toList) = 1 := by
    unfold createVersion
    rw [hfirst]
    simp only [split_keyword_suffix suffix hplain, List.getElem?_cons_succ,
      List.getElem?_cons_zero, hnum, Bool.false_eq_true, and_false, reduceIte]
  have hstart : startsWith newMsg "SCPCREATE".toList = true :=
    startsWith_of_first_field newMsg " ".toList "SCPCREATE".toList suffix hfirst
  refine ⟨hver, ?_, ?_, ?_, ?_⟩
  · intro t ht
    obtain ⟨-, -, hlen, -, -, a, -, -, rfl, -⟩ := processState_addToken env getToken newMsg tx t ht
    rw [hver] at hlen
    exact ⟨hlen, by rw [createdToken_version, hver]⟩
  · intro htx hlen
    rw [processState_create env getToken newMsg tx hstart htx, processCreate_unfold,
      if_neg (by rw [hver]; exact hlen)]
  · intro name ticker maxsupply creator hsplit hname hticker hmax htx hfee hlast hcreator
    rw [hsplit] at hver
    have hchk : createParamChecks
        ["SCPCREATE".toList ++ suffix, name, ticker, maxsupply] = true := by
      unfold createParamChecks
      rw [hver]
      have h1 : fieldLength (some name) > 0 := (fieldLength_pos _).mpr ⟨name, rfl, hname⟩
      have h2 : fieldLength (some ticker) > 0 := (fieldLength_pos _).mpr ⟨ticker, rfl, hticker⟩
      simp only [isPositiveSafeInteger] at hmax
      simp only [List.getElem?_cons_succ, List.getElem?_cons_zero, h1, h2, hmax, decide_True,
        Bool.and_self, OfNat.ofNat_ne_one, reduceIte, (by decide : (1 : Nat) ≠ 2)]
    rw [processState_create env getToken newMsg tx hstart htx, processCreate_unfold, hsplit,
      if_pos (by rw [hver]; rfl), if_pos hchk,
      (creatorAddress_ok tx creator).mpr ⟨hlast, hcreator⟩, (feeOutputOk_true tx).mpr hfee]
    simp only
    unfold createdToken
    rw [if_pos hver]
    rfl
  · intro env2 getToken2 msg2 tx2 t ht
    obtain ⟨-, -, -, -, -, a, -, -, rfl, -⟩ := processState_addToken env2 getToken2 msg2 tx2 t ht
    rw [createdToken_version]
    exact createVersion_cases _

/-- The messages `SCPCREATE3 MyToken MTK 1000` and `SCPCREATEX MyToken MTK
1000` register version-1 tokens. -/
theorem create_suffix_version_witness :
    processState sampleEnv (sampleLookup sampleToken) "SCPCREATE3 MyToken MTK 1000".toList
        (sampleCreateTx 10) =
      Run.done [.addToken
        { version := 1, contract := sampleTxid, name := "MyToken".toList,
          ticker := "MTK".toList, maxSupply := JSNumber.ofInt 1000,
          creator := "sXcreator".toList, owners := [], inflation := none, minAge := none },
        .console .log .tokenCreated, .console .log .dump] true ∧
    ∀ t, Event.addToken t ∈ (processState sampleEnv (sampleLookup sampleToken)
        "SCPCREATEX MyToken MTK 1000".toList (sampleCreateTx 10)).events → t.version = 1 :=
  ⟨(create_suffix_version sampleEnv (sampleLookup sampleToken)
      "SCPCREATE3 MyToken MTK 1000".toList "3".toList (sampleCreateTx 10) (by decide)
      (by decide) (by decide)).2.2.2.1 "MyToken".toList "MTK".toList "1000".toList
      "sXcreator".toList (by decide) (by decide) (by decide) (by decide) (by decide)
      ⟨_, _, _, _, rfl, rfl, rfl, rfl, rfl, by decide⟩ ⟨_, _, _, _, rfl, rfl, rfl, rfl, rfl⟩
      (by decide),
    fun t ht => ((create_suffix_version sampleEnv (sampleLookup sampleToken)
      "SCPCREATEX MyToken MTK 1000".toList "X".toList (sampleCreateTx 10) (by decide)
      (by decide) (by decide)).2.1 t ht).2⟩

/-- C20 as stated fails: the suffix `2SCPCREATE` does not convert to the
number 2 (it converts to NaN), yet the first field `SCPCREATE2SCPCREATE` makes
a version-2 create: with 6 fields a version-2 token is registered, and with 4
fields the message is rejected for its field count. -/
theorem create_suffix_not_version_one :
    Number (some "2SCPCREATE".toList) = JSNumber.NaN ∧
    (Number (some "2SCPCREATE".toList)).strictEq 2 = false ∧
    processState sampleEnv (sampleLookup sampleToken)
        "SCPCREATE2SCPCREATE MyToken MTK 1000 5 10".toList (sampleCreateTx 10) =
      Run.done [.addToken
        { version := 2, contract := sampleTxid, name := "MyToken".toList,
          ticker := "MTK".toList, maxSupply := JSNumber.ofInt 1000,
          creator := "sXcreator".toList, owners := [],
          inflation := some (JSNumber.ofInt 5), minAge := some (JSNumber.ofInt 10) },
        .console .log .tokenCreated, .console .log .dump] true ∧
    processState sampleEnv (sampleLookup sampleToken)
        "SCPCREATE2SCPCREATE MyToken MTK 1000".toList (sampleCreateTx 10) =
      Run.done [.console .warn .createIncorrectParamCount] true := by
  decide

/-! ## Configuration values -/

/-- When no line starts with the key, the default decides. -/
theorem getConfigValue_absent (lines : List JSString) (key : JSString) (d : JSValue)
    (hno : ∀ l ∈ lines, startsWith l key = false) :
    getConfigValue lines key d = if d.isNil = true then .undefined else d := by
  induction lines with
  | nil => rfl
  | cons l rest ih =>
    rw [getConfigValue, hno l (List.mem_cons_self _ _)]
    simp only [Bool.not_false, reduceIte]
    exact ih (fun x hx => hno x (List.mem_cons_of_mem _ hx))

/-- The first line that starts with the key decides. -/
theorem getConfigValue_first (pre post : List JSString) (line key : JSString) (d : JSValue)
    (hpre : ∀ l ∈ pre, startsWith l key = false) (hline : startsWith line key = true) :
    getConfigValue (pre ++ line :: post) key d =
      match (split line "=".toList)[1]? with
      | some value => .string value
      | none => .undefined := by
  induction pre with
  | nil =>
    rw [List.nil_append, getConfigValue, hline]
    rfl
  | cons l rest ih =>
    rw [List.cons_append, getConfigValue, hpre l (List.mem_cons_self _ _)]
    simp only [Bool.not_false, reduceIte]
    exact ih (fun x hx => hpre x (List.mem_cons_of_mem _ hx))

/-- C17, as the code has it: when the first line that starts with the key is
`key=value`, where neither the key nor the value contains `=`,
`getConfigValue(key, default)` returns the value; when no line starts with the
key it returns the default if the default is not nil in the sense of `isNil`,
and undefined if it is (undefined, null, `false`, zero, NaN, the empty
string). -/
theorem getConfigValue_value_or_default (key : JSString) (d : JSValue) :
    (∀ (pre post : List JSString) (value : JSString),
      (∀ l ∈ pre, startsWith l key = false) → '=' ∉ key → '=' ∉ value →
      getConfigValue (pre ++ (key ++ '=' :: value) :: post) key d = .string value) ∧
    (∀ lines : List JSString, (∀ l ∈ lines, startsWith l key = false) →
      (d.isNil = false → getConfigValue lines key d = d) ∧
      (d.isNil = true → getConfigValue lines key d = .undefined)) ∧
    (d.isNil = true ↔
      d = .undefined ∨ d = .null ∨ d = .bool false ∨ d = .number .NaN ∨
      (∃ k, d = .number (.fin 0 k)) ∨ d = .string []) := by
  refine ⟨?_, ?_, ?_⟩
  · intro pre post value hpre hkey hvalue
    rw [getConfigValue_first pre post _ key d hpre (startsWith_append key _)]
    have hsplit : split (key ++ '=' :: value) "=".toList = [key, value] := by
      show splitGo ['='] (key ++ '=' :: value) 0 [] = [key, value]
      rw [splitGo_single_cons '=' key value hkey, splitGo_single_field '=' value hvalue]
      simp
    rw [hsplit]
    rfl
  · intro lines hno
    rw [getConfigValue_absent lines key d hno]
    constructor
    · intro h; simp [h]
    · intro h; simp [h]
  · cases d with
    | undefined => simp [JSValue.isNil]
    | null => simp [JSValue.isNil]
    | bool b => cases b <;> simp [JSValue.isNil]
    | number n =>
      cases n with
      | NaN => simp [JSValue.isNil]
      | Infinity s => simp [JSValue.isNil]
      | fin num k => simp [JSValue.isNil]
    | string s => cases s <;> simp [JSValue.isNil]

/-- In the sample configuration the user name is found, and the port, which
has no line, is the default 39999. -/
theorem getConfigValue_value_or_default_witness :
    getConfigValue sampleConfig "rpcuser".toList (.bool false) = .string "alice".toList ∧
    getConfigValue sampleConfig "rpcport".toList (.number (JSNumber.ofInt 39999)) =
      .number (JSNumber.ofInt 39999) :=
  ⟨(getConfigValue_value_or_default "rpcuser".toList (.bool false)).1
      ["txindex=1".toList, "server=1".toList] ["rpcpassword=c2VjcmV0cw==".toList]
      "alice".toList (by decide) (by decide) (by decide),
    ((getConfigValue_value_or_default "rpcport".toList (.number (JSNumber.ofInt 39999))).2.1
      sampleConfig (by decide)).1 (by decide)⟩

/-- C17 as stated fails: with no `txindex` line the defaults `false`, 0 and
the empty string all come back as undefined, not as the default; the value of
`rpcpassword=c2VjcmV0cw==` comes back cut at its first `=`; and a line of
another key that starts with the wanted key answers in its place. -/
theorem getConfigValue_not_value_or_default :
    getConfigValue ["server=1".toList] "txindex".toList (.bool false) = .undefined ∧
    getConfigValue ["server=1".toList] "txindex".toList (.number (JSNumber.ofInt 0)) =
      .undefined ∧
    getConfigValue ["server=1".toList] "txindex".toList (.string []) = .undefined ∧
    getConfigValue sampleConfig "rpcpassword".toList (.bool false) =
      .string "c2VjcmV0cw".toList ∧
    getConfigValue ["rpcuser2=bob".toList, "rpcuser=alice".toList] "rpcuser".toList
      (.bool false) = .string "bob".toList := by
  decide

/-! ## Transactions without inputs -/

/-- With an empty list of inputs the authentication loop does nothing and
leaves `isAuthSafe` set. -/
theorem authenticate_no_inputs (env : Env) (addr : JSString) (tx : RawTx)
    (hvin : tx.vin = some []) : authenticate env addr tx = Run.done [] true := by
  unfold authenticate
  rw [hvin]
  rfl

/-- C18 (authentication is vacuous for a transaction without inputs): for a
transaction whose `vin` list is empty and whose output 1 has the non-empty
first address `caller`, the authentication loop makes no lookup and succeeds,
and for a registered token `processState` makes exactly the call of the
method: `debitAccount` for a burn and `transfer` for a send to a valid
address, of a positive safe-integer amount, `redeemRewards` for a redeem on a
version-2 token, and `creditAccount` for a mint when `caller` is the creator
(and a version-2 token has no owner yet), each for the address in output 1,
with no `getrawtransaction` lookup at all. -/
theorem no_inputs_authenticate (env : Env) (getToken : JSString → Option Token)
    (id caller : JSString) (cToken : Token) (tx : RawTx)
    (hid : IsTxid id) (htok : getToken id = some cToken) (hvin : tx.vin = some [])
    (hclaim : claimedAddress tx = some caller) (hcaller : caller ≠ []) :
    authenticate env caller tx = Run.done [] true ∧
    (∀ amount : JSString, ' ' ∉ amount →
      isPositiveSafeInteger (Number (some amount)) = true →
      processState env getToken (joinFields [id, "burn".toList, amount]) tx =
        Run.done [.debitAccount id caller (Number (some amount)) tx] true) ∧
    (∀ amount receiver : JSString, ' ' ∉ amount → ' ' ∉ receiver →
      isPositiveSafeInteger (Number (some amount)) = true →
      env.validateaddress (some receiver) = .ok (some true) →
      processState env getToken (joinFields [id, "send".toList, amount, receiver]) tx =
        Run.done [.validateaddress (some receiver),
          .transfer id caller (some receiver) (Number (some amount)) tx] true) ∧
    (cToken.version = 2 →
      processState env getToken (joinFields [id, "redeem".toList]) tx =
        Run.done [.redeemRewards id caller tx] true) ∧
    (∀ amount : JSString, ' ' ∉ amount →
      isPositiveSafeInteger (Number (some amount)) = true →
      caller = cToken.creator → (cToken.version = 2 → cToken.owners = []) →
      processState env getToken (joinFields [id, "mint".toList, amount]) tx =
        Run.done [.creditAccount id cToken.creator (Number (some amount)) tx] true) := by
  have hauth := authenticate_no_inputs env caller tx hvin
  have hca : ∀ what, callerAddress what tx = .ok caller := fun what =>
    (callerAddress_eq_ok what tx caller).mpr ⟨hclaim, hcaller⟩
  refine ⟨hauth, ?_, ?_, ?_, ?_⟩
  · intro amount hamount hpsi
    rw [processCall_dispatch env getToken id "burn".toList [amount] tx hid (by decide)
      (by decide) (by simpa using hamount), htok]
    simp only [(by decide : ¬ ("burn".toList = "mint".toList)), reduceIte]
    unfold processBurn
    simp only [isPositiveSafeInteger] at hpsi
    simp only [List.getElem?_cons_succ, List.getElem?_cons_zero, hpsi, reduceIte, hca, hauth,
      Run.done, List.nil_append]
  · intro amount receiver hamount hreceiver hpsi hvalid
    rw [processCall_dispatch env getToken id "send".toList [amount, receiver] tx hid (by decide)
      (by decide) (by
        intro f hf
        simp only [List.mem_cons, List.mem_singleton, List.not_mem_nil, or_false] at hf
        rcases hf with rfl | rfl
        · exact hamount
        · exact hreceiver), htok]
    simp only [(by decide : ¬ ("send".toList = "mint".toList)),
      (by decide : ¬ ("send".toList = "burn".toList)), reduceIte]
    unfold processSend
    simp only [isPositiveSafeInteger] at hpsi
    simp only [List.getElem?_cons_succ, List.getElem?_cons_zero, hpsi, reduceIte, hca, hauth,
      hvalid, Run.done, List.nil_append, Bool.and_self, List.cons_append]
  · intro hv2
    rw [processCall_dispatch env getToken id "redeem".toList [] tx hid (by decide)
      (by decide) (by simp), htok]
    simp only [(by decide : ¬ ("redeem".toList = "mint".toList)),
      (by decide : ¬ ("redeem".toList = "burn".toList)),
      (by decide : ¬ ("redeem".toList = "send".toList)), hv2, and_self, reduceIte]
    unfold processRedeem
    simp only [hca, hauth, Run.done, List.nil_append]
  · intro amount hamount hpsi hcreator hsingle
    rw [processCall_dispatch env getToken id "mint".toList [amount] tx hid (by decide)
      (by decide) (by simpa using hamount), htok]
    simp only [reduceIte]
    unfold processMint
    have hfirst : ¬ (cToken.version = 2 ∧ cToken.owners.length > 0) := by
      rintro ⟨h2, hlen⟩
      rw [hsingle h2] at hlen
      simp at hlen
    simp only [isPositiveSafeInteger] at hpsi
    rw [if_neg hfirst]
    simp only [List.getElem?_cons_succ, List.getElem?_cons_zero, hpsi, reduceIte, hca]
    rw [if_pos hcreator, hauth]
    simp only [Run.done, List.nil_append]

/-- A burn of 5 carried by a transaction without inputs that names
`sXcreator` in output 1 debits `sXcreator`, with no lookup. -/
theorem no_inputs_authenticate_witness :
    processState sampleEnv (sampleLookup sampleToken)
        (joinFields [sampleId, "burn".toList, "5".toList]) (sampleCallTx []) =
      Run.done [.debitAccount sampleId "sXcreator".toList (JSNumber.ofInt 5) (sampleCallTx [])]
        true :=
  (no_inputs_authenticate sampleEnv (sampleLookup sampleToken) sampleId "sXcreator".toList
    sampleToken (sampleCallTx []) ⟨by decide, by decide⟩ (by decide) (by decide) (by decide)
    (by decide)).2.1 "5".toList (by decide) (by decide)

/-! ## What a run of processState can contain -/

theorem authenticate_not_ofScanner (env : Env) (addr : JSString) (tx : RawTx) :
    ∀ e ∈ (authenticate env addr tx).events, e.isOfScanner = false := by
  intro e he
  obtain ⟨t, rfl⟩ := authenticate_events env addr tx e he
  rfl

theorem not_ofScanner_snoc {evs : List Event} (h : ∀ e ∈ evs, e.isOfScanner = false)
    (x : Event) (hx : x.isOfScanner = false) : ∀ e ∈ evs ++ [x], e.isOfScanner = false := by
  intro e he
  simp only [List.mem_append, List.mem_singleton] at he
  rcases he with he | rfl
  · exact h e he
  · exact hx

theorem not_ofScanner_cons {evs : List Event} (h : ∀ e ∈ evs, e.isOfScanner = false)
    (x : Event) (hx : x.isOfScanner = false) : ∀ e ∈ x :: evs, e.isOfScanner = false := by
  intro e he
  simp only [List.mem_cons] at he
  rcases he with rfl | he
  · exact hx
  · exact h e he

theorem processBurn_not_ofScanner (env : Env) (id : JSString) (arrParams : List JSString)
    (tx : RawTx) : ∀ e ∈ (processBurn env id arrParams tx).events, e.isOfScanner = false := by
  unfold processBurn
  simp only
  split
  · cases callerAddress "Missing caller address!" tx with
    | error f => simp [Run.fail]
    | ok addrCaller =>
      simp only
      have hevs := authenticate_not_ofScanner env addrCaller tx
      rcases h : authenticate env addrCaller tx with ⟨evs, res⟩
      rw [h] at hevs
      cases res with
      | error f => simpa [Run.fail] using hevs
      | ok b => cases b <;> exact not_ofScanner_snoc hevs _ rfl
  · simp [Run.done, Event.isOfScanner]

theorem processRedeem_not_ofScanner (env : Env) (id : JSString) (tx : RawTx) :
    ∀ e ∈ (processRedeem env id tx).events, e.isOfScanner = false := by
  unfold processRedeem
  cases callerAddress "Missing caller address!" tx with
  | error f => simp [Run.fail]
  | ok addrCaller =>
    simp only
    have hevs := authenticate_not_ofScanner env addrCaller tx
    rcases h : authenticate env addrCaller tx with ⟨evs, res⟩
    rw [h] at hevs
    cases res with
    | error f => simpa [Run.fail] using hevs
    | ok b => cases b <;> exact not_ofScanner_snoc hevs _ rfl

theorem processSend_not_ofScanner (env : Env) (id : JSString) (arrParams : List JSString)
    (tx : RawTx) : ∀ e ∈ (processSend env id arrParams tx).events, e.isOfScanner = false := by
  unfold processSend
  cases callerAddress "Missing caller address!" tx with
  | error f => simp [Run.fail]
  | ok addrCaller =>
    simp only
    cases env.validateaddress arrParams[3]? with
    | error f => simp [Run.fail, Event.isOfScanner]
    | ok r =>
      cases r with
      | none => simp [Run.fail, Event.isOfScanner]
      | some check4 =>
        simp only
        split
        · have hevs := authenticate_not_ofScanner env addrCaller tx
          rcases h : authenticate env addrCaller tx with ⟨evs, res⟩
          rw [h] at hevs
          cases res with
          | error f => exact not_ofScanner_cons hevs _ rfl
          | ok b =>
            cases b <;>
            · intro e he
              simp only [Run.done, List.cons_append, List.mem_cons, List.mem_append,
                List.mem_singleton, List.not_mem_nil, or_false] at he
              rcases he with rfl | he | rfl
              · rfl
              · exact hevs e he
              · rfl
        · split
          · simp [Run.fail, Event.isOfScanner]
          · split <;> simp [Run.fail, Run.done, Event.isOfScanner]

theorem processMint_not_ofScanner (env : Env) (id : JSString) (cToken : Token)
    (arrParams : List JSString) (tx : RawTx) :
    ∀ e ∈ (processMint env id cToken arrParams tx).events, e.isOfScanner = false := by
  unfold processMint
  split
  · simp [Run.done]
  · simp only
    split
    · cases callerAddress "Missing creator address!" tx with
      | error f => simp [Run.fail]
      | ok addrCreator =>
        simp only
        split
        · have hevs := authenticate_not_ofScanner env addrCreator tx
          rcases h : authenticate env addrCreator tx with ⟨evs, res⟩
          rw [h] at hevs
          cases res with
          | error f => simpa [Run.fail] using hevs
          | ok b => cases b <;> exact not_ofScanner_snoc hevs _ rfl
        · simp [Run.done, Event.isOfScanner]
    · simp [Run.done, Event.isOfScanner]

theorem processCall_not_ofScanner (env : Env) (getToken : JSString → Option Token)
    (newMsg : JSString) (tx : RawTx) :
    ∀ e ∈ (processCall env getToken newMsg tx).events, e.isOfScanner = false := by
  unfold processCall
  simp only
  split
  · split
    · split
      · exact processMint_not_ofScanner _ _ _ _ _
      · split
        · exact processBurn_not_ofScanner _ _ _ _
        · split
          · exact processSend_not_ofScanner _ _ _ _
          · split
            · exact processRedeem_not_ofScanner _ _ _
            · simp [Run.done]
    · simp [Run.done, Event.isOfScanner]
  · simp [Run.done]

/-- A run of `processState` contains no event of the scanner. -/
theorem processState_not_ofScanner (env : Env) (getToken : JSString → Option Token)
    (newMsg : JSString) (tx : RawTx) :
    ∀ e ∈ (processState env getToken newMsg tx).events, e.isOfScanner = false := by
  rcases processState_cases env getToken newMsg tx with ⟨-, -, -, heq⟩ | ⟨-, -, heq⟩ |
    ⟨-, -, heq⟩
  · rw [heq]
    rcases (processCreate_outcome newMsg tx).2 with ⟨t, h⟩ | h | h | h | h <;> rw [h] <;>
      simp [Event.isOfScanner]
  · rw [heq]
    exact processCall_not_ofScanner env getToken newMsg tx
  · rw [heq]
    simp [Run.done]

/-! ## The log of a scan -/

theorem Event.kinds_of_not_ofScanner (e : Event) (h : e.isOfScanner = false) :
    e.isInvocation = false ∧ e.isTokenCall = e.isLedgerCall := by
  cases e <;> simp_all [Event.isOfScanner, Event.isInvocation, Event.isTokenCall]

theorem ScanLog.refl {L : Type} (T : TokensModule L) (st : ScanState L) : ScanLog T st st [] :=
  ⟨[], by simp, rfl, rfl, by simp⟩

theorem ScanLog.trans {L : Type} {T : TokensModule L} {a b c : ScanState L}
    {c1 c2 : List Invocation} (h1 : ScanLog T a b c1) (h2 : ScanLog T b c c2) :
    ScanLog T a c (c1 ++ c2) := by
  obtain ⟨n1, ht1, hf1, hl1, hm1⟩ := h1
  obtain ⟨n2, ht2, hf2, hl2, hm2⟩ := h2
  refine ⟨n1 ++ n2, ?_, ?_, ?_, ?_⟩
  · rw [ht2, ht1, List.append_assoc]
  · rw [List.filter_append, hf1, hf2, List.flatMap_append]
  · rw [hl2, hl1, List.filter_append, List.foldl_append]
  · rw [hm2, hm1, List.map_append, List.append_assoc]

/-- Events that are neither entries into `processState` nor calls into the
token module leave the log as it is. -/
theorem ScanLog.of_trace {L : Type} (T : TokensModule L) (st st2 : ScanState L)
    (evs : List Event) (htrace : st2.trace = st.trace ++ evs)
    (hevs : ∀ e ∈ evs, e.isInvocation = false ∧ e.isLedgerCall = false ∧
      e.isTokenCall = false)
    (hledger : st2.ledger = st.ledger) (hmsgs : st2.chainMessages = st.chainMessages) :
    ScanLog T st st2 [] := by
  refine ⟨evs, htrace, ?_, ?_, by simp [hmsgs]⟩
  · rw [List.flatMap_nil, List.filter_eq_nil_iff]
    intro e he
    simp [(hevs e he).1, (hevs e he).2.1]
  · have : evs.filter Event.isTokenCall = [] := by
      rw [List.filter_eq_nil_iff]
      intro e he
      simp [(hevs e he).2.2]
    rw [this, hledger]
    rfl

theorem getMsgFromTx_events (env : Env) (rawTX : Option JSString) :
    (getMsgFromTx env rawTX).events = [.getrawtransaction rawTX] := by
  unfold getMsgFromTx
  split
  · rfl
  · rfl
  · split <;> rfl

/-- One handled message: the entry into `processState`, its run, and the
entry appended to `chainMessages`. -/
theorem ScanLog.invoke {L : Type} (T : TokensModule L) (env : Env) (st st2 : ScanState L)
    (c : Invocation) (caught : List Event)
    (hcaught : ∀ e ∈ caught, ∃ l n, e = Event.console l n)
    (happlied : c.applied =
      (processState env (T.getToken st.ledger) c.msg c.tx).events.filter Event.isLedgerCall)
    (htrace : st2.trace = st.trace ++ [.processState c.msg c.tx] ++
      (processState env (T.getToken st.ledger) c.msg c.tx).events ++ caught ++
      [.console .log .messageFound])
    (hledger : st2.ledger =
      applyEvents T st.ledger (processState env (T.getToken st.ledger) c.msg c.tx).events)
    (hmsgs : st2.chainMessages = st.chainMessages ++ [c.message]) :
    ScanLog T st st2 [c] := by
  have hrun := processState_not_ofScanner env (T.getToken st.ledger) c.msg c.tx
  have hc1 : caught.filter (fun e => e.isInvocation || e.isLedgerCall) = [] := by
    rw [List.filter_eq_nil_iff]
    intro e he
    obtain ⟨l, n, rfl⟩ := hcaught e he
    simp [Event.isInvocation, Event.isLedgerCall, Event.isBalanceCall]
  have hc2 : caught.filter Event.isTokenCall = [] := by
    rw [List.filter_eq_nil_iff]
    intro e he
    obtain ⟨l, n, rfl⟩ := hcaught e he
    simp [Event.isTokenCall, Event.isLedgerCall, Event.isBalanceCall]
  have hr1 : (processState env (T.getToken st.ledger) c.msg c.tx).events.filter
      (fun e => e.isInvocation || e.isLedgerCall) =
      (processState env (T.getToken st.ledger) c.msg c.tx).events.filter Event.isLedgerCall := by
    apply List.filter_congr
    intro e he
    rw [(Event.kinds_of_not_ofScanner e (hrun e he)).1, Bool.false_or]
  have hr2 : (processState env (T.getToken st.ledger) c.msg c.tx).events.filter
      Event.isTokenCall =
      (processState env (T.getToken st.ledger) c.msg c.tx).events.filter Event.isLedgerCall := by
    apply List.filter_congr
    intro e he
    exact (Event.kinds_of_not_ofScanner e (hrun e he)).2
  refine ⟨[.processState c.msg c.tx] ++
      (processState env (T.getToken st.ledger) c.msg c.tx).events ++ caught ++
      [.console .log .messageFound], by rw [htrace]; simp only [List.append_assoc], ?_, ?_,
    by simp [hmsgs]⟩
  · simp only [List.filter_append, hc1, hr1, List.flatMap_cons, List.flatMap_nil,
      Invocation.events, happlied, List.append_nil]
    simp [Event.isInvocation, Event.isLedgerCall, Event.isBalanceCall]
  · simp only [List.filter_append, hc2, hr2, List.append_nil]
    rw [hledger]
    simp [applyEvents, Event.isTokenCall, Event.isLedgerCall, Event.isBalanceCall]

/-- The invocations of the transaction loop of a block, tagged with the
height `H` the scan is at: their indices ascend. -/
theorem blockLoop_log {L : Type} (T : TokensModule L) (env : Env) (blk : Block) (H : Int)
    (remaining i : Nat) (st : ScanState L) :
    ∃ calls, ScanLog T st (blockLoop T env blk remaining i st).1 calls ∧
      (∀ c ∈ calls, c.height = H ∧ c.block = blk ∧ i ≤ c.index ∧ c.index < i + remaining ∧
        (getMsgFromTx env blk.tx[c.index]?).result =
          .ok (some { error := false, msg := some c.msg, tx := some c.tx }) ∧
        c.msg ≠ [] ∧
        ∃ ledger, c.applied =
          (processState env (T.getToken ledger) c.msg c.tx).events.filter Event.isLedgerCall) ∧
      calls.Pairwise (fun a b => a.index < b.index) := by
  induction remaining generalizing i st with
  | zero => exact ⟨[], ScanLog.refl T st, by simp, List.Pairwise.nil⟩
  | succ n ih =>
    have hfetch : ScanLog T st
        { st with trace := st.trace ++ (getMsgFromTx env blk.tx[i]?).events } [] :=
      ScanLog.of_trace T _ _ _ rfl (by
        rw [getMsgFromTx_events]
        intro e he
        simp only [List.mem_singleton] at he
        subst he
        exact ⟨rfl, rfl, rfl⟩) rfl rfl
    have hrec : ∀ st1 : ScanState L, ScanLog T st st1 [] →
        ∃ calls, ScanLog T st (blockLoop T env blk n (i + 1) st1).1 calls ∧
          (∀ c ∈ calls, c.height = H ∧ c.block = blk ∧ i ≤ c.index ∧ c.index < i + (n + 1) ∧
            (getMsgFromTx env blk.tx[c.index]?).result =
              .ok (some { error := false, msg := some c.msg, tx := some c.tx }) ∧
            c.msg ≠ [] ∧
            ∃ ledger, c.applied =
              (processState env (T.getToken ledger) c.msg c.tx).events.filter
                Event.isLedgerCall) ∧
          calls.Pairwise (fun a b => a.index < b.index) := by
      intro st1 h1
      obtain ⟨calls, hlog, hall, hpw⟩ := ih (i + 1) st1
      refine ⟨calls, by simpa using h1.trans hlog, ?_, hpw⟩
      intro c hc
      obtain ⟨a1, a2, a3, a4, a5⟩ := hall c hc
      exact ⟨a1, a2, by omega, by omega, a5⟩
    rw [blockLoop]
    simp only
    split
    · exact ⟨[], hfetch, by simp, List.Pairwise.nil⟩
    · exact hrec _ hfetch
    · rename_i txRes hres
      split
      · exact ⟨[], hfetch, by simp, List.Pairwise.nil⟩
      · rename_i msg hmsg
        split
        · exact hrec _ hfetch
        · rename_i hlen
          split
          · refine ⟨[], ?_, by simp, List.Pairwise.nil⟩
            have := hfetch.trans (ScanLog.of_trace T
              { st with trace := st.trace ++ (getMsgFromTx env blk.tx[i]?).events }
              { st with trace := st.trace ++ (getMsgFromTx env blk.tx[i]?).events ++
                  [.console .error .txError] }
              [.console .error .txError] rfl (by
                intro e he
                simp only [List.mem_singleton] at he
                subst he
                exact ⟨rfl, rfl, rfl⟩) rfl rfl)
            simpa using this
          · rename_i herr
            split
            · exact ⟨[], hfetch, by simp, List.Pairwise.nil⟩
            · rename_i tx htx
              have hinv : ScanLog T
                  { st with trace := st.trace ++ (getMsgFromTx env blk.tx[i]?).events }
                  { st with
                    ledger := applyEvents T st.ledger
                      (processState env (T.getToken st.ledger) msg tx).events
                    chainMessages := st.chainMessages ++
                      [{ msg := msg, time := blk.time, tx := blk.tx[i]?, mempool := false }]
                    trace := st.trace ++ (getMsgFromTx env blk.tx[i]?).events ++
                      [.processState msg tx] ++
                      (processState env (T.getToken st.ledger) msg tx).events ++
                      (match (processState env (T.getToken st.ledger) msg tx).result with
                        | .ok _ => []
                        | .error _ =>
                          [.console .error .processStateFailure, .console .error .dump]) ++
                      [.console .log .messageFound] }
                  [{ height := H, block := blk, index := i, msg := msg, tx := tx,
                     applied := (processState env (T.getToken st.ledger) msg tx).events.filter
                       Event.isLedgerCall }] :=
                ScanLog.invoke T env _ _ _ _ (by
                  intro e he
                  split at he
                  · cases he
                  · simp only [List.mem_cons, List.mem_singleton, List.not_mem_nil,
                      or_false] at he
                    rcases he with rfl | rfl <;> exact ⟨_, _, rfl⟩) rfl rfl rfl rfl
              obtain ⟨calls, hlog, hall, hpw⟩ := ih (i + 1)
                { st with
                  ledger := applyEvents T st.ledger
                    (processState env (T.getToken st.ledger) msg tx).events
                  chainMessages := st.chainMessages ++
                    [{ msg := msg, time := blk.time, tx := blk.tx[i]?, mempool := false }]
                  trace := st.trace ++ (getMsgFromTx env blk.tx[i]?).events ++
                    [.processState msg tx] ++
                    (processState env (T.getToken st.ledger) msg tx).events ++
                    (match (processState env (T.getToken st.ledger) msg tx).result with
                      | .ok _ => []
                      | .error _ =>
                        [.console .error .processStateFailure, .console .error .dump]) ++
                    [.console .log .messageFound] }
              refine ⟨_ :: calls, by simpa using (hfetch.trans hinv).trans hlog, ?_, ?_⟩
              · intro c hc
                simp only [List.mem_cons] at hc
                rcases hc with rfl | hc
                · refine ⟨rfl, rfl, le_refl _, by simp, ?_, ?_, _, rfl⟩
                  · rw [hres]
                    cases txRes with
                    | mk e m t =>
                      simp only at hmsg htx herr
                      simp only [Bool.not_eq_true] at herr
                      rw [hmsg, htx, herr]
                  · intro h
                    apply hlen
                    simp only at h
                    rw [h]
                    rfl
                · obtain ⟨a1, a2, a3, a4, a5⟩ := hall c hc
                  exact ⟨a1, a2, by omega, by omega, a5⟩
              · rw [List.pairwise_cons]
                refine ⟨?_, hpw⟩
                intro d hd
                have := (hall d hd).2.2.1
                show i < d.index
                omega

theorem ScanLog.setBlockHeight {L : Type} (T : TokensModule L) (st st2 : ScanState L)
    (height : Int) (htrace : st2.trace = st.trace ++ [.setBlockHeight height])
    (hledger : st2.ledger = T.call st.ledger (.setBlockHeight height))
    (hmsgs : st2.chainMessages = st.chainMessages) : ScanLog T st st2 [] :=
  ⟨[.setBlockHeight height], htrace, rfl, by rw [hledger]; rfl, by simp [hmsgs]⟩

/-- The invocations of `getMsgsFromBlock` on a block, tagged with the height
`H` the scan is at. -/
theorem getMsgsFromBlock_log {L : Type} (T : TokensModule L) (env : Env) (st : ScanState L)
    (blk : Block) (H : Int) :
    ∃ calls, ScanLog T st (getMsgsFromBlock T env st (some blk)).1 calls ∧
      (∀ c ∈ calls, c.height = H ∧ c.block = blk ∧ c.Genuine T env) ∧
      calls.Pairwise (fun a b => a.index < b.index) := by
  have hset : ScanLog T st
      { st with
        chainHashesCache := st.chainHashesCache ++ [blk.hash]
        ledger := T.call st.ledger (.setBlockHeight blk.height)
        trace := st.trace ++ [.setBlockHeight blk.height] } [] :=
    ScanLog.setBlockHeight T _ _ blk.height rfl rfl rfl
  unfold getMsgsFromBlock
  simp only
  split
  · exact ⟨[], hset, by simp, List.Pairwise.nil⟩
  · obtain ⟨calls, hlog, hall, hpw⟩ := blockLoop_log T env blk H blk.nTx 0
      { st with
        chainHashesCache := st.chainHashesCache ++ [blk.hash]
        ledger := T.call st.ledger (.setBlockHeight blk.height)
        trace := st.trace ++ [.setBlockHeight blk.height] }
    refine ⟨calls, by simpa using hset.trans hlog, ?_, hpw⟩
    intro c hc
    obtain ⟨a1, a2, -, a4, a5, a6, a7⟩ := hall c hc
    refine ⟨a1, a2, ?_, ?_, a6, a7⟩
    · rw [a2]; omega
    · rw [a2]; exact a5

/-- What a scan step does to the processed set and to the cached block: it
leaves both, or the node returned no block, or it cached the block the node
returned for the examined hash, which was not in the processed set, and
appended the hash of the block. -/
theorem scanStep_shape {L : Type} (T : TokensModule L) (env : Env) (st : ScanState L)
    (i : Int) :
    ((scanStep T env st i).1.chainHashesCache = st.chainHashesCache ∧
      (scanStep T env st i).1.currentScanBlock = st.currentScanBlock ∧
      ((∃ f, (scanHash env st i).2 = .error f) ∨
        (∃ h, (scanHash env st i).2 = .ok h ∧ h ∈ st.chainHashesCache) ∨
        (∃ h f, (scanHash env st i).2 = .ok h ∧ h ∉ st.chainHashesCache ∧
          env.getblock h = .error f))) ∨
    (∃ h, (scanHash env st i).2 = .ok h ∧ h ∉ st.chainHashesCache ∧
      env.getblock h = .ok none ∧
      (scanStep T env st i).1.chainHashesCache = st.chainHashesCache ∧
      (scanStep T env st i).1.currentScanBlock = none) ∨
    (∃ h b, (scanHash env st i).2 = .ok h ∧ h ∉ st.chainHashesCache ∧
      env.getblock h = .ok (some b) ∧
      (scanStep T env st i).1.chainHashesCache = st.chainHashesCache ++ [b.hash] ∧
      (scanStep T env st i).1.currentScanBlock = some b) := by
  rcases hh : (scanHash env st i).2 with f | h
  · left
    have hstep : scanStep T env st i =
        ({ st with trace := st.trace ++ (scanHash env st i).1 }, .error f) := by
      unfold scanStep
      simp only [hh]
    rw [hstep]
    exact ⟨rfl, rfl, Or.inl ⟨f, rfl⟩⟩
  · by_cases hmem : h ∈ st.chainHashesCache
    · left
      rw [scanStep_skip T env st i h hh hmem]
      exact ⟨rfl, rfl, Or.inr (Or.inl ⟨h, rfl, hmem⟩)⟩
    · rcases hb : env.getblock h with f | r
      · left
        have hstep : scanStep T env st i =
            ({ st with trace := st.trace ++ (scanHash env st i).1 ++ [.getblock h] },
              .error f) := by
          unfold scanStep
          simp only [hh, hmem, reduceIte, hb]
        rw [hstep]
        exact ⟨rfl, rfl, Or.inr (Or.inr ⟨h, f, rfl, hmem, hb⟩)⟩
      · cases r with
        | none =>
          right; left
          have hstep : scanStep T env st i =
              ({ st with
                  trace := st.trace ++ (scanHash env st i).1 ++ [.getblock h]
                  currentScanBlock := none }, .ok ()) := by
            unfold scanStep
            simp only [hh, hmem, reduceIte, hb, getMsgsFromBlock]
          rw [hstep]
          exact ⟨h, rfl, hmem, hb, rfl, rfl⟩
        | some b =>
          right; right
          obtain ⟨h1, h2⟩ := scanStep_fetch T env st i h b hh hmem hb
          exact ⟨h, b, rfl, hmem, hb, h1, h2⟩

theorem scanStep_cache_mono {L : Type} (T : TokensModule L) (env : Env) (st : ScanState L)
    (i : Int) : ∀ h ∈ st.chainHashesCache, h ∈ (scanStep T env st i).1.chainHashesCache := by
  intro h hh
  rcases scanStep_shape T env st i with ⟨h1, -⟩ | ⟨_, -, -, -, h1, -⟩ | ⟨_, _, -, -, -, h1, -⟩
  · rw [h1]; exact hh
  · rw [h1]; exact hh
  · rw [h1]; exact List.mem_append_left _ hh

theorem scanStep_fetch_state {L : Type} (T : TokensModule L) (env : Env) (st : ScanState L)
    (i : Int) (h : JSString) (b : Block) (hh : (scanHash env st i).2 = .ok h)
    (hnew : h ∉ st.chainHashesCache) (hb : env.getblock h = .ok (some b)) :
    (scanStep T env st i).1 =
      (getMsgsFromBlock T env
        { st with
          trace := st.trace ++ (scanHash env st i).1 ++ [.getblock h]
          currentScanBlock := some b } (some b)).1 := by
  unfold scanStep
  simp only [hh, hnew, reduceIte, hb]
  split <;> (rename_i heq; rw [heq])

theorem scanHash_silent {L : Type} (env : Env) (st : ScanState L) (i : Int) :
    ∀ e ∈ (scanHash env st i).1, e.isInvocation = false ∧ e.isLedgerCall = false ∧
      e.isTokenCall = false := by
  intro e he
  rcases scanHash_events env st i with h | h
  · rw [h] at he; cases he
  · rw [h] at he
    simp only [List.mem_singleton] at he
    subst he
    exact ⟨rfl, rfl, rfl⟩

/-- The invocations of one scan step, at height `i`: they belong to the
block the node returned for the examined hash, which was not in the processed
set. -/
theorem scanStep_log {L : Type} (T : TokensModule L) (env : Env) (st : ScanState L) (i : Int) :
    ∃ calls, ScanLog T st (scanStep T env st i).1 calls ∧
      (∀ c ∈ calls, c.height = i ∧
        (∃ h, (scanHash env st i).2 = .ok h ∧ h ∉ st.chainHashesCache ∧
          env.getblock h = .ok (some c.block)) ∧
        c.Genuine T env) ∧
      calls.Pairwise (fun a b => a.index < b.index) := by
  rcases hh : (scanHash env st i).2 with f | h
  · have hstep : scanStep T env st i =
        ({ st with trace := st.trace ++ (scanHash env st i).1 }, .error f) := by
      unfold scanStep
      simp only [hh]
    rw [hstep]
    exact ⟨[], ScanLog.of_trace T _ _ _ rfl (scanHash_silent env st i) rfl rfl, by simp,
      List.Pairwise.nil⟩
  · by_cases hmem : h ∈ st.chainHashesCache
    · rw [scanStep_skip T env st i h hh hmem]
      exact ⟨[], ScanLog.of_trace T _ _ _ rfl (scanHash_silent env st i) rfl rfl, by simp,
        List.Pairwise.nil⟩
    · have hsilent : ∀ e ∈ (scanHash env st i).1 ++ [.getblock h],
          e.isInvocation = false ∧ e.isLedgerCall = false ∧ e.isTokenCall = false := by
        intro e he
        simp only [List.mem_append, List.mem_singleton] at he
        rcases he with he | rfl
        · exact scanHash_silent env st i e he
        · exact ⟨rfl, rfl, rfl⟩
      rcases hb : env.getblock h with f | r
      · have hstep : scanStep T env st i =
            ({ st with trace := st.trace ++ (scanHash env st i).1 ++ [.getblock h] },
              .error f) := by
          unfold scanStep
          simp only [hh, hmem, reduceIte, hb]
        rw [hstep]
        exact ⟨[], ScanLog.of_trace T _ _ _ (by simp) hsilent rfl rfl, by simp,
          List.Pairwise.nil⟩
      · cases r with
        | none =>
          have hstep : scanStep T env st i =
              ({ st with
                  trace := st.trace ++ (scanHash env st i).1 ++ [.getblock h]
                  currentScanBlock := none }, .ok ()) := by
            unfold scanStep
            simp only [hh, hmem, reduceIte, hb, getMsgsFromBlock]
          rw [hstep]
          exact ⟨[], ScanLog.of_trace T _ _ _ (by simp) hsilent rfl rfl, by simp,
            List.Pairwise.nil⟩
        | some b =>
          rw [scanStep_fetch_state T env st i h b hh hmem hb]
          obtain ⟨calls, hlog, hall, hpw⟩ := getMsgsFromBlock_log T env
            { st with
              trace := st.trace ++ (scanHash env st i).1 ++ [.getblock h]
              currentScanBlock := some b } b i
          have h0 : ScanLog T st
              { st with
                trace := st.trace ++ (scanHash env st i).1 ++ [.getblock h]
                currentScanBlock := some b } [] :=
            ScanLog.of_trace T _ _ _ (by simp) hsilent rfl rfl
          refine ⟨calls, by simpa using h0.trans hlog, ?_, hpw⟩
          intro c hc
          obtain ⟨a1, a2, a3⟩ := hall c hc
          exact ⟨a1, ⟨h, rfl, hmem, by rw [a2]; exact hb⟩, a3⟩

/-- On a consistent node, with the cached block in step, the hash examined at
a height is the hash of that height or a hash of the processed set. -/
theorem scanHash_of_linkOk {L : Type} (env : Env) (hashAt : Int → JSString) (st : ScanState L)
    (i : Int) (hlookup : env.getblockhash i = .ok (hashAt i)) (hlink : LinkOk hashAt st i) :
    (scanHash env st i).2 = .ok (hashAt i) ∨
    ∃ h, (scanHash env st i).2 = .ok h ∧ h ∈ st.chainHashesCache := by
  rcases hlink with hnone | ⟨b, hb, hnil | hnext | ⟨h, hh, hmem⟩⟩
  · left
    exact scanHash_of_link env st i _ hlookup (Or.inl hnone)
  · left
    exact scanHash_of_link env st i _ hlookup (Or.inr ⟨b, hb, Or.inl hnil⟩)
  · left
    exact scanHash_of_link env st i _ hlookup (Or.inr ⟨b, hb, Or.inr hnext⟩)
  · by_cases hnil : isNil b.nextblockhash = true
    · left
      exact scanHash_of_link env st i _ hlookup (Or.inr ⟨b, hb, Or.inl hnil⟩)
    · right
      refine ⟨h, ?_, hmem⟩
      unfold scanHash
      rw [hb]
      simp only [hnil, Bool.false_eq_true, reduceIte]
      rw [hh]

/-- On a consistent node, with the cached block in step, a hash examined
that is not in the processed set is the hash of the height, and the cached
block is in step again after the scan step. -/
theorem scanStep_linkOk {L : Type} (T : TokensModule L) (env : Env) (hashAt : Int → JSString)
    (blockAt : Int → Block) (st : ScanState L) (i : Int)
    (hlookup : env.getblockhash i = .ok (hashAt i))
    (hblock : env.getblock (hashAt i) = .ok (some (blockAt i)))
    (hnext : isNil (blockAt i).nextblockhash = true ∨
      (blockAt i).nextblockhash = some (hashAt (i + 1)))
    (hlink : LinkOk hashAt st i) :
    (∀ h, (scanHash env st i).2 = .ok h → h ∉ st.chainHashesCache → h = hashAt i) ∧
    LinkOk hashAt (scanStep T env st i).1 (i + 1) := by
  have hfresh : ∀ h, (scanHash env st i).2 = .ok h → h ∉ st.chainHashesCache →
      h = hashAt i := by
    intro h hh hnew
    rcases scanHash_of_linkOk env hashAt st i hlookup hlink with h1 | ⟨h2, h3, h4⟩
    · rw [h1] at hh
      exact (Except.ok.inj hh).symm
    · rw [h3] at hh
      cases hh
      exact absurd h4 hnew
  refine ⟨hfresh, ?_⟩
  rcases scanStep_shape T env st i with ⟨hc, hcur, hcase⟩ | ⟨h, hh, hnew, hb, -, -⟩ |
    ⟨h, b, hh, hnew, hb, hc, hcur⟩
  · rcases hcase with ⟨f, hf⟩ | ⟨h, hh, hmem⟩ | ⟨h, f, hh, hnew, hb⟩
    · rcases scanHash_of_linkOk env hashAt st i hlookup hlink with h1 | ⟨h2, h3, -⟩
      · rw [h1] at hf; cases hf
      · rw [h3] at hf; cases hf
    · rcases hlink with hnone | ⟨b, hb, hnil | hnx | ⟨h2, hh2, hmem2⟩⟩
      · left; rw [hcur]; exact hnone
      · right; exact ⟨b, by rw [hcur]; exact hb, Or.inl hnil⟩
      · right
        refine ⟨b, by rw [hcur]; exact hb, ?_⟩
        by_cases hnil : isNil b.nextblockhash = true
        · exact Or.inl hnil
        · right; right
          have := scanHash_of_link env st i _ hlookup (Or.inr ⟨b, hb, Or.inr hnx⟩)
          rw [this] at hh
          cases hh
          exact ⟨hashAt i, hnx, by rw [hc]; exact hmem⟩
      · right
        exact ⟨b, by rw [hcur]; exact hb, Or.inr (Or.inr ⟨h2, hh2, by rw [hc]; exact hmem2⟩)⟩
    · rw [hfresh h hh hnew, hblock] at hb
      cases hb
  · rw [hfresh h hh hnew, hblock] at hb
    cases hb
  · rw [hfresh h hh hnew, hblock] at hb
    cases hb
    right
    refine ⟨blockAt i, hcur, ?_⟩
    rcases hnext with hnil | hnx
    · exact Or.inl hnil
    · exact Or.inr (Or.inl hnx)

/-- The scan loop is the scan step at each of its heights in ascending
order, up to the first fault. -/
theorem scanLoop_eq_scanHeights {L : Type} (T : TokensModule L) (env : Env) (remaining : Nat)
    (i : Int) (st : ScanState L) :
    scanLoop T env remaining i st = scanHeights T env (heightsFrom i remaining) st := by
  induction remaining generalizing i st with
  | zero => rfl
  | succ n ih =>
    rw [scanLoop, heightsFrom, scanHeights]
    rcases scanStep T env st i with ⟨st1, r⟩
    cases r with
    | error f => rfl
    | ok u => exact ih _ _

theorem scanLoop_succ_state {L : Type} (T : TokensModule L) (env : Env) (n : Nat) (i : Int)
    (st : ScanState L) :
    (scanLoop T env (n + 1) i st).1 = (scanStep T env st i).1 ∨
    (scanLoop T env (n + 1) i st).1 = (scanLoop T env n (i + 1) (scanStep T env st i).1).1 := by
  rw [scanLoop]
  split
  · rename_i heq
    left; rw [heq]
  · rename_i heq
    right; rw [heq]

theorem ConsistentRange.tail {env : Env} {hashAt : Int → JSString} {blockAt : Int → Block}
    {i : Int} {n : Nat} (h : ConsistentRange env hashAt blockAt i (n + 1)) :
    ConsistentRange env hashAt blockAt (i + 1) n := by
  have hsub : ∀ j, j ∈ heightsFrom (i + 1) n → j ∈ heightsFrom i (n + 1) := by
    intro j hj
    simp [heightsFrom, hj]
  exact ⟨fun j hj => h.1 j (hsub j hj), fun j hj k hk => h.2 j (hsub j hj) k (hsub k hk)⟩

/-- The invocations of a scan loop over `n` heights from `i` on: they are
ordered by (height, index); each belongs to a block the node returned for a
hash that was not in the processed set; all invocations of one height belong
to the same block; and on a consistent node that block is the block of the
height. -/
theorem scanLoop_log {L : Type} (T : TokensModule L) (env : Env) (n : Nat) (i : Int)
    (st : ScanState L) :
    ∃ calls, ScanLog T st (scanLoop T env n i st).1 calls ∧
      calls.Pairwise Invocation.before ∧
      (∀ c ∈ calls, c.height ∈ heightsFrom i n ∧
        (∃ h, h ∉ st.chainHashesCache ∧ env.getblock h = .ok (some c.block)) ∧
        c.Genuine T env) ∧
      (∀ c ∈ calls, ∀ d ∈ calls, c.height = d.height → c.block = d.block) ∧
      (∀ (hashAt : Int → JSString) (blockAt : Int → Block),
        ConsistentRange env hashAt blockAt i n → LinkOk hashAt st i →
        ∀ c ∈ calls, c.block = blockAt c.height) := by
  induction n generalizing i st with
  | zero =>
    exact ⟨[], ScanLog.refl T st, List.Pairwise.nil, by simp, by simp, by simp⟩
  | succ n ih =>
    obtain ⟨cs, hlogs, halls, hpws⟩ := scanStep_log T env st i
    have hrest : ∃ cr, ScanLog T (scanStep T env st i).1 (scanLoop T env (n + 1) i st).1 cr ∧
        cr.Pairwise Invocation.before ∧
        (∀ c ∈ cr, c.height ∈ heightsFrom (i + 1) n ∧
          (∃ h, h ∉ (scanStep T env st i).1.chainHashesCache ∧
            env.getblock h = .ok (some c.block)) ∧
          c.Genuine T env) ∧
        (∀ c ∈ cr, ∀ d ∈ cr, c.height = d.height → c.block = d.block) ∧
        (∀ (hashAt : Int → JSString) (blockAt : Int → Block),
          ConsistentRange env hashAt blockAt (i + 1) n →
          LinkOk hashAt (scanStep T env st i).1 (i + 1) →
          ∀ c ∈ cr, c.block = blockAt c.height) := by
      rcases scanLoop_succ_state T env n i st with h | h
      · rw [h]
        exact ⟨[], ScanLog.refl T _, List.Pairwise.nil, by simp, by simp, by simp⟩
      · rw [h]
        exact ih (i + 1) (scanStep T env st i).1
    obtain ⟨cr, hlogr, hpwr, hallr, hsamer, hconsr⟩ := hrest
    have hi : i ∈ heightsFrom i (n + 1) := by simp [heightsFrom]
    refine ⟨cs ++ cr, hlogs.trans hlogr, ?_, ?_, ?_, ?_⟩
    · rw [List.pairwise_append]
      refine ⟨?_, hpwr, ?_⟩
      · apply List.Pairwise.imp_of_mem _ hpws
        intro a b ha hb hab
        exact Or.inr ⟨by rw [(halls a ha).1, (halls b hb).1], hab⟩
      · intro a ha b hb
        left
        rw [(halls a ha).1]
        have := (hallr b hb).1
        rw [mem_heightsFrom] at this
        omega
    · intro c hc
      rw [List.mem_append] at hc
      rcases hc with hc | hc
      · obtain ⟨a1, ⟨h, -, h2, h3⟩, a3⟩ := halls c hc
        exact ⟨by rw [a1]; exact hi, ⟨h, h2, h3⟩, a3⟩
      · obtain ⟨a1, ⟨h, h2, h3⟩, a3⟩ := hallr c hc
        refine ⟨by simp [heightsFrom, a1], ⟨h, ?_, h3⟩, a3⟩
        intro hmem
        exact h2 (scanStep_cache_mono T env st i h hmem)
    · intro c hc d hd hcd
      rw [List.mem_append] at hc hd
      rcases hc with hc | hc <;> rcases hd with hd | hd
      · obtain ⟨-, ⟨h1, e1, -, b1⟩, -⟩ := halls c hc
        obtain ⟨-, ⟨h2, e2, -, b2⟩, -⟩ := halls d hd
        rw [e1] at e2
        cases e2
        rw [b1] at b2
        exact Option.some.inj (Except.ok.inj b2)
      · exfalso
        have h1 := (halls c hc).1
        have h2 := (hallr d hd).1
        rw [mem_heightsFrom] at h2
        omega
      · exfalso
        have h1 := (halls d hd).1
        have h2 := (hallr c hc).1
        rw [mem_heightsFrom] at h2
        omega
      · exact hsamer c hc d hd hcd
    · intro hashAt blockAt hcons hlink c hc
      obtain ⟨hlookup, hblock, -, hnext⟩ := hcons.1 i hi
      obtain ⟨hfresh, hlink2⟩ := scanStep_linkOk T env hashAt blockAt st i hlookup hblock hnext
        hlink
      rw [List.mem_append] at hc
      rcases hc with hc | hc
      · obtain ⟨a1, ⟨h, e1, e2, e3⟩, -⟩ := halls c hc
        rw [hfresh h e1 e2, hblock] at e3
        rw [a1]
        exact (Option.some.inj (Except.ok.inj e3)).symm
      · exact hconsr hashAt blockAt hcons.tail hlink2 c hc

/-! ## Order of processing -/

/-- The invocations of one scan. -/
theorem getMsgsFromChain_log {L : Type} (T : TokensModule L) (env : Env) (st : ScanState L)
    (nBlocksTotal : Int) :
    ∃ calls, ScanLog T st (getMsgsFromChain T env st nBlocksTotal).1 calls ∧
      calls.Pairwise Invocation.before ∧
      (∀ c ∈ calls, c.Genuine T env ∧
        ∃ h, h ∉ st.chainHashesCache ∧ env.getblock h = .ok (some c.block)) ∧
      (∀ c ∈ calls, ∀ d ∈ calls, c.height = d.height → c.block = d.block) ∧
      (∀ (best : JSString) (tip : Block), env.getbestblockhash = .ok best →
        env.getblock best = .ok (some tip) →
        (∀ c ∈ calls, tip.height - nBlocksTotal ≤ c.height ∧ c.height ≤ tip.height) ∧
        ∀ (hashAt : Int → JSString) (blockAt : Int → Block),
          ConsistentRange env hashAt blockAt (tip.height - nBlocksTotal)
            (nBlocksTotal + 1).toNat →
          ∀ c ∈ calls, c.block = blockAt c.height) := by
  have hsilent1 : ∀ e ∈ [Event.getbestblockhash],
      e.isInvocation = false ∧ e.isLedgerCall = false ∧ e.isTokenCall = false := by
    intro e he
    simp only [List.mem_singleton] at he
    subst he
    exact ⟨rfl, rfl, rfl⟩
  unfold getMsgsFromChain
  simp only
  rcases hbest : env.getbestblockhash with f | best
  · simp only
    refine ⟨[], ?_, List.Pairwise.nil, by simp, by simp, by simp⟩
    exact ScanLog.of_trace T _ _ [.getbestblockhash] rfl hsilent1 rfl rfl
  · simp only
    have hsilent2 : ∀ e ∈ [Event.getbestblockhash, Event.getblock best],
        e.isInvocation = false ∧ e.isLedgerCall = false ∧ e.isTokenCall = false := by
      intro e he
      simp only [List.mem_cons, List.mem_singleton, List.not_mem_nil, or_false] at he
      rcases he with rfl | rfl <;> exact ⟨rfl, rfl, rfl⟩
    rcases htip : env.getblock best with f | r
    · simp only
      refine ⟨[], ?_, List.Pairwise.nil, by simp, by simp, by simp⟩
      exact ScanLog.of_trace T _ _ [.getbestblockhash, .getblock best] (by simp) hsilent2
        rfl rfl
    · cases r with
      | none =>
        simp only
        refine ⟨[], ?_, List.Pairwise.nil, by simp, by simp, by simp⟩
        exact ScanLog.of_trace T _ _ [.getbestblockhash, .getblock best] (by simp) hsilent2
          rfl rfl
      | some tip =>
        simp only
        have hcount : (tip.height + 1 - (tip.height - nBlocksTotal)).toNat =
            (nBlocksTotal + 1).toNat := by
          congr 1; ring
        rw [hcount]
        have h0 : ScanLog T st
            { st with
              isScanningBlocks := true
              currentScanBlock := none
              trace := st.trace ++ [.getbestblockhash] ++ [.getblock best] ++
                [.console .log .scanningBlockRange] } [] :=
          ScanLog.of_trace T _ _
            [.getbestblockhash, .getblock best, .console .log .scanningBlockRange]
            (by simp) (by
              intro e he
              simp only [List.mem_cons, List.mem_singleton, List.not_mem_nil, or_false] at he
              rcases he with rfl | rfl | rfl <;> exact ⟨rfl, rfl, rfl⟩) rfl rfl
        obtain ⟨calls, hlog, hpw, hall, hsame, hcons⟩ := scanLoop_log T env
          (nBlocksTotal + 1).toNat (tip.height - nBlocksTotal)
          { st with
            isScanningBlocks := true
            currentScanBlock := none
            trace := st.trace ++ [.getbestblockhash] ++ [.getblock best] ++
              [.console .log .scanningBlockRange] }
        have hfacts : (∀ c ∈ calls, c.Genuine T env ∧
              ∃ h, h ∉ st.chainHashesCache ∧ env.getblock h = .ok (some c.block)) ∧
            (∀ c ∈ calls, ∀ d ∈ calls, c.height = d.height → c.block = d.block) ∧
            (∀ (best2 : JSString) (tip2 : Block),
              (Except.ok best : Except Fault JSString) = Except.ok best2 →
              env.getblock best2 = Except.ok (some tip2) →
              (∀ c ∈ calls, tip2.height - nBlocksTotal ≤ c.height ∧ c.height ≤ tip2.height) ∧
              ∀ (hashAt : Int → JSString) (blockAt : Int → Block),
                ConsistentRange env hashAt blockAt (tip2.height - nBlocksTotal)
                  (nBlocksTotal + 1).toNat →
                ∀ c ∈ calls, c.block = blockAt c.height) := by
          refine ⟨fun c hc => ⟨(hall c hc).2.2, (hall c hc).2.1⟩, hsame, ?_⟩
          intro best2 tip2 hb ht
          cases hb
          rw [htip] at ht
          cases ht
          constructor
          · intro c hc
            have := (hall c hc).1
            rw [mem_heightsFrom] at this
            by_cases hn : 0 ≤ nBlocksTotal + 1
            · rw [Int.toNat_of_nonneg hn] at this
              omega
            · have h0 : (nBlocksTotal + 1).toNat = 0 := by
                apply Int.toNat_eq_zero.mpr; omega
              rw [h0] at this
              omega
          · intro hashAt blockAt hc
            exact hcons hashAt blockAt hc (Or.inl rfl)
        split
        · rename_i st4 f heq
          rw [heq] at hlog
          exact ⟨calls, by simpa using h0.trans hlog, hpw, hfacts⟩
        · rename_i st4 u heq
          rw [heq] at hlog
          have h5 : ScanLog T st4
              { st4 with
                isScanningBlocks := false
                trace := st4.trace ++ [.console .log .scanDone] } [] :=
            ScanLog.of_trace T _ _ [.console .log .scanDone] rfl (by
              intro e he
              simp only [List.mem_singleton] at he
              subst he
              exact ⟨rfl, rfl, rfl⟩) rfl rfl
          exact ⟨calls, by simpa using (h0.trans hlog).trans h5, hpw, hfacts⟩

/-- C12 (ordering): whatever the node answers, the invocations of
`processState` by one scan form a list `calls`, in the order they are made,
that is strictly ascending in (height, index within the block). The trace of
the scan shows each entry into `processState` followed by the ledger calls of
that invocation before the next entry; the token state after the scan is the
old one after the calls into the token module in the order of the trace;
`chainMessages` gains one entry per invocation in this order. Each invocation
handles the transaction at its index of a block the node returned, all
invocations of one height handle the same block, and on a consistent node the
heights are those of the range and the block is the block of the height. -/
theorem processing_order {L : Type} (T : TokensModule L) (env : Env) (st : ScanState L)
    (nBlocksTotal : Int) :
    ∃ (calls : List Invocation) (new : List Event),
      (getMsgsFromChain T env st nBlocksTotal).1.trace = st.trace ++ new ∧
      new.filter (fun e => e.isInvocation || e.isLedgerCall) =
        calls.flatMap Invocation.events ∧
      (getMsgsFromChain T env st nBlocksTotal).1.ledger =
        (new.filter Event.isTokenCall).foldl T.call st.ledger ∧
      (getMsgsFromChain T env st nBlocksTotal).1.chainMessages =
        st.chainMessages ++ calls.map Invocation.message ∧
      calls.Pairwise Invocation.before ∧
      (∀ c ∈ calls, c.Genuine T env ∧ ∃ h, env.getblock h = .ok (some c.block)) ∧
      (∀ c ∈ calls, ∀ d ∈ calls, c.height = d.height → c.block = d.block) ∧
      (∀ (best : JSString) (tip : Block) (hashAt : Int → JSString) (blockAt : Int → Block),
        env.getbestblockhash = .ok best → env.getblock best = .ok (some tip) →
        ConsistentRange env hashAt blockAt (tip.height - nBlocksTotal)
          (nBlocksTotal + 1).toNat →
        ∀ c ∈ calls, tip.height - nBlocksTotal ≤ c.height ∧ c.height ≤ tip.height ∧
          c.block = blockAt c.height) := by
  obtain ⟨calls, ⟨new, h1, h2, h3, h4⟩, hpw, hall, hsame, hcons⟩ :=
    getMsgsFromChain_log T env st nBlocksTotal
  refine ⟨calls, new, h1, h2, h3, h4, hpw, ?_, hsame, ?_⟩
  · intro c hc
    obtain ⟨g, h, -, hb⟩ := hall c hc
    exact ⟨g, h, hb⟩
  · intro best tip hashAt blockAt hbest htip hc c hmem
    obtain ⟨hrange, hblk⟩ := hcons best tip hbest htip
    exact ⟨(hrange c hmem).1, (hrange c hmem).2, hblk hashAt blockAt hc c hmem⟩

/-- The scan of heights 100 to 102 of the sample chain from cold start: its
messages are those of the transactions `t1` (height 100) and `t2`, `t3`, `t4`
(height 102, indices 1 to 3), in this order, and every invocation is at a
height from 100 to 102, on the block of that height. -/
theorem processing_order_witness :
    (getMsgsFromChain specTokens sampleChain (ScanState.initial sampleLedger)
        2).1.chainMessages.map ChainMessage.tx =
      [some "t1".toList, some "t2".toList, some "t3".toList, some "t4".toList] ∧
    ∃ (calls : List Invocation),
      (getMsgsFromChain specTokens sampleChain (ScanState.initial sampleLedger)
          2).1.chainMessages = calls.map Invocation.message ∧
      calls.Pairwise Invocation.before ∧
      ∀ c ∈ calls, (100 : Int) ≤ c.height ∧ c.height ≤ 102 ∧
        c.block.hash =
          (if c.height = 100 then "b0".toList else if c.height = 101 then "b1".toList
            else "b2".toList) := by
  refine ⟨by decide, ?_⟩
  obtain ⟨calls, new, -, -, -, h4, hpw, -, -, hcons⟩ :=
    processing_order specTokens sampleChain (ScanState.initial sampleLedger) 2
  refine ⟨calls, h4, hpw, ?_⟩
  intro c hc
  obtain ⟨h1, h2, h3⟩ := hcons "b2".toList sampleBlock2 _ _ rfl rfl sampleChain_consistent c hc
  refine ⟨h1, h2, ?_⟩
  rw [h3]
  have h1 : (100 : Int) ≤ c.height := h1
  have h2 : c.height ≤ 102 := h2
  generalize c.height = j at h1 h2
  interval_cases j <;> rfl

/-! ## The range of a scan -/

theorem heightsFrom_pairwise (i : Int) (n : Nat) : (heightsFrom i n).Pairwise (· < ·) := by
  induction n generalizing i with
  | zero => exact List.Pairwise.nil
  | succ n ih =>
    rw [heightsFrom, List.pairwise_cons]
    refine ⟨?_, ih (i + 1)⟩
    intro j hj
    rw [mem_heightsFrom] at hj
    omega

/-- A completed scan loop over a consistent range of heights none of which
is processed yet appends the hashes of the heights, in ascending order, to
the processed set. -/
theorem scanLoop_cache_eq {L : Type} (T : TokensModule L) (env : Env) (hashAt : Int → JSString)
    (blockAt : Int → Block) (remaining : Nat) (i : Int) (st : ScanState L)
    (hcons : ConsistentRange env hashAt blockAt i remaining)
    (hcur : st.currentScanBlock = none ∨
      ∃ b, st.currentScanBlock = some b ∧
        (isNil b.nextblockhash = true ∨ b.nextblockhash = some (hashAt i)))
    (hfresh : ∀ j ∈ heightsFrom i remaining, hashAt j ∉ st.chainHashesCache)
    (hok : (scanLoop T env remaining i st).2 = .ok ()) :
    (scanLoop T env remaining i st).1.chainHashesCache =
      st.chainHashesCache ++ (heightsFrom i remaining).map hashAt := by
  induction remaining generalizing i st with
  | zero => simp [scanLoop, heightsFrom]
  | succ n ih =>
    have hi : i ∈ heightsFrom i (n + 1) := by simp [heightsFrom]
    obtain ⟨hlookup, hblock, hhash, hlink⟩ := hcons.1 i hi
    have hsh := scanHash_of_link env st i (hashAt i) hlookup hcur
    obtain ⟨hc, hb⟩ := scanStep_fetch T env st i (hashAt i) (blockAt i) hsh (hfresh i hi) hblock
    obtain ⟨-, heq⟩ := scanLoop_step T env n i st hok
    rw [heq] at hok ⊢
    have hsub : ∀ j, j ∈ heightsFrom (i + 1) n → j ∈ heightsFrom i (n + 1) := by
      intro j hj
      simp [heightsFrom, hj]
    have hfresh2 : ∀ j ∈ heightsFrom (i + 1) n,
        hashAt j ∉ (scanStep T env st i).1.chainHashesCache := by
      intro j hj
      rw [hc, hhash]
      simp only [List.mem_append, List.mem_singleton, not_or]
      refine ⟨hfresh j (hsub j hj), ?_⟩
      intro hjk
      have := hcons.2 j (hsub j hj) i hi hjk
      rw [mem_heightsFrom] at hj
      omega
    rw [ih (i + 1) (scanStep T env st i).1 hcons.tail (Or.inr ⟨blockAt i, hb, hlink⟩) hfresh2 hok,
      hc, hhash]
    simp [heightsFrom]

/-- The daemon loop on cold start, with a best block at the height the node
counts: the scan runs over the heights from the first SCP block on. -/
theorem daemonLoop_cold {L : Type} (T : TokensModule L) (env : Env) (st : ScanState L)
    (best : JSString) (tip : Block) (c : Int)
    (hcold : st.chainHashesCache = []) (hidle : st.isScanningBlocks = false)
    (hcount : env.getblockcount = .ok c) (hbest : env.getbestblockhash = .ok best)
    (htip : env.getblock best = .ok (some tip)) (hheight : tip.height = c) :
    daemonLoop T env true st =
      match scanHeights T env (heightsFrom nFirstBlock (c + 1 - nFirstBlock).toNat)
        { st with
          isScanningBlocks := true
          currentScanBlock := none
          trace := st.trace ++ [.getblockcount, .getbestblockhash, .getblock best,
            .console .log .scanningBlockRange] } with
      | (st1, .ok _) =>
        { st1 with isScanningBlocks := false, trace := st1.trace ++ [.console .log .scanDone] }
      | (st1, .error _) =>
        { st1 with
          isScanningBlocks := false
          trace := st1.trace ++ [.console .warn .unableToScanBlocks] } := by
  subst hheight
  have hstart : tip.height - (tip.height - nFirstBlock) = nFirstBlock := by ring
  have hlen : st.chainHashesCache.length = 0 := by rw [hcold]; rfl
  unfold daemonLoop
  simp only [hlen, hidle, hcount, Bool.not_true, Bool.false_eq_true, reduceIte,
    Bool.not_false]
  unfold getMsgsFromChain
  simp only [hbest, htip, hstart, scanLoop_eq_scanHeights, List.append_assoc,
    List.cons_append, List.nil_append]
  rcases scanHeights T env (heightsFrom nFirstBlock (tip.height + 1 - nFirstBlock).toNat)
    { st with
      isScanningBlocks := true
      currentScanBlock := none
      trace := st.trace ++ [.getblockcount, .getbestblockhash, .getblock best,
        .console .log .scanningBlockRange] } with ⟨st1, r⟩
  cases r with
  | error f => rfl
  | ok u => rfl

/-- C16 (cold-start range): with an empty processed set, no scan in flight
and a best block at the height `c` the node counts, the scan of the daemon
loop is the scan step at each height of a list, in the order of the list and
up to the first fault; the list holds exactly the heights from 155084 to `c`,
in ascending order, and is empty when `c` is below 155084, in which case the
tick only looks the tip up. On a consistent node a scan that completes leaves
as processed set exactly the hashes of the heights 155084 to `c`, in
ascending order. -/
theorem cold_start_range {L : Type} (T : TokensModule L) (env : Env) (st : ScanState L)
    (best : JSString) (tip : Block) (c : Int)
    (hcold : st.chainHashesCache = []) (hidle : st.isScanningBlocks = false)
    (hcount : env.getblockcount = .ok c) (hbest : env.getbestblockhash = .ok best)
    (htip : env.getblock best = .ok (some tip)) (hheight : tip.height = c) :
    (daemonLoop T env true st =
      match scanHeights T env (heightsFrom nFirstBlock (c + 1 - nFirstBlock).toNat)
        { st with
          isScanningBlocks := true
          currentScanBlock := none
          trace := st.trace ++ [.getblockcount, .getbestblockhash, .getblock best,
            .console .log .scanningBlockRange] } with
      | (st1, .ok _) =>
        { st1 with isScanningBlocks := false, trace := st1.trace ++ [.console .log .scanDone] }
      | (st1, .error _) =>
        { st1 with
          isScanningBlocks := false
          trace := st1.trace ++ [.console .warn .unableToScanBlocks] }) ∧
    (∀ j, j ∈ heightsFrom nFirstBlock (c + 1 - nFirstBlock).toNat ↔ 155084 ≤ j ∧ j ≤ c) ∧
    (heightsFrom nFirstBlock (c + 1 - nFirstBlock).toNat).Pairwise (· < ·) ∧
    (c < 155084 →
      daemonLoop T env true st =
        { st with
          isScanningBlocks := false
          currentScanBlock := none
          trace := st.trace ++ [.getblockcount, .getbestblockhash, .getblock best,
            .console .log .scanningBlockRange, .console .log .scanDone] }) ∧
    (∀ (hashAt : Int → JSString) (blockAt : Int → Block),
      ConsistentRange env hashAt blockAt nFirstBlock (c + 1 - nFirstBlock).toNat →
      (scanHeights T env (heightsFrom nFirstBlock (c + 1 - nFirstBlock).toNat)
        { st with
          isScanningBlocks := true
          currentScanBlock := none
          trace := st.trace ++ [.getblockcount, .getbestblockhash, .getblock best,
            .console .log .scanningBlockRange] }).2 = .ok () →
      (daemonLoop T env true st).chainHashesCache =
        (heightsFrom nFirstBlock (c + 1 - nFirstBlock).toNat).map hashAt) := by
  have hloop := daemonLoop_cold T env st best tip c hcold hidle hcount hbest htip hheight
  refine ⟨hloop, ?_, heightsFrom_pairwise _ _, ?_, ?_⟩
  · intro j
    rw [mem_heightsFrom]
    show nFirstBlock ≤ j ∧ j < nFirstBlock + ((c + 1 - nFirstBlock).toNat : Int) ↔
      nFirstBlock ≤ j ∧ j ≤ c
    have hf : nFirstBlock = 155084 := rfl
    by_cases hn : 0 ≤ c + 1 - nFirstBlock
    · rw [Int.toNat_of_nonneg hn]
      omega
    · have h0 : (c + 1 - nFirstBlock).toNat = 0 := by
        apply Int.toNat_eq_zero.mpr; omega
      rw [h0]
      omega
  · intro hlow
    have hf : nFirstBlock = 155084 := rfl
    have h0 : (c + 1 - nFirstBlock).toNat = 0 := by
      apply Int.toNat_eq_zero.mpr; omega
    rw [hloop, h0]
    simp [heightsFrom, scanHeights]
  · intro hashAt blockAt hcons hok
    rw [hloop]
    rw [← scanLoop_eq_scanHeights] at hok ⊢
    have hcache := scanLoop_cache_eq T env hashAt blockAt _ nFirstBlock
      { st with
        isScanningBlocks := true
        currentScanBlock := none
        trace := st.trace ++ [.getblockcount, .getbestblockhash, .getblock best,
          .console .log .scanningBlockRange] }
      hcons (Or.inl rfl) (by intro j _; simp [hcold]) hok
    rcases hs : scanLoop T env (c + 1 - nFirstBlock).toNat nFirstBlock
      { st with
        isScanningBlocks := true
        currentScanBlock := none
        trace := st.trace ++ [.getblockcount, .getbestblockhash, .getblock best,
          .console .log .scanningBlockRange] } with ⟨st1, r⟩
    rw [hs] at hcache hok
    simp only at hok
    subst hok
    simp only [hcold, List.nil_append] at hcache
    exact hcache

/-- The launch chain with its best block at height 155086 is consistent over
the heights 155084 to 155086. -/
theorem launchChain_consistent :
    ConsistentRange (launchChain 155086) launchHash (launchBlock 155086) nFirstBlock
      ((155086 : Int) + 1 - nFirstBlock).toNat := by
  unfold ConsistentRange
  decide

/-- Cold start on the launch chain with the best block at height 155086: the
processed set becomes the hashes of the heights 155084, 155085 and 155086, in
this order; with the best block at height 155080 no height is visited. -/
theorem cold_start_range_witness :
    (daemonLoop specTokens (launchChain 155086) true
        (ScanState.initial sampleLedger)).chainHashesCache =
      [launchHash 155084, launchHash 155085, launchHash 155086] ∧
    daemonLoop specTokens (launchChain 155080) true (ScanState.initial sampleLedger) =
      { ScanState.initial sampleLedger with
        trace := [.getblockcount, .getbestblockhash, .getblock (launchHash 155080),
          .console .log .scanningBlockRange, .console .log .scanDone] } :=
  ⟨(cold_start_range specTokens (launchChain 155086) (ScanState.initial sampleLedger)
      (launchHash 155086) (launchBlock 155086 155086) 155086 rfl rfl rfl rfl (by decide)
      rfl).2.2.2.2 launchHash (launchBlock 155086) launchChain_consistent (by decide),
    (cold_start_range specTokens (launchChain 155080) (ScanState.initial sampleLedger)
      (launchHash 155080) (launchBlock 155080 155080) 155080 rfl rfl rfl rfl (by decide)
      rfl).2.2.2.1 (by decide)⟩

/-! ## The processed set -/

/-- What a scan step adds to the processed set, on a node that returns
blocks under their own hash: nothing, or the examined hash, which was not in
the set. -/
theorem scanStep_cache_added {L : Type} (T : TokensModule L) (env : Env) (st : ScanState L)
    (i : Int) (hc : HashConsistent env) :
    (scanStep T env st i).1.chainHashesCache = st.chainHashesCache ∨
    ∃ h, h ∉ st.chainHashesCache ∧
      (scanStep T env st i).1.chainHashesCache = st.chainHashesCache ++ [h] := by
  rcases scanStep_shape T env st i with ⟨h1, -⟩ | ⟨_, -, -, -, h1, -⟩ | ⟨h, b, -, hnew, hb, h1, -⟩
  · exact Or.inl h1
  · exact Or.inl h1
  · right
    refine ⟨h, hnew, ?_⟩
    rw [h1, hc h b hb]

/-- What a scan loop adds to the processed set, on a node that returns
blocks under their own hash: hashes that were not in the set, each once. -/
theorem scanLoop_cache_added {L : Type} (T : TokensModule L) (env : Env) (n : Nat) (i : Int)
    (st : ScanState L) (hc : HashConsistent env) :
    ∃ added, (scanLoop T env n i st).1.chainHashesCache = st.chainHashesCache ++ added ∧
      (∀ x ∈ added, x ∉ st.chainHashesCache) ∧ added.Nodup := by
  induction n generalizing i st with
  | zero => exact ⟨[], by simp [scanLoop], by simp, List.nodup_nil⟩
  | succ n ih =>
    have hstep := scanStep_cache_added T env st i hc
    rcases scanLoop_succ_state T env n i st with h | h
    · rw [h]
      rcases hstep with h1 | ⟨x, hx, h1⟩
      · exact ⟨[], by simp [h1], by simp, List.nodup_nil⟩
      · exact ⟨[x], h1, by simpa using hx, List.nodup_singleton x⟩
    · rw [h]
      obtain ⟨added, ha1, ha2, ha3⟩ := ih (i + 1) (scanStep T env st i).1
      rcases hstep with h1 | ⟨x, hx, h1⟩
      · rw [h1] at ha1 ha2
        exact ⟨added, ha1, ha2, ha3⟩
      · rw [h1] at ha1 ha2
        refine ⟨x :: added, by simp [ha1], ?_, ?_⟩
        · intro y hy
          simp only [List.mem_cons] at hy
          rcases hy with rfl | hy
          · exact hx
          · intro hmem
            exact ha2 y hy (List.mem_append_left _ hmem)
        · rw [List.nodup_cons]
          refine ⟨?_, ha3⟩
          intro hmem
          exact ha2 x hmem (by simp)

theorem scanLoop_cache_grows {L : Type} (T : TokensModule L) (env : Env) (n : Nat) (i : Int)
    (st : ScanState L) :
    ∃ added, (scanLoop T env n i st).1.chainHashesCache = st.chainHashesCache ++ added := by
  induction n generalizing i st with
  | zero => exact ⟨[], by simp [scanLoop]⟩
  | succ n ih =>
    have hstep : ∃ a, (scanStep T env st i).1.chainHashesCache = st.chainHashesCache ++ a := by
      rcases scanStep_shape T env st i with ⟨h1, -⟩ | ⟨_, -, -, -, h1, -⟩ |
        ⟨_, b, -, -, -, h1, -⟩
      · exact ⟨[], by simp [h1]⟩
      · exact ⟨[], by simp [h1]⟩
      · exact ⟨[b.hash], h1⟩
    obtain ⟨a, ha⟩ := hstep
    rcases scanLoop_succ_state T env n i st with h | h
    · rw [h]; exact ⟨a, ha⟩
    · rw [h]
      obtain ⟨a2, ha2⟩ := ih (i + 1) (scanStep T env st i).1
      exact ⟨a ++ a2, by rw [ha2, ha, List.append_assoc]⟩

/-- The processed set after a scan is the processed set its loop leaves. -/
theorem getMsgsFromChain_cache {L : Type} (T : TokensModule L) (env : Env) (st : ScanState L)
    (nBlocksTotal : Int) :
    (getMsgsFromChain T env st nBlocksTotal).1.chainHashesCache = st.chainHashesCache ∨
    ∃ (n : Nat) (i : Int) (st3 : ScanState L), st3.chainHashesCache = st.chainHashesCache ∧
      (getMsgsFromChain T env st nBlocksTotal).1.chainHashesCache =
        (scanLoop T env n i st3).1.chainHashesCache := by
  unfold getMsgsFromChain
  simp only
  rcases env.getbestblockhash with f | best
  · exact Or.inl rfl
  · simp only
    rcases env.getblock best with f | r
    · exact Or.inl rfl
    · cases r with
      | none => exact Or.inl rfl
      | some tip =>
        right
        refine ⟨(tip.height + 1 - (tip.height - nBlocksTotal)).toNat,
          tip.height - nBlocksTotal,
          { st with
            isScanningBlocks := true
            currentScanBlock := none
            trace := st.trace ++ [.getbestblockhash] ++ [.getblock best] ++
              [.console .log .scanningBlockRange] }, rfl, ?_⟩
        simp only
        rcases scanLoop T env (tip.height + 1 - (tip.height - nBlocksTotal)).toNat
          (tip.height - nBlocksTotal)
          { st with
            isScanningBlocks := true
            currentScanBlock := none
            trace := st.trace ++ [.getbestblockhash] ++ [.getblock best] ++
              [.console .log .scanningBlockRange] } with ⟨st4, r⟩
        cases r <;> rfl

/-- What a tick of the daemon loop does to the processed set is what a scan
does, if it scans at all. -/
theorem daemonLoop_cache {L : Type} (T : TokensModule L) (env : Env) (isFullnode : Bool)
    (st : ScanState L) :
    (daemonLoop T env isFullnode st).chainHashesCache = st.chainHashesCache ∨
    ∃ (nBlocksTotal : Int) (st0 : ScanState L), st0.chainHashesCache = st.chainHashesCache ∧
      (daemonLoop T env isFullnode st).chainHashesCache =
        (getMsgsFromChain T env st0 nBlocksTotal).1.chainHashesCache := by
  unfold daemonLoop
  split
  · exact Or.inl rfl
  · split
    · by_cases hlen : st.chainHashesCache.length = 0
      · simp only [hlen, reduceIte]
        rcases env.getblockcount with f | c
        · exact Or.inl rfl
        · right
          refine ⟨c - nFirstBlock, { st with trace := st.trace ++ [.getblockcount] }, rfl, ?_⟩
          simp only
          rcases getMsgsFromChain T env { st with trace := st.trace ++ [.getblockcount] }
            (c - nFirstBlock) with ⟨st1, r⟩
          cases r <;> rfl
      · simp only [hlen, reduceIte]
        right
        refine ⟨20, st, rfl, ?_⟩
        rcases getMsgsFromChain T env st 20 with ⟨st1, r⟩
        cases r <;> rfl
    · exact Or.inl rfl

/-- What a scan adds to the processed set, on a node that returns blocks
under their own hash. -/
theorem getMsgsFromChain_cache_added {L : Type} (T : TokensModule L) (env : Env)
    (st : ScanState L) (nBlocksTotal : Int) (hc : HashConsistent env) :
    ∃ added, (getMsgsFromChain T env st nBlocksTotal).1.chainHashesCache =
        st.chainHashesCache ++ added ∧
      (∀ x ∈ added, x ∉ st.chainHashesCache) ∧ added.Nodup := by
  rcases getMsgsFromChain_cache T env st nBlocksTotal with h | ⟨n, i, st3, h3, h⟩
  · exact ⟨[], by simp [h], by simp, List.nodup_nil⟩
  · obtain ⟨added, h1, h2, hn⟩ := scanLoop_cache_added T env n i st3 hc
    rw [h3] at h1 h2
    exact ⟨added, by rw [h, h1], h2, hn⟩

theorem daemonLoop_cache_added {L : Type} (T : TokensModule L) (env : Env) (isFullnode : Bool)
    (st : ScanState L) (hc : HashConsistent env) :
    ∃ added, (daemonLoop T env isFullnode st).chainHashesCache = st.chainHashesCache ++ added ∧
      (∀ x ∈ added, x ∉ st.chainHashesCache) ∧ added.Nodup := by
  rcases daemonLoop_cache T env isFullnode st with h | ⟨n, st0, h0, h⟩
  · exact ⟨[], by simp [h], by simp, List.nodup_nil⟩
  · obtain ⟨added, h1, h2, hn⟩ := getMsgsFromChain_cache_added T env st0 n hc
    rw [h0] at h1 h2
    exact ⟨added, by rw [h, h1], h2, hn⟩

theorem daemonLoop_cache_grows {L : Type} (T : TokensModule L) (env : Env) (isFullnode : Bool)
    (st : ScanState L) :
    ∃ added, (daemonLoop T env isFullnode st).chainHashesCache = st.chainHashesCache ++ added := by
  rcases daemonLoop_cache T env isFullnode st with h | ⟨n, st0, h0, h⟩
  · exact ⟨[], by simp [h]⟩
  · rcases getMsgsFromChain_cache T env st0 n with h1 | ⟨m, i, st3, h3, h1⟩
    · exact ⟨[], by rw [h, h1, h0]; simp⟩
    · obtain ⟨added, h2⟩ := scanLoop_cache_grows T env m i st3
      exact ⟨added, by rw [h, h1, h2, h3, h0]⟩

/-- Over any sequence of ticks on nodes that return blocks under their own
hash, a processed hash keeps its number of occurrences in the processed set:
the block is not handled again. -/
theorem daemonLoops_count {L : Type} (T : TokensModule L) (envs : List Env) (st : ScanState L)
    (h : JSString) (hc : ∀ env ∈ envs, HashConsistent env) (hmem : h ∈ st.chainHashesCache) :
    (daemonLoops T envs st).chainHashesCache.count h = st.chainHashesCache.count h := by
  induction envs generalizing st with
  | nil => rfl
  | cons env rest ih =>
    obtain ⟨added, h1, h2, -⟩ := daemonLoop_cache_added T env true st
      (hc env (List.mem_cons_self _ _))
    rw [daemonLoops, ih _ (fun e he => hc e (List.mem_cons_of_mem _ he))
      (by rw [h1]; exact List.mem_append_left _ hmem), h1, List.count_append]
    have : added.count h = 0 := by
      apply List.count_eq_zero_of_not_mem
      intro hin
      exact h2 h hin hmem
    omega

/-- The launch chain returns blocks under their own hash. -/
theorem launchChain_hashConsistent (tip : Int) : HashConsistent (launchChain tip) := by
  intro h b hb
  unfold launchChain at hb
  simp only at hb
  split at hb
  · split at hb
    · split at hb
      · rename_i hcond
        cases hb
        exact hcond.2
      · cases hb
    · cases hb
  · cases hb

/-- C19 (a block is marked processed before its transactions are handled):
`getMsgsFromBlock` leaves the hash of the block appended to the processed
set whatever happens to its transactions, also when the handling stops
early; a tick of the daemon loop only appends to the processed set; a scan
step whose examined hash is in the processed set fetches nothing; and on a
node that returns blocks under their own hash, every invocation of
`processState` by a later scan is for a block whose hash was not in the
processed set, the scan adds only new hashes, and over any sequence of later
ticks a processed hash is never added again, so its block is not handled
again. -/
theorem marked_before_handled {L : Type} (T : TokensModule L) (env : Env) (st : ScanState L) :
    (∀ blk : Block, (getMsgsFromBlock T env st (some blk)).1.chainHashesCache =
      st.chainHashesCache ++ [blk.hash]) ∧
    (∀ isFullnode : Bool, ∃ added,
      (daemonLoop T env isFullnode st).chainHashesCache = st.chainHashesCache ++ added) ∧
    (∀ (i : Int) (h : JSString), (scanHash env st i).2 = .ok h → h ∈ st.chainHashesCache →
      scanStep T env st i = ({ st with trace := st.trace ++ (scanHash env st i).1 }, .ok ())) ∧
    (HashConsistent env → ∀ nBlocksTotal : Int, ∃ calls added,
      ScanLog T st (getMsgsFromChain T env st nBlocksTotal).1 calls ∧
      (∀ c ∈ calls, c.block.hash ∉ st.chainHashesCache) ∧
      (getMsgsFromChain T env st nBlocksTotal).1.chainHashesCache =
        st.chainHashesCache ++ added ∧
      (∀ x ∈ added, x ∉ st.chainHashesCache) ∧ added.Nodup) ∧
    (∀ (envs : List Env) (h : JSString), (∀ e ∈ envs, HashConsistent e) →
      h ∈ st.chainHashesCache →
      (daemonLoops T envs st).chainHashesCache.count h = st.chainHashesCache.count h) := by
  refine ⟨fun blk => (getMsgsFromBlock_cache T env st blk).1,
    fun isFullnode => daemonLoop_cache_grows T env isFullnode st,
    fun i h hh hmem => scanStep_skip T env st i h hh hmem, ?_,
    fun envs h hc hmem => daemonLoops_count T envs st h hc hmem⟩
  intro hc nBlocksTotal
  obtain ⟨calls, hlog, -, hall, -, -⟩ := getMsgsFromChain_log T env st nBlocksTotal
  obtain ⟨added, h1, h2, h3⟩ := getMsgsFromChain_cache_added T env st nBlocksTotal hc
  refine ⟨calls, added, hlog, ?_, h1, h2, h3⟩
  intro c hcm
  obtain ⟨-, h, hnew, hb⟩ := hall c hcm
  rw [hc h c.block hb]
  exact hnew

/-- On the launch chain with its best block at height 155087, the scan of
process start ends on the exception at the first transaction of block 155087,
whose hash is in the processed set by then; two further ticks do not add the
hash again, and the only message handled ever is the mint of block 155085:
the mint that follows in block 155087 is never passed to `processState`. -/
theorem marked_before_handled_witness :
    (daemonLoop specTokens (launchChain 155087) true
        (ScanState.initial sampleLedger)).trace.getLast? =
      some (.console .warn .unableToScanBlocks) ∧
    (daemonLoop specTokens (launchChain 155087) true
        (ScanState.initial sampleLedger)).chainHashesCache.count (launchHash 155087) = 1 ∧
    (daemonLoops specTokens [launchChain 155087, launchChain 155087]
        (daemonLoop specTokens (launchChain 155087) true
          (ScanState.initial sampleLedger))).chainHashesCache.count (launchHash 155087) =
      (daemonLoop specTokens (launchChain 155087) true
        (ScanState.initial sampleLedger)).chainHashesCache.count (launchHash 155087) ∧
    (daemonLoops specTokens [launchChain 155087, launchChain 155087]
        (daemonLoop specTokens (launchChain 155087) true
          (ScanState.initial sampleLedger))).chainMessages.map ChainMessage.time = [155085] :=
  ⟨by decide, by decide,
    (marked_before_handled specTokens (launchChain 155087)
      (daemonLoop specTokens (launchChain 155087) true (ScanState.initial sampleLedger))).2.2.2.2
      [launchChain 155087, launchChain 155087] (launchHash 155087)
      (fun e he => by
        simp only [List.mem_cons, List.mem_singleton, List.not_mem_nil, or_false, or_self] at he
        subst he
        exact launchChain_hashConsistent 155087)
      (by decide),
    by decide⟩

/-! ## The forward link after a skip -/

/-- Once the forward link of the cached block is a hash of the processed set,
the scan step at any height examines this hash, without a lookup, and skips:
nothing changes. -/
theorem scanStep_stale {L : Type} (T : TokensModule L) (env : Env) (st : ScanState L)
    (b : Block) (h : JSString) (i : Int) (hcur : st.currentScanBlock = some b)
    (hlink : b.nextblockhash = some h) (hne : h ≠ []) (hmem : h ∈ st.chainHashesCache) :
    (scanHash env st i).2 = .ok h ∧ scanStep T env st i = (st, .ok ()) := by
  have hsh : scanHash env st i = ([], .ok h) := by
    unfold scanHash
    rw [hcur]
    have hnil : isNil (some h) = false := by
      cases h with
      | nil => exact absurd rfl hne
      | cons _ _ => rfl
    simp only [hlink, hnil, Bool.false_eq_true, reduceIte]
  refine ⟨by rw [hsh], ?_⟩
  rw [scanStep_skip T env st i h (by rw [hsh]) hmem, hsh]
  simp

/-- The launch chain with its best block at height 155085 is consistent over
the 21 heights from 155065 on. -/
theorem launchChain_consistent_warm :
    ConsistentRange (launchChain 155085) launchHash (launchBlock 155085) 155065 21 := by
  unfold ConsistentRange
  decide

/-- C15 fails on the code: the node is consistent; the scan of process start,
with the best block at height 155084, handles that block; the next tick, with
the best block at height 155085, scans the heights 155065 to 155085: it
handles the blocks 155065 to 155083, skips height 155084 as processed, and at
height 155085 neither looks the hash up nor handles the block, which is in the
range and not processed: its hash is not added to the processed set and its
mint is not applied. A further tick handles it. -/
theorem stale_forward_link_skips_block :
    ConsistentRange (launchChain 155085) launchHash (launchBlock 155085) 155065 21 ∧
    (daemonLoop specTokens (launchChain 155084) true
        (ScanState.initial sampleLedger)).chainHashesCache = [launchHash 155084] ∧
    (daemonLoops specTokens [launchChain 155084, launchChain 155085]
        (ScanState.initial sampleLedger)).chainHashesCache =
      launchHash 155084 :: (heightsFrom 155065 19).map launchHash ∧
    Event.getblockhash 155085 ∉
      (daemonLoops specTokens [launchChain 155084, launchChain 155085]
        (ScanState.initial sampleLedger)).trace ∧
    (daemonLoops specTokens [launchChain 155084, launchChain 155085]
        (ScanState.initial sampleLedger)).ledger.balanceOf sampleId "sXcreator".toList = 0 ∧
    (daemonLoops specTokens [launchChain 155084, launchChain 155085, launchChain 155085]
        (ScanState.initial sampleLedger)).ledger.balanceOf sampleId "sXcreator".toList = 500 :=
  ⟨launchChain_consistent_warm, by decide, by decide, by decide, by decide, by decide⟩

end SCP
